import Mathlib

/-!
Verification development for the `jenkins-job-manager` reconciliation core.

The Python sources under `jenkins_job_manager/` are shallowly embedded here:

* `xml_change.py` — `XmlChange` (resource change records) together with the
  `xml.dom.minidom`-based canonicalization `xml_normalize`.  The relevant
  behaviour of the Python standard library (`xml.dom.minidom` parsing via
  expat, `Node.normalize`, `toprettyxml`, `str.strip`, `str.splitlines`,
  `difflib.unified_diff`, `fnmatch.translate` + `re`) is modelled explicitly;
  the models follow the documented stdlib semantics (CPython 3.8+ `writexml`).
* `connect_config.py` — `MetadataConfig`.
* `core.py` — `NameRegexFilter`, and the `JenkinsJobManager` methods
  `read_jobs`, `apply_plan` and the counting generator inside `plan_report`;
  the remote Jenkins API is modelled as an oracle for reads and as a call log
  for writes, and the report template as full iteration of the generators.

All definitions are executable; parsers use explicit fuel so that concrete
inputs evaluate by `rfl`/`decide`.
-/

namespace JJM

/-! ## Python string primitives -/

/-- Characters for which Python's `str.isspace()` is true, restricted to
scalar values (this is the set used by `str.strip()` with no arguments). -/
def pyIsSpace (c : Char) : Bool :=
  (0x9 ≤ c.toNat && c.toNat ≤ 0xd) || c = ' ' ||
  (0x1c ≤ c.toNat && c.toNat ≤ 0x1f) || c.toNat = 0x85 || c.toNat = 0xa0 ||
  c.toNat = 0x1680 || (0x2000 ≤ c.toNat && c.toNat ≤ 0x200a) ||
  c.toNat = 0x2028 || c.toNat = 0x2029 || c.toNat = 0x202f ||
  c.toNat = 0x205f || c.toNat = 0x3000

/-- Python `str.strip()` on a character list: drop leading and trailing
whitespace. -/
def pyStrip (l : List Char) : List Char :=
  ((l.dropWhile pyIsSpace).reverse.dropWhile pyIsSpace).reverse

/-- Line boundary characters recognised by Python `str.splitlines` (besides
the two-character boundary `"\r\n"`, which is handled separately). -/
def pyIsLineBreak (c : Char) : Bool :=
  c = '\n' || c = '\r' || c.toNat = 0xb || c.toNat = 0xc ||
  c.toNat = 0x1c || c.toNat = 0x1d || c.toNat = 0x1e || c.toNat = 0x85 ||
  c.toNat = 0x2028 || c.toNat = 0x2029

/-- Python `str.splitlines()` on a character list.  The accumulator holds the
characters of the current (unterminated) line in reverse order. -/
def pySplitlinesAux (acc : List Char) : List Char → List (List Char)
  | [] => if acc = [] then [] else [acc.reverse]
  | '\r' :: '\n' :: rest => acc.reverse :: pySplitlinesAux [] rest
  | c :: rest =>
    if pyIsLineBreak c then acc.reverse :: pySplitlinesAux [] rest
    else pySplitlinesAux (c :: acc) rest

/-- Python `str.splitlines()` as used on the canonical XML strings. -/
def pySplitlines (s : String) : List String :=
  (pySplitlinesAux [] s.data).map (fun l => String.mk l)

/-- Python string comparison `a < b` (lexicographic on code points), used to
model `list.sort(key=operator.attrgetter("nodeName"))`. -/
def ltChars : List Char → List Char → Bool
  | [], [] => false
  | [], _ :: _ => true
  | _ :: _, [] => false
  | x :: xs, y :: ys => if x = y then ltChars xs ys else decide (x < y)

/-! ## minidom document model

`xml.dom.minidom` documents, restricted to element and text nodes (the only
node kinds produced for the job/view configuration documents this program
handles; comments, CDATA sections, processing instructions inside the root
and doctypes are outside the modelled language, so the modelled parser
rejects them). -/

/-- Attribute lists in document order, names and values as character lists. -/
abbrev Attrs := List (List Char × List Char)

/-- A minidom node: an element with attributes and children, or a text node. -/
inductive XmlNode where
  | elem (name : List Char) (attrs : Attrs) (children : List XmlNode)
  | text (data : List Char)

/-- minidom `nodeName`: the tag name for elements, `"#text"` for text. -/
def nodeName : XmlNode → List Char
  | .elem nm _ _ => nm
  | .text _ => "#text".data

/-! ## Expat parser model

`xml.dom.minidom.parseString` uses expat.  The model covers: an optional
leading XML declaration, one root element, elements with double- or
single-quoted attributes (duplicate attribute names rejected), character
data, the five predefined entities and decimal/hexadecimal character
references, end-of-line normalization, and attribute-value normalization
(literal tab/newline become spaces, referenced whitespace stays). -/

/-- XML whitespace (production `S`). -/
def isXmlWs (c : Char) : Bool :=
  c = ' ' || c = '\t' || c = '\n' || c = '\r'

/-- Name start characters (ASCII letters, `_`, `:`, and all non-ASCII name
characters collapsed to `0x80 ≤ c`). -/
def isNameStart (c : Char) : Bool :=
  c.isAlpha || c = '_' || c = ':' || decide (0x80 ≤ c.toNat)

/-- Name characters. -/
def isNameChar (c : Char) : Bool :=
  isNameStart c || c.isDigit || c = '.' || c = '-'

/-- Characters allowed by the XML 1.0 `Char` production (surrogates cannot
occur in `Char`; the discouraged compatibility characters are not excluded
by expat either for our purposes). -/
def validChar (c : Char) : Bool :=
  c = '\t' || c = '\n' || c = '\r' || decide (0x20 ≤ c.toNat)

/-- Expat end-of-line normalization: `\r\n` and bare `\r` become `\n`. -/
def normalizeEols : List Char → List Char
  | [] => []
  | '\r' :: '\n' :: rest => '\n' :: normalizeEols rest
  | '\r' :: rest => '\n' :: normalizeEols rest
  | c :: rest => c :: normalizeEols rest

/-- Longest prefix of characters satisfying `p`, and the rest. -/
def spanP (p : Char → Bool) : List Char → List Char × List Char
  | [] => ([], [])
  | c :: r =>
    if p c then
      let s := spanP p r
      (c :: s.1, s.2)
    else ([], c :: r)

/-- Skip XML whitespace. -/
def skipWs (l : List Char) : List Char := l.dropWhile isXmlWs

/-- Parse an XML name (input starts at its first character). -/
def parseName : List Char → Option (List Char × List Char)
  | [] => none
  | c :: r =>
    if isNameStart c then
      let s := spanP isNameChar r
      some (c :: s.1, s.2)
    else none

/-- Hexadecimal digit test. -/
def isHexDigitB (c : Char) : Bool :=
  c.isDigit || ('a' ≤ c && c ≤ 'f') || ('A' ≤ c && c ≤ 'F')

/-- Value of a hexadecimal digit. -/
def hexDigitVal (c : Char) : Nat :=
  if c.isDigit then c.toNat - '0'.toNat
  else if 'a' ≤ c && c ≤ 'f' then c.toNat - 'a'.toNat + 10
  else c.toNat - 'A'.toNat + 10

/-- Fold decimal digits to a number. -/
def decFold (ds : List Char) : Nat :=
  ds.foldl (fun acc c => acc * 10 + (c.toNat - '0'.toNat)) 0

/-- Fold hexadecimal digits to a number. -/
def hexFold (ds : List Char) : Nat :=
  ds.foldl (fun acc c => acc * 16 + hexDigitVal c) 0

/-- Turn a character-reference number into a character, rejecting values that
are not valid XML characters (expat: "reference to invalid character
number"). -/
def refChar (n : Nat) : Option Char :=
  if h : n < 0xd800 ∨ (0xe000 ≤ n ∧ n < 0x110000) then
    let c : Char := ⟨UInt32.ofNat n, by
      have hm : (UInt32.ofNat n).toNat = n % 2 ^ 32 := UInt32.toNat_ofNat n
      have hn : n % 2 ^ 32 = n := Nat.mod_eq_of_lt (by omega)
      rcases h with h | h
      · exact Or.inl (by rw [hm, hn]; omega)
      · exact Or.inr (by constructor <;> rw [hm, hn] <;> omega)⟩
    if validChar c then some c else none
  else none

/-- Parse a reference, the input starting just after `&`; returns the
referenced character and the rest after `;`. -/
def parseReference : List Char → Option (Char × List Char)
  | 'l' :: 't' :: ';' :: r => some ('<', r)
  | 'g' :: 't' :: ';' :: r => some ('>', r)
  | 'a' :: 'm' :: 'p' :: ';' :: r => some ('&', r)
  | 'a' :: 'p' :: 'o' :: 's' :: ';' :: r => some ('\'', r)
  | 'q' :: 'u' :: 'o' :: 't' :: ';' :: r => some ('"', r)
  | '#' :: 'x' :: r =>
    let s := spanP isHexDigitB r
    match s.1, s.2 with
    | [], _ => none
    | _ :: _, ';' :: r2 => (refChar (hexFold s.1)).map (fun c => (c, r2))
    | _ :: _, _ => none
  | '#' :: r =>
    let s := spanP Char.isDigit r
    match s.1, s.2 with
    | [], _ => none
    | _ :: _, ';' :: r2 => (refChar (decFold s.1)).map (fun c => (c, r2))
    | _ :: _, _ => none
  | _ => none

/-- Parse character data up to the next `<` (or end of input), expanding
references.  Fuel decreases at every consumed character or reference. -/
def parseText : Nat → List Char → Option (List Char × List Char)
  | _, [] => some ([], [])
  | 0, c :: r => if c = '<' then some ([], c :: r) else none
  | n + 1, c :: r =>
    if c = '<' then some ([], c :: r)
    else if c = '&' then
      match parseReference r with
      | some (ch, r2) => (parseText n r2).map (fun p => (ch :: p.1, p.2))
      | none => none
    else if validChar c then (parseText n r).map (fun p => (c :: p.1, p.2))
    else none

/-- Parse an attribute value up to the closing quote `q`, expanding
references and applying attribute-value normalization to literal
whitespace (a literal `\r` has already become `\n` by end-of-line
normalization). -/
def parseAttrValue (q : Char) : Nat → List Char → Option (List Char × List Char)
  | _, [] => none
  | 0, _ => none
  | n + 1, c :: r =>
    if c = q then some ([], r)
    else if c = '<' then none
    else if c = '&' then
      match parseReference r with
      | some (ch, r2) => (parseAttrValue q n r2).map (fun p => (ch :: p.1, p.2))
      | none => none
    else if validChar c then
      let c2 := if c = '\t' || c = '\n' then ' ' else c
      (parseAttrValue q n r).map (fun p => (c2 :: p.1, p.2))
    else none

mutual

/-- Parse the attribute list of a start tag; stops (after skipping
whitespace) at the first character that cannot start a name.  Duplicate
attribute names are rejected, as by expat. -/
def parseAttrs : Nat → List Char → Attrs → Option (Attrs × List Char)
  | 0, _, _ => none
  | n + 1, input, acc =>
    let r1 := skipWs input
    match r1 with
    | [] => some (acc, [])
    | c :: _ =>
      if isNameStart c then
        match parseName r1 with
        | none => none
        | some (nm, r2) =>
          match skipWs r2 with
          | '=' :: r3 =>
            match skipWs r3 with
            | q :: r4 =>
              if q = '"' || q = '\'' then
                match parseAttrValue q (r4.length + 1) r4 with
                | none => none
                | some (v, r5) =>
                  if acc.any (fun a => a.1 = nm) then none
                  else parseAttrs n r5 (acc ++ [(nm, v)])
              else none
            | [] => none
          | _ => none
      else some (acc, r1)

/-- Parse an element, the input starting just after the opening `<`. -/
def parseElemAfterLt : Nat → List Char → Option (XmlNode × List Char)
  | 0, _ => none
  | n + 1, input =>
    match parseName input with
    | none => none
    | some (nm, r1) =>
      match parseAttrs n r1 [] with
      | none => none
      | some (attrs, r2) =>
        match r2 with
        | '/' :: '>' :: r3 => some (.elem nm attrs [], r3)
        | '>' :: r3 =>
          match parseNodes n r3 with
          | none => none
          | some (cs, r4) =>
            match parseName r4 with
            | none => none
            | some (nm2, r5) =>
              if nm2 = nm then
                match skipWs r5 with
                | '>' :: r6 => some (.elem nm attrs cs, r6)
                | _ => none
              else none
        | _ => none

/-- Parse element content: alternating character data and child elements,
until the closing `</`; returns the children (a non-empty character-data
run becomes one text node, as expat reports maximal runs) and the rest of
the input just after `</`. -/
def parseNodes : Nat → List Char → Option (List XmlNode × List Char)
  | 0, _ => none
  | n + 1, input =>
    match parseText (input.length + 1) input with
    | none => none
    | some (txt, r1) =>
      match r1 with
      | '<' :: '/' :: r2 =>
        some (if txt = [] then [] else [.text txt], r2)
      | '<' :: '!' :: _ => none
      | '<' :: '?' :: _ => none
      | '<' :: r2 =>
        match parseElemAfterLt n r2 with
        | none => none
        | some (child, r3) =>
          match parseNodes n r3 with
          | none => none
          | some (siblings, r4) =>
            some ((if txt = [] then [] else [.text txt]) ++ child :: siblings, r4)
      | _ => none

end

/-- Skip to just past the terminating `?>` of a declaration or processing
instruction. -/
def skipPi : List Char → Option (List Char)
  | '?' :: '>' :: r => some r
  | _ :: r => skipPi r
  | [] => none

/-- Parse a whole document: optional XML declaration (which expat requires
at the very start if present), whitespace, one root element, trailing
whitespace.  Returns the root element. -/
def parseDocument (input : List Char) : Option XmlNode :=
  let l0 := normalizeEols input
  let l1 : Option (List Char) :=
    match l0 with
    | '<' :: '?' :: r => skipPi r
    | _ => some l0
  match l1 with
  | none => none
  | some l2 =>
    match skipWs l2 with
    | '<' :: r =>
      match parseElemAfterLt (input.length + 1) r with
      | none => none
      | some (root, r2) => if skipWs r2 = [] then some root else none
    | _ => none

/-! ## minidom serialization model

`Document.toprettyxml(indent="  ")` writes the declaration and then
`Element.writexml(writer, "", "  ", "\n")`.  The CPython ≥3.8 `writexml` is
modelled with the indent-per-level argument specialized to two spaces and
the newline to `"\n"`, which is the only way this program invokes it. -/

/-- minidom `_write_data`: escape `&`, `<`, `"`, `>` (and nothing else —
in particular newlines inside attribute values are written raw). -/
def escChar (c : Char) : List Char :=
  if c = '&' then ['&', 'a', 'm', 'p', ';']
  else if c = '<' then ['&', 'l', 't', ';']
  else if c = '"' then ['&', 'q', 'u', 'o', 't', ';']
  else if c = '>' then ['&', 'g', 't', ';']
  else [c]

/-- The full escape: the four sequential `str.replace` calls agree with the
per-character escape because no replacement reintroduces a character an
earlier or later replacement would rewrite. -/
def writeData : List Char → List Char
  | [] => []
  | c :: r => escChar c ++ writeData r

/-- Attribute rendering: `writer.write(" %s=\"" % a_name)`, escaped value,
closing quote. -/
def ppAttrs : Attrs → List Char
  | [] => []
  | (nm, v) :: r => ' ' :: (nm ++ '=' :: '"' :: (writeData v ++ '"' :: ppAttrs r))

/-- Two spaces, the per-level indent increment. -/
def sp2 : List Char := [' ', ' ']

mutual

/-- The characters an element writes after its opening `<`, up to and
including the final `>` of its closing tag (the caller writes the leading
indent, the `<`, and the trailing newline), with `ind` the element's own
indent.  Mirrors CPython ≥3.8 `Element.writexml`: childless elements
self-close, a lone text child is written inline, otherwise children are
written each on its own line at `ind ++ sp2`. -/
def ppElemCore (ind : List Char) : XmlNode → List Char
  | .text _ => []
  | .elem nm attrs cs =>
    nm ++ ppAttrs attrs ++
      match cs with
      | [] => ['/', '>']
      | [.text d] => '>' :: (writeData d ++ ('<' :: '/' :: nm ++ ['>']))
      | _ => '>' :: '\n' ::
          (ppList (ind ++ sp2) cs ++ (ind ++ '<' :: '/' :: nm ++ ['>']))

/-- Children written one after another at indent `ind`; a text node is
written as `_write_data(indent + data + newl)`, an element as indent,
`<`, its core, newline. -/
def ppList (ind : List Char) : List XmlNode → List Char
  | [] => []
  | .text d :: r => writeData (ind ++ d ++ ['\n']) ++ ppList ind r
  | e :: r => (ind ++ '<' :: (ppElemCore ind e ++ ['\n'])) ++ ppList ind r

end

/-- The declaration line written by `toprettyxml`. -/
def xmlDecl : List Char := "<?xml version=\"1.0\" ?>".data

/-- `Document.toprettyxml(indent="  ")` for a document whose lone child is
`root`. -/
def toprettyxml (root : XmlNode) : List Char :=
  xmlDecl ++ '\n' :: '<' :: (ppElemCore [] root ++ ['\n'])

/-! ## The `xml_normalize` traversal of `xml_change.py`

The source walks the tree with an explicit stack; each element (and the
document) is visited exactly once and the work done at a visit only touches
the node's own child list (sorting it when the node name is sortable, and
stripping the values of its text children), so the traversal is expressed
recursively.  The sort key is `nodeName`, which the per-child processing
never changes, and `list.sort` is stable, so sorting before or after
processing the children yields the same list; the recursion below processes
children first. -/

/-- `XmlChange.sortable_node_names`. -/
def sortable_node_names : List (List Char) :=
  ["project".data,
   "hudson.plugins.ws__cleanup.WsCleanup".data,
   "jenkins.plugins.slack.SlackNotifier".data]

/-- Stable insertion of a node into a list sorted by `nodeName` (the node
is placed before the first entry that does not compare strictly smaller,
which preserves the original order of equal keys when used right-to-left). -/
def insertByName (x : XmlNode) : List XmlNode → List XmlNode
  | [] => [x]
  | y :: ys =>
    if ltChars (nodeName y) (nodeName x) then y :: insertByName x ys
    else x :: y :: ys

/-- Stable sort by `nodeName`, modelling
`node.childNodes.sort(key=operator.attrgetter("nodeName"))` (Python's sort
is stable, and all stable sorts agree). -/
def sortChildren (cs : List XmlNode) : List XmlNode :=
  cs.foldr insertByName []

mutual

/-- One visit of the removing-blanks traversal: text children get their
values stripped (`n.nodeValue.strip()`), element children are visited in
turn, and child lists of sortable elements are sorted by node name. -/
def visitNode : XmlNode → XmlNode
  | .text d => .text d
  | .elem nm attrs cs =>
    let cs1 := visitChildren cs
    .elem nm attrs (if sortable_node_names.contains nm then sortChildren cs1 else cs1)

/-- Process a child list: strip text values, recurse into elements. -/
def visitChildren : List XmlNode → List XmlNode
  | [] => []
  | .text d :: rest => .text (pyStrip d) :: visitChildren rest
  | e :: rest => visitNode e :: visitChildren rest

end

mutual

/-- minidom `Node.normalize()`: in every child list, drop empty text nodes
and merge adjacent text nodes, recursing into element children. -/
def normalizeNode : XmlNode → XmlNode
  | .text d => .text d
  | .elem nm attrs cs => .elem nm attrs (normalizeChildren cs)

/-- Child-list normalization (minidom merges left-to-right; merging on the
right as below yields the same list because concatenation is associative
and empty runs are dropped). -/
def normalizeChildren : List XmlNode → List XmlNode
  | [] => []
  | .text d :: rest =>
    if d = [] then normalizeChildren rest
    else
      match normalizeChildren rest with
      | .text d2 :: r2 => .text (d ++ d2) :: r2
      | r => .text d :: r
  | e :: rest => normalizeNode e :: normalizeChildren rest

end

end JJM

namespace JJM

/-! ## `xml_change.py` -/

/-- `XmlChange.xml_normalize`: parse, remove blank text and sort sortable
nodes, `normalize()`, then `toprettyxml(indent="  ")`.  `None` models the
`xml.parsers.expat.ExpatError` that `parseString` raises on malformed
input. -/
def xml_normalize (s : String) : Option String :=
  match parseDocument s.data with
  | none => none
  | some root => some (String.mk (toprettyxml (normalizeNode (visitNode root))))

/-- Errors the record interface can raise: `TypeError` from
`parseString(None)` when the assigned value is not a string, `ExpatError`
when it does not parse, `ValueError` from `XmlChange.__init__` on a falsy
name. -/
inductive PyError where
  | typeError
  | expatError
  | valueError
deriving DecidableEq

/-- `XmlChange`: one named job/view with current (`_before`) and new
(`_after`) state.  `none` models the Python `None` the fields are
initialized to; the constructor rejects falsy names. -/
structure XmlChange where
  name : String
  before_xml : Option String
  after_xml : Option String
deriving DecidableEq

/-- `XmlChange.__init__`: raises `ValueError` unless a non-empty name is
given; both state fields start as `None`. -/
def XmlChange.init (name : String) : Option XmlChange :=
  if name = "" then none else some ⟨name, none, none⟩

/-- Python truthiness of an optional string (`None` and `""` are falsy). -/
def pyFalsy : Option String → Bool
  | none => true
  | some s => s = ""

/-- The derived change type; `none` models the Python `None` meaning "no
change". -/
inductive ChangeType where
  | create
  | update
  | delete
deriving DecidableEq

/-- `XmlChange.changetype`: `None` when the fields are equal, `CREATE` when
only `_after` is truthy, `DELETE` when only `_before` is truthy, otherwise
`UPDATE`. -/
def XmlChange.changetype (x : XmlChange) : Option ChangeType :=
  if x.before_xml = x.after_xml then none
  else if !pyFalsy x.after_xml && pyFalsy x.before_xml then some .create
  else if !pyFalsy x.before_xml && pyFalsy x.after_xml then some .delete
  else some .update

/-- The `before_xml` property setter: always stores
`self.xml_normalize(val)`.  Passing `None` reaches
`xml.dom.minidom.parseString(None)`, which raises `TypeError`; a string
that fails to parse raises `ExpatError`. -/
def XmlChange.before_xml_set (x : XmlChange) (val : Option String) :
    Except PyError XmlChange :=
  match val with
  | none => .error .typeError
  | some s =>
    match xml_normalize s with
    | none => .error .expatError
    | some c => .ok { x with before_xml := some c }

/-- The `after_xml` property setter, same behaviour as `before_xml`. -/
def XmlChange.after_xml_set (x : XmlChange) (val : Option String) :
    Except PyError XmlChange :=
  match val with
  | none => .error .typeError
  | some s =>
    match xml_normalize s with
    | none => .error .expatError
    | some c => .ok { x with after_xml := some c }

/-- The record states reachable through the public interface: construction
with a non-empty name, followed by any sequence of successful setter
assignments. -/
inductive XmlChange.Reachable : XmlChange → Prop
  | init (name : String) (h : XmlChange.init name = some x) : XmlChange.Reachable x
  | setBefore {x y : XmlChange} {val : Option String} (hx : XmlChange.Reachable x)
      (h : x.before_xml_set val = .ok y) : XmlChange.Reachable y
  | setAfter {x y : XmlChange} {val : Option String} (hx : XmlChange.Reachable x)
      (h : x.after_xml_set val = .ok y) : XmlChange.Reachable y

/-! ### `difflib.unified_diff` (stdlib collaborator)

`XmlChange.difflines` hands the split lines of both fields to
`difflib.unified_diff`.  The library is modelled behaviourally: the
generator yields nothing when the two sequences are equal (no opcode
differs from "equal", so no group is produced), and otherwise yields the
two `---`/`+++` header lines (with their trailing line terminator, as
difflib does for headers) followed by hunk lines.  The hunk body below is a
simple single-hunk rendering; no claim depends on its exact shape, only on
emptiness versus non-emptiness. -/

/-- Behavioural model of `difflib.unified_diff` over already-split lines. -/
def unified_diff (a b : List String) (fromfile tofile : String) : List String :=
  if a = b then []
  else
    ("--- " ++ fromfile ++ "\n") :: ("+++ " ++ tofile ++ "\n") ::
      ("@@ -1," ++ toString a.length ++ " +1," ++ toString b.length ++ " @@\n") ::
      (a.map (fun l => "-" ++ l) ++ b.map (fun l => "+" ++ l))

/-- `XmlChange.difflines`: unified diff of `(self._before or
"").splitlines()` against `(self._after or "").splitlines()`, with the
record name as both file labels. -/
def XmlChange.difflines (x : XmlChange) : List String :=
  unified_diff (pySplitlines (x.before_xml.getD "")) (pySplitlines (x.after_xml.getD ""))
    x.name x.name

/-! ## `core.py`: `NameRegexFilter`

`from_glob_list` translates each shell glob with `fnmatch.translate`
(which yields an expression of the form `(?s:...)\Z`, i.e. a fully
anchored pattern), joins the results with `|` and compiles once; the
filter calls `self.regex.match(job_name)`.  Since every alternative is
anchored at both ends, a name matches iff some glob matches it entirely.
`"|".join` of no patterns is the empty pattern, which matches at position
0 of every string. -/

/-- One unit of a translated glob pattern. -/
inductive GlobTok where
  | star
  | any
  | lit (c : Char)
  | cls (neg : Bool) (items : List (Char × Char))
deriving DecidableEq

/-- Parse the contents of a bracket expression into ranges (single
characters become singleton ranges; a `-` at either end is literal, as in
the regular expression `fnmatch.translate` builds). -/
def classItems : List Char → List (Char × Char)
  | [] => []
  | a :: '-' :: b :: rest => (a, b) :: classItems rest
  | c :: rest => (c, c) :: classItems rest

/-- `fnmatch.translate`, at the token level, with fuel (one unit per
consumed pattern character suffices): `*` and `?` become wildcards,
`[...]` a character class (leading `!` negates, a `]` right after the
opening belongs to the contents, an unterminated `[` is literal), and
every other character matches literally. -/
def translateGlobF : Nat → List Char → List GlobTok
  | 0, _ => []
  | _, [] => []
  | n + 1, '*' :: r => .star :: translateGlobF n r
  | n + 1, '?' :: r => .any :: translateGlobF n r
  | n + 1, '[' :: r =>
    let neg := match r with
      | '!' :: _ => true
      | _ => false
    let r1 := match r with
      | '!' :: r1 => r1
      | _ => r
    let pre : List Char × List Char := match r1 with
      | ']' :: r2 =>
        let s := spanP (fun c => c ≠ ']') r2
        (']' :: s.1, s.2)
      | _ => spanP (fun c => c ≠ ']') r1
    match pre.2 with
    | ']' :: r3 => .cls neg (classItems pre.1) :: translateGlobF n r3
    | _ => .lit '[' :: translateGlobF n r
  | n + 1, c :: r => .lit c :: translateGlobF n r

/-- `fnmatch.translate` with enough fuel for the whole pattern. -/
def translateGlob (pat : List Char) : List GlobTok :=
  translateGlobF (pat.length + 1) pat

/-- Fueled full matching of a token list against a name (regex alternatives
are independent, so fuel is bounded by tokens + characters). -/
def globMatch : Nat → List GlobTok → List Char → Bool
  | 0, _, _ => false
  | _ + 1, [], [] => true
  | _ + 1, [], _ :: _ => false
  | n + 1, .star :: ts, [] => globMatch n ts []
  | n + 1, .star :: ts, c :: cs =>
    globMatch n ts (c :: cs) || globMatch n (.star :: ts) cs
  | n + 1, .any :: ts, _ :: cs => globMatch n ts cs
  | _ + 1, .any :: _, [] => false
  | n + 1, .lit a :: ts, c :: cs => a = c && globMatch n ts cs
  | _ + 1, .lit _ :: _, [] => false
  | n + 1, .cls neg items :: ts, c :: cs =>
    (neg != items.any (fun i => i.1 ≤ c && c ≤ i.2)) && globMatch n ts cs
  | _ + 1, .cls _ _ :: _, [] => false

/-- `NameRegexFilter`, restricted to the regexes `from_glob_list` builds:
the compiled alternation is kept as the list of translated globs. -/
structure NameRegexFilter where
  alts : List (List GlobTok)
deriving DecidableEq

/-- `NameRegexFilter.from_glob_list`. -/
def NameRegexFilter.from_glob_list (globs : List String) : NameRegexFilter :=
  ⟨globs.map (fun g => translateGlob g.data)⟩

/-- `NameRegexFilter.__call__`: `self.regex.match(job_name)` is a match iff
some anchored alternative matches the whole name; with no alternatives the
compiled pattern is the empty pattern, which matches everything. -/
def NameRegexFilter.call (f : NameRegexFilter) (job_name : String) : Bool :=
  match f.alts with
  | [] => true
  | alts => alts.any (fun t => globMatch (t.length + job_name.data.length + 1) t job_name.data)

/-! ## `connect_config.py`: `MetadataConfig` -/

/-- ASCII lower-casing of one character (the configuration field names this
program lower-cases are ASCII). -/
def asciiLower (c : Char) : Char :=
  if 'A' ≤ c && c ≤ 'Z' then Char.ofNat (c.toNat + 32) else c

/-- Python `str.lower()` restricted to ASCII letters. -/
def pyLower (s : String) : String := String.mk (s.data.map asciiLower)

/-- Python `sep.join(parts)`. -/
def pyJoin (sep : String) : List String → String
  | [] => ""
  | [x] => x
  | x :: xs => x ++ sep ++ pyJoin sep xs

/-- Lookup in the `[metadata]` section contents.  Only the `shlex.split`
list-valued entries (`required-description-fields` and
`valid-values-for-*`) are ever read back by `validate`, so the
configuration mapping is modelled with list values throughout. -/
def lookupConf (conf : List (String × List String)) (k : String) : Option (List String) :=
  (conf.find? (fun p => p.1 = k)).map (fun p => p.2)

/-- `MetadataConfig` state after `__init__`. -/
structure MetadataConfig where
  metadata_conf : List (String × List String)
  required_fields : List String
  valid_field_values : List (String × List String)
deriving DecidableEq

/-- `MetadataConfig.__init__`: `required_fields` is the
`required-description-fields` entry or `[]` (an empty list is falsy, so
`or []` leaves it empty either way); `valid_field_values` collects, in
required-field order, the `valid-values-for-<field>` entries present in
the configuration (key lower-cased). -/
def MetadataConfig.fromConf (conf : List (String × List String)) : MetadataConfig :=
  let req := (lookupConf conf "required-description-fields").getD []
  { metadata_conf := conf
    required_fields := req
    valid_field_values := req.filterMap (fun field =>
      match lookupConf conf (pyLower ("valid-values-for-" ++ field)) with
      | some vs => some (field, vs)
      | none => none) }

/-- Message yielded for a missing required field. -/
def missingMsg (field : String) : String :=
  "Missing metadata in job description: " ++ field ++
    ".\nAdd a line like `" ++ field ++ ": somevalue` to the description."

/-- Message yielded for a disallowed value. -/
def invalidMsg (field val : String) (field_values : List String) : String :=
  "Field " ++ field ++ " in job description has invalid value " ++ val ++
    ".\nValid values are " ++ pyJoin "," field_values

/-- First loop of `validate`: one warning per required field not present as
a key of the extracted mapping. -/
def validateRequired (md : List (String × String)) : List String → List String
  | [] => []
  | field :: rest =>
    if md.any (fun p => p.1 = field) then validateRequired md rest
    else missingMsg field :: validateRequired md rest

/-- Second loop of `validate`: for each configured allow-list, skip absent
fields (`md.get(field) is None`), warn when the present value is not
allowed. -/
def validateValues (md : List (String × String)) :
    List (String × List String) → List String
  | [] => []
  | (field, field_values) :: rest =>
    match (md.find? (fun p => p.1 = field)).map (fun p => p.2) with
    | none => validateValues md rest
    | some val =>
      if field_values.contains val then validateValues md rest
      else invalidMsg field val field_values :: validateValues md rest

/-- `MetadataConfig.validate` as a list of the yielded warnings, in yield
order. -/
def MetadataConfig.validate (mc : MetadataConfig) (md : List (String × String)) :
    List String :=
  validateRequired md mc.required_fields ++ validateValues md mc.valid_field_values

/-! ## `core.py`: `JenkinsJobManager.read_jobs`

The Jenkins API is an oracle: `get_all_jobs()` is the given entry list (a
subjob dictionary is reduced to its `url`, the only key the loop reads)
and `get_job_config` a function from names to raw documents.  The change
set `self.jobs` is an insertion-ordered mapping (`XmlChangeDefaultDict`
materializes a fresh `XmlChange` on first reference). -/

/-- One entry of the `get_all_jobs()` enumeration: `fullname`, `url`,
`_class` (named `cls` as `class` is reserved) and the urls of the subjob
dictionaries under its `jobs` key. -/
structure JobEntry where
  fullname : String
  url : String
  cls : String
  subjobUrls : List String

/-- `JenkinsJobManager.job_managing_job_classes`. -/
def job_managing_job_classes : List String := ["jenkins.branch.OrganizationFolder"]

/-- The state `read_jobs` builds: the `managed_job_urls` set (a list with
membership semantics), the names passed to `get_job_config` in call order,
and the `self.jobs` change set in insertion order. -/
structure ReadJobsState where
  managed_job_urls : List String
  fetched : List String
  jobs : List (String × XmlChange)

/-- `jobs[name].before_xml = conf`: auto-vivify the entry
(`XmlChange(name=key)` raises `ValueError` on a falsy key), run the
canonicalizing setter, store the result back. -/
def ingestJob (st : ReadJobsState) (name conf : String) :
    Except PyError ReadJobsState :=
  let st1 := { st with fetched := st.fetched ++ [name] }
  match (st1.jobs.find? (fun p => p.1 = name)).map (fun p => p.2) with
  | some x =>
    match x.before_xml_set (some conf) with
    | .error e => .error e
    | .ok y =>
      .ok { st1 with jobs := st1.jobs.map (fun p => if p.1 = name then (name, y) else p) }
  | none =>
    match XmlChange.init name with
    | none => .error .valueError
    | some x =>
      match x.before_xml_set (some conf) with
      | .error e => .error e
      | .ok y => .ok { st1 with jobs := st1.jobs ++ [(name, y)] }

/-- The `read_jobs` loop.  Note the `elif` chain: an entry of a managing
class updates `managed_job_urls` and then falls through to the fetch (that
branch has no `continue`); only a non-managing entry whose url is already
managed is skipped, propagating its own subjob urls. -/
def read_jobs (filt : String → Bool) (get_job_config : String → String) :
    List JobEntry → ReadJobsState → Except PyError ReadJobsState
  | [], st => .ok st
  | e :: rest, st =>
    if !filt e.fullname then read_jobs filt get_job_config rest st
    else if job_managing_job_classes.contains e.cls then
      let st1 := { st with managed_job_urls := st.managed_job_urls ++ e.subjobUrls }
      match ingestJob st1 e.fullname (get_job_config e.fullname) with
      | .error er => .error er
      | .ok st2 => read_jobs filt get_job_config rest st2
    else if st.managed_job_urls.contains e.url then
      read_jobs filt get_job_config rest
        { st with managed_job_urls := st.managed_job_urls ++ e.subjobUrls }
    else
      match ingestJob st e.fullname (get_job_config e.fullname) with
      | .error er => .error er
      | .ok st2 => read_jobs filt get_job_config rest st2

/-- The empty starting state of a gather cycle. -/
def readJobsStart : ReadJobsState := ⟨[], [], []⟩

/-! ## `core.py`: `JenkinsJobManager.apply_plan`

The Jenkins client is modelled as a log of the calls `apply_plan` issues,
in order.  The `else: raise RuntimeError` branch of the source guards
against values outside the four change types, which the `Option ChangeType`
codomain makes unrepresentable here. -/

/-- A remote mutation issued by `apply_plan` (arguments as passed: name and
the stored `after_xml`). -/
inductive JenkinsCall where
  | create_view (name : String) (xml : Option String)
  | reconfig_view (name : String) (xml : Option String)
  | delete_view (name : String)
  | create_job (name : String) (xml : Option String)
  | reconfig_job (name : String) (xml : Option String)
  | delete_job (name : String)
deriving DecidableEq

/-- The `changecounts` dictionary of `apply_plan`. -/
structure ChangeCounts where
  create : Nat
  update : Nat
  delete : Nat
deriving DecidableEq

/-- The view loop of `apply_plan`: one pass over `self.views.values()` in
insertion order, issuing calls and bumping counts; under delete
protection (`allow_delete` false) the delete call is skipped but the
delete count is still incremented. -/
def applyViewsLoop (allow_delete : Bool) :
    List XmlChange → ChangeCounts → List JenkinsCall × ChangeCounts
  | [], cc => ([], cc)
  | v :: rest, cc =>
    match v.changetype with
    | none => applyViewsLoop allow_delete rest cc
    | some .create =>
      let s := applyViewsLoop allow_delete rest { cc with create := cc.create + 1 }
      (.create_view v.name v.after_xml :: s.1, s.2)
    | some .update =>
      let s := applyViewsLoop allow_delete rest { cc with update := cc.update + 1 }
      (.reconfig_view v.name v.after_xml :: s.1, s.2)
    | some .delete =>
      let s := applyViewsLoop allow_delete rest { cc with delete := cc.delete + 1 }
      ((if allow_delete then [JenkinsCall.delete_view v.name] else []) ++ s.1, s.2)

/-- The job loop of `apply_plan`, same shape as the view loop. -/
def applyJobsLoop (allow_delete : Bool) :
    List XmlChange → ChangeCounts → List JenkinsCall × ChangeCounts
  | [], cc => ([], cc)
  | j :: rest, cc =>
    match j.changetype with
    | none => applyJobsLoop allow_delete rest cc
    | some .create =>
      let s := applyJobsLoop allow_delete rest { cc with create := cc.create + 1 }
      (.create_job j.name j.after_xml :: s.1, s.2)
    | some .update =>
      let s := applyJobsLoop allow_delete rest { cc with update := cc.update + 1 }
      (.reconfig_job j.name j.after_xml :: s.1, s.2)
    | some .delete =>
      let s := applyJobsLoop allow_delete rest { cc with delete := cc.delete + 1 }
      ((if allow_delete then [JenkinsCall.delete_job j.name] else []) ++ s.1, s.2)

/-- `JenkinsJobManager.apply_plan`: views first, then jobs, then the
summary message built from the accumulated counts. -/
def apply_plan (views jobs : List XmlChange) (allow_delete : Bool) :
    List JenkinsCall × ChangeCounts × String :=
  let sv := applyViewsLoop allow_delete views ⟨0, 0, 0⟩
  let sj := applyJobsLoop allow_delete jobs sv.2
  (sv.1 ++ sj.1, sj.2,
    "Changes applied. added=" ++ Nat.repr sj.2.create ++
      " updated=" ++ Nat.repr sj.2.update ++ " deleted=" ++ Nat.repr sj.2.delete)

/-! ## `core.py`: the counting generator of `plan_report`

In the default mode (`report_format` neither `"json"` nor `"yaml"`) both
`iter_changes(self.views)` and `iter_changes(self.jobs, report_format)`
take the falsy-`output` branch: for each record with a change type the
diff lines are yielded, and the record's name is appended to
`changecounts[changetype]` when the first line is produced — so never for
a record whose diff has no lines (the source comments this rare case).
Rendering the default template drains both generators; the model is that
full iteration. -/

/-- `changecounts` of `plan_report`: names appended per change type. -/
structure PlanCounts where
  create : List String
  update : List String
  delete : List String
deriving DecidableEq

/-- Append a name to the list for a change type. -/
def PlanCounts.bump (cc : PlanCounts) (t : ChangeType) (name : String) : PlanCounts :=
  match t with
  | .create => { cc with create := cc.create ++ [name] }
  | .update => { cc with update := cc.update ++ [name] }
  | .delete => { cc with delete := cc.delete ++ [name] }

/-- The default-mode `iter_changes` generator, fully drained: yielded lines
plus the final counter state. -/
def iter_changes_default :
    List XmlChange → PlanCounts → List String × PlanCounts
  | [], cc => ([], cc)
  | item :: rest, cc =>
    match item.changetype with
    | none => iter_changes_default rest cc
    | some t =>
      let lines := item.difflines
      let cc1 := if lines = [] then cc else cc.bump t item.name
      let s := iter_changes_default rest cc1
      (lines ++ s.1, s.2)

/-- Fully rendering the default report: drain the view generator, then the
job generator, sharing the counter closure. -/
def plan_report_default (views jobs : List XmlChange) : List String × PlanCounts :=
  let sv := iter_changes_default views ⟨[], [], []⟩
  let sj := iter_changes_default jobs sv.2
  (sv.1 ++ sj.1, sj.2)

end JJM

namespace JJM

/-! ## Record-state helper lemmas -/

/-- Canonicalization output is the declaration line followed by the
serialized root; in particular it is never empty. -/
theorem xml_normalize_shape {s c : String} (h : xml_normalize s = some c) :
    ∃ r : String, c = "<?xml version=\"1.0\" ?>\n" ++ r := by
  unfold xml_normalize at h
  cases hp : parseDocument s.data with
  | none => rw [hp] at h; exact absurd h (by simp)
  | some root =>
    rw [hp] at h
    refine ⟨String.mk ('<' :: (ppElemCore [] (normalizeNode (visitNode root)) ++ ['\n'])), ?_⟩
    have hc : c = String.mk (toprettyxml (normalizeNode (visitNode root))) := by
      exact (Option.some_inj.mp h).symm
    rw [hc]
    show String.mk (toprettyxml (normalizeNode (visitNode root))) =
      String.mk ("<?xml version=\"1.0\" ?>\n".data ++
        ('<' :: (ppElemCore [] (normalizeNode (visitNode root)) ++ ['\n'])))
    unfold toprettyxml
    rfl

/-- Canonicalization output is never the empty string. -/
theorem xml_normalize_ne_empty {s c : String} (h : xml_normalize s = some c) :
    c ≠ "" := by
  obtain ⟨r, hr⟩ := xml_normalize_shape h
  intro hc
  rw [hc] at hr
  have : ("" : String).data = ("<?xml version=\"1.0\" ?>\n" ++ r).data := by rw [hr]
  simp [String.data_append] at this

/-- In every reachable record state, each field is either absent or a
canonicalization output. -/
theorem reachable_fields {x : XmlChange} (h : x.Reachable) :
    (x.before_xml = none ∨ ∃ s c, xml_normalize s = some c ∧ x.before_xml = some c) ∧
    (x.after_xml = none ∨ ∃ s c, xml_normalize s = some c ∧ x.after_xml = some c) := by
  induction h with
  | init name h =>
    unfold XmlChange.init at h
    by_cases hn : name = "" <;> simp [hn] at h
    constructor <;> [left; left] <;> rw [← h]
  | setBefore hx h ih =>
    rename_i x y val
    cases val with
    | none => simp [XmlChange.before_xml_set] at h
    | some s =>
      cases hc : xml_normalize s with
      | none => simp [XmlChange.before_xml_set, hc] at h
      | some c =>
        simp only [XmlChange.before_xml_set, hc, Except.ok.injEq] at h
        subst h
        exact ⟨Or.inr ⟨s, c, hc, rfl⟩, ih.2⟩
  | setAfter hx h ih =>
    rename_i x y val
    cases val with
    | none => simp [XmlChange.after_xml_set] at h
    | some s =>
      cases hc : xml_normalize s with
      | none => simp [XmlChange.after_xml_set, hc] at h
      | some c =>
        simp only [XmlChange.after_xml_set, hc, Except.ok.injEq] at h
        subst h
        exact ⟨ih.1, Or.inr ⟨s, c, hc, rfl⟩⟩

/-- Reachable records never hold the empty string. -/
theorem reachable_ne_empty {x : XmlChange} (h : x.Reachable) :
    x.before_xml ≠ some "" ∧ x.after_xml ≠ some "" := by
  obtain ⟨hb, ha⟩ := reachable_fields h
  constructor
  · rcases hb with hb | ⟨s, c, hc, hb⟩
    · simp [hb]
    · rw [hb]
      simpa using (xml_normalize_ne_empty hc)
  · rcases ha with ha | ⟨s, c, hc, ha⟩
    · simp [ha]
    · rw [ha]
      simpa using (xml_normalize_ne_empty hc)

/-- A concrete reachable record used by the witnesses. -/
def demoRecord : XmlChange := ⟨"j", xml_normalize "<project/>", none⟩

/-- The demo record arises from one successful `before_xml` assignment. -/
theorem demoRecord_reachable : demoRecord.Reachable :=
  XmlChange.Reachable.setBefore
    (XmlChange.Reachable.init "j"
      (show XmlChange.init "j" = some ⟨"j", none, none⟩ by decide))
    (show XmlChange.before_xml_set ⟨"j", none, none⟩ (some "<project/>") =
      .ok demoRecord from rfl)

/-- C10: every string stored into a record's `before`/`after` field through
the setters is a canonicalization output, which always begins with the XML
declaration line and is never empty; hence in every reachable record state
each field is either absent or such a non-empty canonical string, and the
empty string never occurs. -/
theorem C10_stored_fields_nonempty :
    (∀ s c : String, xml_normalize s = some c →
      (∃ r, c = "<?xml version=\"1.0\" ?>\n" ++ r) ∧ c ≠ "") ∧
    (∀ x : XmlChange, x.Reachable →
      (x.before_xml = none ∨ ∃ s c, xml_normalize s = some c ∧ x.before_xml = some c) ∧
      (x.after_xml = none ∨ ∃ s c, xml_normalize s = some c ∧ x.after_xml = some c) ∧
      x.before_xml ≠ some "" ∧ x.after_xml ≠ some "") :=
  ⟨fun _ _ h => ⟨xml_normalize_shape h, xml_normalize_ne_empty h⟩,
   fun _ hx => ⟨(reachable_fields hx).1, (reachable_fields hx).2,
     (reachable_ne_empty hx).1, (reachable_ne_empty hx).2⟩⟩

/-- Witness for C10 at a concrete canonicalization and a concrete reachable
record. -/
theorem C10_stored_fields_nonempty_witness :
    ((∃ r, ("<?xml version=\"1.0\" ?>\n<project/>\n" : String) =
        "<?xml version=\"1.0\" ?>\n" ++ r) ∧
      ("<?xml version=\"1.0\" ?>\n<project/>\n" : String) ≠ "") ∧
    (demoRecord.before_xml ≠ some "" ∧ demoRecord.after_xml ≠ some "") :=
  ⟨C10_stored_fields_nonempty.1 "<project/>" "<?xml version=\"1.0\" ?>\n<project/>\n" rfl,
   (C10_stored_fields_nonempty.2 demoRecord demoRecord_reachable).2.2⟩

/-- C1: for every (reachable) record, `changetype()` is `NONE` exactly when
`before` equals `after` (including both absent), `CREATE` exactly when
`before` is absent and `after` present, `DELETE` exactly when `before` is
present and `after` absent, `UPDATE` exactly when both are present and
differ; and no outcome other than these four is possible. -/
theorem C1_changetype_classification (x : XmlChange) (hx : x.Reachable) :
    (x.changetype = none ↔ x.before_xml = x.after_xml) ∧
    (x.changetype = some .create ↔ x.before_xml = none ∧ x.after_xml ≠ none) ∧
    (x.changetype = some .delete ↔ x.before_xml ≠ none ∧ x.after_xml = none) ∧
    (x.changetype = some .update ↔
      x.before_xml ≠ none ∧ x.after_xml ≠ none ∧ x.before_xml ≠ x.after_xml) ∧
    (x.changetype = none ∨ x.changetype = some .create ∨
      x.changetype = some .delete ∨ x.changetype = some .update) := by
  obtain ⟨hbe, hae⟩ := reachable_ne_empty hx
  unfold XmlChange.changetype
  cases hb : x.before_xml with
  | none =>
    cases ha : x.after_xml with
    | none => simp [pyFalsy]
    | some a =>
      have ha' : a ≠ "" := by rw [ha] at hae; simpa using hae
      simp [pyFalsy, ha']
  | some b =>
    have hb' : b ≠ "" := by rw [hb] at hbe; simpa using hbe
    cases ha : x.after_xml with
    | none => simp [pyFalsy, hb']
    | some a =>
      have ha' : a ≠ "" := by rw [ha] at hae; simpa using hae
      by_cases hba : b = a
      · simp [pyFalsy, hb', ha', hba]
      · simp [pyFalsy, hb', ha', hba]

/-- Witness for C1 at the demo record (a `DELETE`-classified state). -/
theorem C1_changetype_classification_witness :
    demoRecord.changetype = some ChangeType.delete ↔
      demoRecord.before_xml ≠ none ∧ demoRecord.after_xml = none :=
  (C1_changetype_classification demoRecord demoRecord_reachable).2.2.1

/-- C6 counterexample: assigning the absent value to `before_xml` or
`after_xml` does not clear the field — the setter feeds `None` to
`xml.dom.minidom.parseString`, which raises `TypeError`, so no record with
a cleared field results. -/
theorem C6_counterexample_absent_assignment :
    demoRecord.before_xml_set none = .error .typeError ∧
    demoRecord.after_xml_set none = .error .typeError :=
  ⟨rfl, rfl⟩

/-- C6 as amended: setting `before` or `after` to a present value always
stores `canonicalize(value)`; assigning the absent value raises `TypeError`
instead of clearing the field (fields are absent only when never assigned;
`DELETE` states arise from never assigning `after`, not from clearing
it). -/
theorem C6_amended_setters_canonicalize :
    (∀ (x : XmlChange) (s c : String), xml_normalize s = some c →
      x.before_xml_set (some s) = .ok { x with before_xml := some c } ∧
      x.after_xml_set (some s) = .ok { x with after_xml := some c }) ∧
    (∀ x : XmlChange,
      x.before_xml_set none = .error .typeError ∧
      x.after_xml_set none = .error .typeError) := by
  constructor
  · intro x s c hc
    constructor
    · simp [XmlChange.before_xml_set, hc]
    · simp [XmlChange.after_xml_set, hc]
  · intro x
    exact ⟨rfl, rfl⟩

/-- Witness for the amended C6 at a concrete record and document. -/
theorem C6_amended_setters_canonicalize_witness :
    XmlChange.before_xml_set ⟨"j", none, none⟩ (some "<project/>") =
      .ok ⟨"j", some "<?xml version=\"1.0\" ?>\n<project/>\n", none⟩ ∧
    XmlChange.after_xml_set ⟨"j", none, none⟩ (some "<project/>") =
      .ok ⟨"j", none, some "<?xml version=\"1.0\" ?>\n<project/>\n"⟩ :=
  C6_amended_setters_canonicalize.1 ⟨"j", none, none⟩ "<project/>"
    "<?xml version=\"1.0\" ?>\n<project/>\n" rfl

/-- C7: the Name Filter built from glob patterns has anchored full-match
semantics — from `["foo*", "bar"]` it matches `"foobar"` and `"bar"` and
rejects `"baz"`; built from no patterns it matches every name. -/
theorem C7_name_filter_semantics :
    (NameRegexFilter.from_glob_list ["foo*", "bar"]).call "foobar" = true ∧
    (NameRegexFilter.from_glob_list ["foo*", "bar"]).call "bar" = true ∧
    (NameRegexFilter.from_glob_list ["foo*", "bar"]).call "baz" = false ∧
    (∀ name : String, (NameRegexFilter.from_glob_list []).call name = true) :=
  ⟨by decide, by decide, by decide, fun _ => rfl⟩

/-! ### C8 helper lemmas -/

/-- The warnings of the first `validate` loop are exactly one per required
field missing from the mapping. -/
theorem validateRequired_count (md : List (String × String)) :
    ∀ l : List String,
      (validateRequired md l).length = l.countP (fun f => !md.any (fun p => p.1 = f))
  | [] => by simp [validateRequired]
  | field :: rest => by
    by_cases h : md.any (fun p => p.1 = field) = true <;>
      simp [validateRequired, h, List.countP_cons, validateRequired_count md rest]

/-- The warnings of the second `validate` loop are exactly one per
configured field that is present with a value outside its allow-list. -/
theorem validateValues_count (md : List (String × String)) :
    ∀ l : List (String × List String),
      (validateValues md l).length = l.countP (fun fv =>
        match (md.find? (fun p => p.1 = fv.1)).map (fun p => p.2) with
        | none => false
        | some v => !fv.2.contains v)
  | [] => by simp [validateValues]
  | (field, field_values) :: rest => by
    cases hv : (md.find? (fun p => p.1 = field)).map (fun p => p.2) with
    | none => simp [validateValues, hv, List.countP_cons, validateValues_count md rest]
    | some v =>
      by_cases h : v ∈ field_values <;>
        simp [validateValues, hv, h, List.countP_cons, validateValues_count md rest]

/-- C8: the metadata validator yields exactly one warning per required
field missing from the mapping plus exactly one per configured field whose
present value is outside its allow-list, and yields nothing when no policy
is configured; with `required=["team"]` it yields exactly one warning when
`team` is absent, none when present with any value (no allow-list) or an
allow-listed value, and exactly one for a non-allow-listed value. -/
theorem C8_metadata_validation :
    (∀ md, (MetadataConfig.fromConf []).validate md = []) ∧
    (∀ conf md,
      ((MetadataConfig.fromConf conf).validate md).length =
        (MetadataConfig.fromConf conf).required_fields.countP
          (fun f => !md.any (fun p => p.1 = f)) +
        (MetadataConfig.fromConf conf).valid_field_values.countP (fun fv =>
          match (md.find? (fun p => p.1 = fv.1)).map (fun p => p.2) with
          | none => false
          | some v => !fv.2.contains v)) ∧
    ((MetadataConfig.fromConf [("required-description-fields", ["team"])]).validate []
        = [missingMsg "team"]) ∧
    (∀ v, (MetadataConfig.fromConf [("required-description-fields", ["team"])]).validate
        [("team", v)] = []) ∧
    ((MetadataConfig.fromConf [("required-description-fields", ["team"]),
        ("valid-values-for-team", ["a", "b"])]).validate [("team", "a")] = []) ∧
    ((MetadataConfig.fromConf [("required-description-fields", ["team"]),
        ("valid-values-for-team", ["a", "b"])]).validate [("team", "c")]
        = [invalidMsg "team" "c" ["a", "b"]]) := by
  refine ⟨fun md => rfl, fun conf md => ?_, rfl, fun v => rfl, rfl, rfl⟩
  unfold MetadataConfig.validate
  rw [List.length_append, validateRequired_count, validateValues_count]

/-! ### `apply_plan` helper lemmas -/

/-- The remote calls one view record gives rise to. -/
def viewCalls (allow_delete : Bool) (v : XmlChange) : List JenkinsCall :=
  match v.changetype with
  | none => []
  | some .create => [.create_view v.name v.after_xml]
  | some .update => [.reconfig_view v.name v.after_xml]
  | some .delete => if allow_delete then [.delete_view v.name] else []

/-- The remote calls one job record gives rise to. -/
def jobCalls (allow_delete : Bool) (j : XmlChange) : List JenkinsCall :=
  match j.changetype with
  | none => []
  | some .create => [.create_job j.name j.after_xml]
  | some .update => [.reconfig_job j.name j.after_xml]
  | some .delete => if allow_delete then [.delete_job j.name] else []

/-- How one record updates the counters (deletes are counted whether or not
the delete call is issued). -/
def countsDelta (cc : ChangeCounts) (x : XmlChange) : ChangeCounts :=
  match x.changetype with
  | none => cc
  | some .create => { cc with create := cc.create + 1 }
  | some .update => { cc with update := cc.update + 1 }
  | some .delete => { cc with delete := cc.delete + 1 }

/-- The view loop issues per-record calls in insertion order and folds the
counter updates left-to-right. -/
theorem applyViewsLoop_spec (ad : Bool) :
    ∀ (l : List XmlChange) (cc : ChangeCounts),
      applyViewsLoop ad l cc = (l.bind (viewCalls ad), l.foldl countsDelta cc)
  | [], cc => by simp [applyViewsLoop]
  | v :: rest, cc => by
    cases ht : v.changetype with
    | none =>
      simp [applyViewsLoop, ht, viewCalls, countsDelta, applyViewsLoop_spec ad rest]
    | some t =>
      cases t <;>
        simp [applyViewsLoop, ht, viewCalls, countsDelta, applyViewsLoop_spec ad rest]

/-- The job loop issues per-record calls in insertion order and folds the
counter updates left-to-right. -/
theorem applyJobsLoop_spec (ad : Bool) :
    ∀ (l : List XmlChange) (cc : ChangeCounts),
      applyJobsLoop ad l cc = (l.bind (jobCalls ad), l.foldl countsDelta cc)
  | [], cc => by simp [applyJobsLoop]
  | j :: rest, cc => by
    cases ht : j.changetype with
    | none =>
      simp [applyJobsLoop, ht, jobCalls, countsDelta, applyJobsLoop_spec ad rest]
    | some t =>
      cases t <;>
        simp [applyJobsLoop, ht, jobCalls, countsDelta, applyJobsLoop_spec ad rest]

/-- The delete counter of a counts fold. -/
theorem foldl_countsDelta_delete :
    ∀ (l : List XmlChange) (cc : ChangeCounts),
      (l.foldl countsDelta cc).delete =
        cc.delete + l.countP (fun x => x.changetype = some .delete)
  | [], cc => by simp
  | x :: rest, cc => by
    cases ht : x.changetype with
    | none =>
      simp [countsDelta, ht, List.countP_cons, foldl_countsDelta_delete rest]
    | some t =>
      cases t <;>
        simp [countsDelta, ht, List.countP_cons, foldl_countsDelta_delete rest] <;>
        omega

/-- Digits produced by `Nat.toDigitsCore` extend the accumulator with
`Nat.digitChar` outputs, which are never a newline. -/
theorem digitChar_ne_newline (m : Nat) : Nat.digitChar m ≠ '\n' := by
  rcases Nat.lt_or_ge m 16 with h | h
  · interval_cases m <;> decide
  · simp only [Nat.digitChar]
    repeat rw [if_neg (by omega)]
    decide

/-- No newline occurs among the digits of a natural number. -/
theorem toDigitsCore_no_newline (b : Nat) :
    ∀ (f n : Nat) (ds : List Char), (∀ c ∈ ds, c ≠ '\n') →
      ∀ c ∈ Nat.toDigitsCore b f n ds, c ≠ '\n'
  | 0, n, ds, hds => by simpa [Nat.toDigitsCore] using hds
  | f + 1, n, ds, hds => by
    have hcons : ∀ c ∈ (Nat.digitChar (n % b) :: ds), c ≠ '\n' := by
      intro c hc
      rcases List.mem_cons.mp hc with hc | hc
      · subst hc; exact digitChar_ne_newline _
      · exact hds c hc
    unfold Nat.toDigitsCore
    by_cases hz : n / b = 0
    · simpa [hz] using hcons
    · simpa [hz] using toDigitsCore_no_newline b f (n / b) _ hcons

/-- `Nat.repr` never contains a newline. -/
theorem repr_no_newline (n : Nat) : ∀ c ∈ (Nat.repr n).data, c ≠ '\n' := by
  intro c hc
  have : c ∈ Nat.toDigits 10 n := by
    simpa [Nat.repr, List.asString] using hc
  exact toDigitsCore_no_newline 10 _ _ _ (by simp) c this

/-- `apply_plan` in closed form: the call log is the per-record calls of
the views followed by those of the jobs, the counts are one left fold over
both namespaces, and the summary renders the final counts. -/
theorem apply_plan_spec (views jobs : List XmlChange) (ad : Bool) :
    apply_plan views jobs ad =
      (views.bind (viewCalls ad) ++ jobs.bind (jobCalls ad),
        (views ++ jobs).foldl countsDelta ⟨0, 0, 0⟩,
        "Changes applied. added=" ++
          Nat.repr ((views ++ jobs).foldl countsDelta ⟨0, 0, 0⟩).create ++
          " updated=" ++ Nat.repr ((views ++ jobs).foldl countsDelta ⟨0, 0, 0⟩).update ++
          " deleted=" ++ Nat.repr ((views ++ jobs).foldl countsDelta ⟨0, 0, 0⟩).delete) := by
  simp only [apply_plan, applyViewsLoop_spec, applyJobsLoop_spec, List.foldl_append]

/-- C5: `apply_plan` processes every view record before any job record, in
insertion order within each namespace (the call log is the per-record calls
of the views, in order, followed by those of the jobs); it accumulates the
per-type counts across both namespaces in one left fold; and it returns the
counts together with a one-line summary of the form
`added=N updated=N deleted=N` (prefixed `Changes applied.`, and containing
no newline). -/
theorem C5_apply_plan_order_counts_summary (views jobs : List XmlChange) (ad : Bool) :
    (apply_plan views jobs ad).1 =
      views.bind (viewCalls ad) ++ jobs.bind (jobCalls ad) ∧
    (apply_plan views jobs ad).2.1 = (views ++ jobs).foldl countsDelta ⟨0, 0, 0⟩ ∧
    (apply_plan views jobs ad).2.2 =
      "Changes applied. added=" ++ Nat.repr (apply_plan views jobs ad).2.1.create ++
        " updated=" ++ Nat.repr (apply_plan views jobs ad).2.1.update ++
        " deleted=" ++ Nat.repr (apply_plan views jobs ad).2.1.delete ∧
    ∀ c ∈ ((apply_plan views jobs ad).2.2).data, c ≠ '\n' := by
  rw [apply_plan_spec]
  refine ⟨rfl, rfl, rfl, ?_⟩
  intro c hc
  simp only [String.data_append, List.mem_append] at hc
  rcases hc with ((((hc | hc) | hc) | hc) | hc) | hc
  · intro h; subst h; revert hc; decide
  · exact repr_no_newline _ c hc
  · intro h; subst h; revert hc; decide
  · exact repr_no_newline _ c hc
  · intro h; subst h; revert hc; decide
  · exact repr_no_newline _ c hc

/-- A concrete `UPDATE` view record. -/
def applyDemoView : XmlChange := ⟨"v1", some "x", some "y"⟩

/-- A concrete `CREATE` job record. -/
def applyDemoJobC : XmlChange := ⟨"j1", none, some "z"⟩

/-- A concrete `DELETE` job record. -/
def applyDemoJobD : XmlChange := ⟨"j2", some "w", none⟩

/-- C4: under delete protection, no delete call is ever issued while the
returned delete count still counts every `DELETE` record; in the concrete
scenario (one `CREATE` job, one `UPDATE` view, one `DELETE` job) the create
and update calls fire, the delete call does not, and the counts are
`created=1 updated=1 deleted=1`. -/
theorem C4_delete_protection (views jobs : List XmlChange) :
    (∀ n : String, JenkinsCall.delete_view n ∉ (apply_plan views jobs false).1 ∧
      JenkinsCall.delete_job n ∉ (apply_plan views jobs false).1) ∧
    (apply_plan views jobs false).2.1.delete =
      (views ++ jobs).countP (fun x => x.changetype = some .delete) ∧
    apply_plan [applyDemoView] [applyDemoJobC, applyDemoJobD] false =
      ([.reconfig_view "v1" (some "y"), .create_job "j1" (some "z")], ⟨1, 1, 1⟩,
        "Changes applied. added=1 updated=1 deleted=1") := by
  refine ⟨?_, ?_, by rfl⟩
  · intro n
    rw [apply_plan_spec]
    constructor
    · intro hmem
      rcases List.mem_append.mp hmem with hmem | hmem
      · obtain ⟨v, _, hin⟩ := List.mem_bind.mp hmem
        revert hin
        unfold viewCalls
        cases v.changetype with
        | none => simp
        | some t => cases t <;> simp
      · obtain ⟨j, _, hin⟩ := List.mem_bind.mp hmem
        revert hin
        unfold jobCalls
        cases j.changetype with
        | none => simp
        | some t => cases t <;> simp
    · intro hmem
      rcases List.mem_append.mp hmem with hmem | hmem
      · obtain ⟨v, _, hin⟩ := List.mem_bind.mp hmem
        revert hin
        unfold viewCalls
        cases v.changetype with
        | none => simp
        | some t => cases t <;> simp
      · obtain ⟨j, _, hin⟩ := List.mem_bind.mp hmem
        revert hin
        unfold jobCalls
        cases j.changetype with
        | none => simp
        | some t => cases t <;> simp
  · rw [apply_plan_spec]
    show ((views ++ jobs).foldl countsDelta ⟨0, 0, 0⟩).delete = _
    rw [foldl_countsDelta_delete]
    simp

/-! ### C9: counting in the default report -/

/-- A reachable record whose two canonical fields differ only by a
`U+2028 LINE SEPARATOR` versus a newline inside a text node.
`str.splitlines` treats both as line boundaries, so the split line lists
coincide and `difflib.unified_diff` yields no lines at all, although the
record's change type is `UPDATE`. -/
def emptyDiffRecord : XmlChange :=
  ⟨"j", xml_normalize "<t>a b</t>", xml_normalize "<t>a\nb</t>"⟩

/-- The empty-diff record is reachable through the setters. -/
theorem emptyDiffRecord_reachable : emptyDiffRecord.Reachable :=
  XmlChange.Reachable.setAfter
    (XmlChange.Reachable.setBefore
      (XmlChange.Reachable.init "j"
        (show XmlChange.init "j" = some ⟨"j", none, none⟩ by decide))
      (show XmlChange.before_xml_set ⟨"j", none, none⟩ (some "<t>a b</t>") =
        .ok ⟨"j", xml_normalize "<t>a b</t>", none⟩ from rfl))
    (show XmlChange.after_xml_set ⟨"j", xml_normalize "<t>a b</t>", none⟩
        (some "<t>a\nb</t>") = .ok emptyDiffRecord from rfl)

/-- C9 counterexample: fully rendering the default report over a change set
holding one reachable `UPDATE` record increments no counter at all,
because the record's unified diff has no lines — refuting "incremented
exactly once for every record whose change type is not NONE". -/
theorem C9_counterexample_empty_diff_not_counted :
    emptyDiffRecord.changetype = some ChangeType.update ∧
    emptyDiffRecord.before_xml = some "<?xml version=\"1.0\" ?>\n<t>a b</t>\n" ∧
    emptyDiffRecord.after_xml = some "<?xml version=\"1.0\" ?>\n<t>a\nb</t>\n" ∧
    emptyDiffRecord.difflines = [] ∧
    plan_report_default [emptyDiffRecord] [] = ([], ⟨[], [], []⟩) ∧
    emptyDiffRecord.Reachable :=
  ⟨rfl, rfl, rfl, rfl, rfl, emptyDiffRecord_reachable⟩

/-- The names a fully drained default report counts for one change type:
those of the records with that change type whose diff has at least one
line, in iteration order. -/
def countedNames (t : ChangeType) (l : List XmlChange) : List String :=
  (l.filter (fun x => x.changetype = some t && !x.difflines.isEmpty)).map
    (fun x => x.name)

/-- Draining the default-mode generator appends exactly the counted names
to each counter. -/
theorem iter_changes_default_counts :
    ∀ (l : List XmlChange) (cc : PlanCounts),
      (iter_changes_default l cc).2 =
        ⟨cc.create ++ countedNames .create l, cc.update ++ countedNames .update l,
          cc.delete ++ countedNames .delete l⟩
  | [], cc => by simp [iter_changes_default, countedNames]
  | x :: rest, cc => by
    cases ht : x.changetype with
    | none =>
      simp [iter_changes_default, ht, countedNames, List.filter_cons,
        iter_changes_default_counts rest cc]
    | some t =>
      by_cases hl : x.difflines = []
      · cases t <;>
          simp [iter_changes_default, ht, hl, countedNames, List.filter_cons,
            iter_changes_default_counts rest cc]
      · cases t <;>
          simp [iter_changes_default, ht, hl, countedNames, List.filter_cons,
            iter_changes_default_counts rest, PlanCounts.bump]

/-- C9 as amended: when the default report is fully rendered, the
per-change-type counter receives each changed record's name exactly once
if and only if its diff yields at least one line; a changed record with an
empty diff is never counted.  The counters over both namespaces are
exactly the counted names of views followed by jobs. -/
theorem C9_amended_counter_per_nonempty_diff (views jobs : List XmlChange) :
    (plan_report_default views jobs).2 =
      ⟨countedNames .create (views ++ jobs), countedNames .update (views ++ jobs),
        countedNames .delete (views ++ jobs)⟩ := by
  show (iter_changes_default jobs (iter_changes_default views ⟨[], [], []⟩).2).2 = _
  rw [iter_changes_default_counts, iter_changes_default_counts]
  simp [countedNames, List.filter_append]

/-! ### C3: managed-ownership exclusion in `read_jobs` -/

/-- The claim's enumeration: owning entry `A` with children `X`, `Y`; `X`
itself an owning entry with child `Z`; then `Y` and `Z` as plain jobs. -/
def c3entries : List JobEntry :=
  [⟨"A", "uA", "jenkins.branch.OrganizationFolder", ["uX", "uY"]⟩,
   ⟨"X", "uX", "jenkins.branch.OrganizationFolder", ["uZ"]⟩,
   ⟨"Y", "uY", "hudson.model.FreeStyleProject", []⟩,
   ⟨"Z", "uZ", "hudson.model.FreeStyleProject", []⟩]

/-- The state `read_jobs` reaches on that enumeration. -/
def c3finalState : ReadJobsState :=
  ⟨["uX", "uY", "uZ"], ["A", "X"],
   [("A", ⟨"A", some "<?xml version=\"1.0\" ?>\n<project/>\n", none⟩),
    ("X", ⟨"X", some "<?xml version=\"1.0\" ?>\n<project/>\n", none⟩)]⟩

/-- C3 counterexample: on the claim's scenario the code fetches and ingests
`X` — an owning entry is never skipped, because the owning-class branch of
the `elif` chain has no `continue` and precedes the exclusion test.  `Y`
and `Z` are skipped, but "none of X, Y, Z is individually fetched or
appears in the resulting Change Set" is false for `X`. -/
theorem C3_counterexample_owning_child_fetched :
    read_jobs (fun _ => true) (fun _ => "<project/>") c3entries readJobsStart =
      .ok c3finalState ∧
    c3finalState.fetched = ["A", "X"] ∧
    c3finalState.jobs.map (fun p => p.1) = ["A", "X"] :=
  ⟨rfl, rfl, rfl⟩

/-- C3 as amended: in the scenario enumeration, the owned children `Y` and
`Z` are never fetched and never appear in the change set, an
already-excluded non-owning entry is skipped with its own children's
identifiers added to the exclusion set (so exclusion propagates through
nested ownership), but an entry of an owning kind is itself always fetched
and ingested, even when its own identifier is excluded — so `X` is fetched
and appears. -/
theorem C3_amended_exclusion (nA nX nY nZ uA uX uY uZ cY cZ : String)
    (subY subZ : List String) (cfg : String → String) (cA cX : String)
    (hA : nA ≠ "") (hX : nX ≠ "") (hXA : nA ≠ nX)
    (hYc : cY ∉ job_managing_job_classes) (hZc : cZ ∉ job_managing_job_classes)
    (hcA : xml_normalize (cfg nA) = some cA) (hcX : xml_normalize (cfg nX) = some cX) :
    read_jobs (fun _ => true) cfg
      [⟨nA, uA, "jenkins.branch.OrganizationFolder", [uX, uY]⟩,
       ⟨nX, uX, "jenkins.branch.OrganizationFolder", [uZ]⟩,
       ⟨nY, uY, cY, subY⟩,
       ⟨nZ, uZ, cZ, subZ⟩] readJobsStart =
      .ok ⟨(([uX, uY] ++ [uZ]) ++ subY) ++ subZ, [nA, nX],
        [(nA, ⟨nA, some cA, none⟩), (nX, ⟨nX, some cX, none⟩)]⟩ := by
  have hYc2 : (cY = "jenkins.branch.OrganizationFolder") = False := by
    simp only [eq_iff_iff, iff_false]
    intro h
    exact hYc (by simp [job_managing_job_classes, h])
  have hZc2 : (cZ = "jenkins.branch.OrganizationFolder") = False := by
    simp only [eq_iff_iff, iff_false]
    intro h
    exact hZc (by simp [job_managing_job_classes, h])
  have hXA2 : (nA = nX) = False := by simp [hXA]
  simp only [read_jobs, ingestJob, readJobsStart, XmlChange.init, XmlChange.before_xml_set,
    job_managing_job_classes, hA, hX, hXA2, hcA, hcX, hYc2, hZc2,
    List.contains_cons, List.find?_nil, List.find?_cons, List.nil_append,
    Option.map_none, Option.map_some, beq_self_eq_true, Bool.or_true, Bool.true_or,
    Bool.not_true, Bool.not_false, if_true, if_false, ite_true, ite_false,
    decide_True, decide_False, decide_eq_true_eq]
  simp [hXA2, hYc2, hZc2, List.contains_cons]

/-- Witness for the amended C3 at the concrete scenario. -/
theorem C3_amended_exclusion_witness :
    read_jobs (fun _ => true) (fun _ => "<project/>")
      [⟨"A", "uA", "jenkins.branch.OrganizationFolder", ["uX", "uY"]⟩,
       ⟨"X", "uX", "jenkins.branch.OrganizationFolder", ["uZ"]⟩,
       ⟨"Y", "uY", "hudson.model.FreeStyleProject", []⟩,
       ⟨"Z", "uZ", "hudson.model.FreeStyleProject", []⟩] readJobsStart =
      .ok ⟨((["uX", "uY"] ++ ["uZ"]) ++ []) ++ [], ["A", "X"],
        [("A", ⟨"A", some "<?xml version=\"1.0\" ?>\n<project/>\n", none⟩),
         ("X", ⟨"X", some "<?xml version=\"1.0\" ?>\n<project/>\n", none⟩)]⟩ :=
  C3_amended_exclusion "A" "X" "Y" "Z" "uA" "uX" "uY" "uZ"
    "hudson.model.FreeStyleProject" "hudson.model.FreeStyleProject" [] []
    (fun _ => "<project/>")
    "<?xml version=\"1.0\" ?>\n<project/>\n" "<?xml version=\"1.0\" ?>\n<project/>\n"
    (by decide) (by decide) (by decide) (by decide) (by decide) rfl rfl

/-! ### C2: idempotence of canonicalization

The counterexample: a newline inside an attribute value, produced by the
character reference `&#10;` (which the expat attribute-value normalization
leaves intact).  minidom's `_write_data` does not escape whitespace in
attribute values, so the canonical form carries a literal newline inside
the quotes; re-parsing that canonical form normalizes the literal newline
to a space, so the second canonicalization differs from the first. -/

/-- C2 counterexample: `canonicalize` is not idempotent on the well-formed
input `<project foo="a&#10;b"/>`. -/
theorem C2_counterexample_attr_newline :
    xml_normalize "<project foo=\"a&#10;b\"/>" =
      some "<?xml version=\"1.0\" ?>\n<project foo=\"a\nb\"/>\n" ∧
    xml_normalize "<?xml version=\"1.0\" ?>\n<project foo=\"a\nb\"/>\n" =
      some "<?xml version=\"1.0\" ?>\n<project foo=\"a b\"/>\n" ∧
    ("<?xml version=\"1.0\" ?>\n<project foo=\"a\nb\"/>\n" : String) ≠
      "<?xml version=\"1.0\" ?>\n<project foo=\"a b\"/>\n" :=
  ⟨rfl, rfl, by decide⟩

/-! #### Whitespace and `str.strip` lemmas -/

/-- XML whitespace is Python whitespace. -/
theorem pyIsSpace_of_isXmlWs {c : Char} (h : isXmlWs c = true) : pyIsSpace c = true := by
  unfold isXmlWs at h
  simp only [Bool.or_eq_true, decide_eq_true_eq] at h
  rcases h with ((h | h) | h) | h <;> subst h <;> decide

/-- Dropping leading whitespace ignores a whitespace prefix. -/
theorem dropWhile_ws_append {w l : List Char} (hw : ∀ c ∈ w, pyIsSpace c = true) :
    (w ++ l).dropWhile pyIsSpace = l.dropWhile pyIsSpace := by
  induction w with
  | nil => rfl
  | cons c r ih =>
    rw [List.cons_append, List.dropWhile_cons, if_pos (hw c (by simp))]
    exact ih (fun x hx => hw x (by simp [hx]))

/-- Dropping trailing whitespace as done by `pyStrip`. -/
def dropRightWs (l : List Char) : List Char :=
  (l.reverse.dropWhile pyIsSpace).reverse

/-- `pyStrip` factored through the two one-sided drops. -/
theorem pyStrip_eq (l : List Char) :
    pyStrip l = dropRightWs (l.dropWhile pyIsSpace) := rfl

/-- Trailing whitespace is invisible to `dropRightWs`. -/
theorem dropRightWs_append {w l : List Char} (hw : ∀ c ∈ w, pyIsSpace c = true) :
    dropRightWs (l ++ w) = dropRightWs l := by
  unfold dropRightWs
  rw [List.reverse_append, dropWhile_ws_append (by simpa using hw)]

/-- Stripping a whitespace-padded list strips the core. -/
theorem pyStrip_sandwich {w1 w2 d : List Char}
    (h1 : ∀ c ∈ w1, pyIsSpace c = true) (h2 : ∀ c ∈ w2, pyIsSpace c = true) :
    pyStrip (w1 ++ d ++ w2) = pyStrip d := by
  rw [pyStrip_eq, pyStrip_eq, List.append_assoc, dropWhile_ws_append h1]
  rcases hcase : d.dropWhile pyIsSpace with _ | ⟨c, r⟩
  · have hall : ∀ c ∈ d, pyIsSpace c = true := List.dropWhile_eq_nil_iff.mp hcase
    have : (d ++ w2).dropWhile pyIsSpace = [] := by
      apply List.dropWhile_eq_nil_iff.mpr
      intro x hx
      rcases List.mem_append.mp hx with hx | hx
      · exact hall x hx
      · exact h2 x hx
    rw [this]
  · have hsplit : (d ++ w2).dropWhile pyIsSpace = d.dropWhile pyIsSpace ++ w2 := by
      rw [List.dropWhile_append, hcase]
      simp
    rw [hsplit, dropRightWs_append h2, hcase]

/-- Stripping pure whitespace gives the empty list. -/
theorem pyStrip_ws {w : List Char} (hw : ∀ c ∈ w, pyIsSpace c = true) :
    pyStrip w = [] := by
  have := @pyStrip_sandwich [] w [] (by simp) hw
  simpa using this

/-- A list is its own strip exactly when it is empty or bounded by
non-whitespace characters. -/
theorem pyStrip_eq_self_iff (l : List Char) :
    pyStrip l = l ↔ (l = [] ∨
      (∃ c r, l = c :: r ∧ pyIsSpace c = false) ∧
      (∃ r c, l = r ++ [c] ∧ pyIsSpace c = false)) := by
  constructor
  · intro h
    rcases hl : l with _ | ⟨c, r⟩
    · exact Or.inl rfl
    · right
      subst hl
      constructor
      · refine ⟨c, r, rfl, ?_⟩
        by_contra hws
        have hws' : pyIsSpace c = true := by
          cases hspace : pyIsSpace c
          · exact absurd hspace hws
          · rfl
        have hlen : (pyStrip (c :: r)).length ≤ r.length := by
          rw [pyStrip_eq, List.dropWhile_cons, if_pos hws']
          calc (dropRightWs (r.dropWhile pyIsSpace)).length
              ≤ (r.dropWhile pyIsSpace).length := by
                unfold dropRightWs
                simpa using (List.dropWhile_sublist pyIsSpace
                  (l := (r.dropWhile pyIsSpace).reverse)).length_le
            _ ≤ r.length := (List.dropWhile_sublist pyIsSpace (l := r)).length_le
        rw [h] at hlen
        simp at hlen
      · rcases List.eq_nil_or_concat (c :: r) with hnil | ⟨r2, c2, hr2⟩
        · simp at hnil
        · rw [List.concat_eq_append] at hr2
          refine ⟨r2, c2, hr2, ?_⟩
          by_contra hws
          have hws' : pyIsSpace c2 = true := by
            cases hspace : pyIsSpace c2
            · exact absurd hspace hws
            · rfl
          have hlen : (pyStrip (c :: r)).length ≤ r2.length := by
            rw [hr2, pyStrip_eq]
            have hb : (r2 ++ [c2]).dropWhile pyIsSpace = r2.dropWhile pyIsSpace ++ [c2] ∨
                (r2 ++ [c2]).dropWhile pyIsSpace = [c2].dropWhile pyIsSpace := by
              rw [List.dropWhile_append]
              by_cases he : (r2.dropWhile pyIsSpace).isEmpty = true
              · rw [if_pos he]; exact Or.inr rfl
              · rw [if_neg he]; exact Or.inl rfl
            rcases hb with hb | hb
            · rw [hb]
              unfold dropRightWs
              rw [List.reverse_append]
              simp only [List.reverse_cons, List.reverse_nil, List.nil_append,
                List.singleton_append, List.dropWhile_cons, if_pos hws']
              calc ((r2.dropWhile pyIsSpace).reverse.dropWhile pyIsSpace).reverse.length
                  = ((r2.dropWhile pyIsSpace).reverse.dropWhile pyIsSpace).length := by simp
                _ ≤ (r2.dropWhile pyIsSpace).reverse.length :=
                    (List.dropWhile_sublist pyIsSpace
                      (l := (r2.dropWhile pyIsSpace).reverse)).length_le
                _ ≤ r2.length := by
                    simpa using (List.dropWhile_sublist pyIsSpace (l := r2)).length_le
            · rw [hb]
              simp only [List.dropWhile_cons, if_pos hws', List.dropWhile_nil]
              simp [dropRightWs]
          rw [h, hr2] at hlen
          simp at hlen
  · intro h
    rcases h with h | ⟨⟨c, r, hl, hc⟩, ⟨r2, c2, hl2, hc2⟩⟩
    · simp [h, pyStrip]
    · rw [pyStrip_eq]
      have hd : l.dropWhile pyIsSpace = l := by
        rw [hl, List.dropWhile_cons, if_neg (by simp [hc])]
      rw [hd]
      unfold dropRightWs
      have hr : l.reverse.dropWhile pyIsSpace = l.reverse := by
        rw [hl2, List.reverse_append]
        simp only [List.reverse_cons, List.reverse_nil, List.nil_append,
          List.singleton_append, List.dropWhile_cons]
        rw [if_neg (by simp [hc2])]
      rw [hr, List.reverse_reverse]

/-- Concatenating two non-empty stripped lists yields a stripped list. -/
theorem pyStrip_append_stripped {d1 d2 : List Char}
    (h1 : pyStrip d1 = d1) (h2 : pyStrip d2 = d2)
    (hn1 : d1 ≠ []) (hn2 : d2 ≠ []) : pyStrip (d1 ++ d2) = d1 ++ d2 := by
  rcases (pyStrip_eq_self_iff d1).mp h1 with h | ⟨⟨c, r, hl, hc⟩, _⟩
  · exact absurd h hn1
  rcases (pyStrip_eq_self_iff d2).mp h2 with h | ⟨_, ⟨r2, c2, hl2, hc2⟩⟩
  · exact absurd h hn2
  apply (pyStrip_eq_self_iff (d1 ++ d2)).mpr
  right
  constructor
  · exact ⟨c, r ++ d2, by rw [hl]; simp, hc⟩
  · exact ⟨d1 ++ r2, c2, by rw [hl2]; simp, hc2⟩

/-! #### Lexicographic order on node names -/

/-- The comparison is irreflexive. -/
theorem ltChars_irrefl : ∀ l : List Char, ltChars l l = false
  | [] => rfl
  | c :: r => by simp [ltChars, ltChars_irrefl r]

/-- The comparison is transitive. -/
theorem ltChars_trans : ∀ {a b c : List Char},
    ltChars a b = true → ltChars b c = true → ltChars a c = true
  | [], _ :: _, _ :: _, _, _ => rfl
  | [], [], _, h, _ => by simp [ltChars] at h
  | [], _ :: _, [], _, h => by simp [ltChars] at h
  | _ :: _, [], _, h, _ => by simp [ltChars] at h
  | _ :: _, _ :: _, [], _, h => by simp [ltChars] at h
  | a :: as, b :: bs, c :: cs, h1, h2 => by
    simp only [ltChars] at h1 h2 ⊢
    by_cases hab : a = b
    · subst hab
      rw [if_pos rfl] at h1
      by_cases hbc : a = c
      · subst hbc
        rw [if_pos rfl] at h2 ⊢
        exact ltChars_trans h1 h2
      · rw [if_neg hbc] at h2 ⊢
        exact h2
    · rw [if_neg hab] at h1
      by_cases hbc : b = c
      · subst hbc
        rw [if_neg hab]
        exact h1
      · rw [if_neg hbc] at h2
        have hac : a < c := lt_trans (of_decide_eq_true h1) (of_decide_eq_true h2)
        rw [if_neg (ne_of_lt hac), decide_eq_true_eq]
        exact hac

/-- Two mutually not-less lists are equal. -/
theorem ltChars_connex : ∀ {a b : List Char},
    ltChars a b = false → ltChars b a = false → a = b
  | [], [], _, _ => rfl
  | [], _ :: _, h, _ => by simp [ltChars] at h
  | _ :: _, [], _, h => by simp [ltChars] at h
  | a :: as, b :: bs, h1, h2 => by
    simp only [ltChars] at h1 h2
    by_cases hab : a = b
    · subst hab
      rw [if_pos rfl] at h1 h2
      rw [ltChars_connex h1 h2]
    · rw [if_neg hab] at h1
      rw [if_neg (fun h => hab h.symm)] at h2
      simp only [decide_eq_false_iff_not, not_lt] at h1 h2
      exact absurd (le_antisymm h1 h2) (fun h => hab h.symm)

/-! #### Well-formed trees, poison-free trees, normal forms -/

/-- A well-formed XML name: non-empty, name-start head, name characters. -/
def wfName : List Char → Bool
  | [] => false
  | c :: r => isNameStart c && r.all isNameChar

/-- Attribute names are pairwise distinct. -/
def attrNamesDistinct : Attrs → Bool
  | [] => true
  | (nm, _) :: r => !(r.any (fun a => a.1 = nm)) && attrNamesDistinct r

/-- Well-formed attribute list: names well-formed and distinct, values made
of valid characters. -/
def wfAttrs (attrs : Attrs) : Bool :=
  attrs.all (fun a => wfName a.1 && a.2.all validChar) && attrNamesDistinct attrs

mutual

/-- Well-formed tree: every parse result satisfies this. -/
def wfNode : XmlNode → Bool
  | .text d => d.all validChar
  | .elem nm attrs cs => wfName nm && wfAttrs attrs && wfList cs

/-- Well-formed child lists. -/
def wfList : List XmlNode → Bool
  | [] => true
  | c :: r => wfNode c && wfList r

end

/-- No whitespace that minidom would write raw but expat re-normalize:
attribute values without tab, newline or carriage return. -/
def pfAttrs (attrs : Attrs) : Bool :=
  attrs.all (fun a => a.2.all (fun c => !(c = '\t' || c = '\n' || c = '\r')))

mutual

/-- Poison-free tree: no tab/newline/return in attribute values (reachable
only via character references) and no carriage return in text data. -/
def poisonFree : XmlNode → Bool
  | .text d => d.all (fun c => !(c = '\r'))
  | .elem _ attrs cs => pfAttrs attrs && poisonFreeList cs

/-- Poison-free child lists. -/
def poisonFreeList : List XmlNode → Bool
  | [] => true
  | c :: r => poisonFree c && poisonFreeList r

end

/-- No two adjacent text nodes. -/
def noAdjTexts : List XmlNode → Bool
  | .text _ :: .text _ :: _ => false
  | _ :: r => noAdjTexts r
  | [] => true

/-- Sorted (non-strictly) by node name. -/
def sortedByName : List XmlNode → Bool
  | a :: b :: r => !ltChars (nodeName b) (nodeName a) && sortedByName (b :: r)
  | _ => true

mutual

/-- Normal form of the canonicalization: text nodes stripped and
non-empty, no adjacent texts, sortable elements sorted by node name. -/
def nfNode : XmlNode → Bool
  | .text d => (pyStrip d == d) && !d.isEmpty
  | .elem nm attrs cs =>
    noAdjTexts cs && (!(sortable_node_names.contains nm) || sortedByName cs) &&
      nfList cs

/-- Normal form for child lists. -/
def nfList : List XmlNode → Bool
  | [] => true
  | c :: r => nfNode c && nfList r

end

/-! #### Parse results are well-formed -/

/-- `spanP` returns a prefix of satisfying characters. -/
theorem spanP_all (p : Char → Bool) : ∀ l : List Char, (spanP p l).1.all p = true
  | [] => rfl
  | c :: r => by
    by_cases h : p c = true
    · simp [spanP, h, spanP_all p r]
    · simp [spanP, h]

/-- Parsed names are well-formed. -/
theorem parseName_wf {l nm r : List Char} (h : parseName l = some (nm, r)) :
    wfName nm = true := by
  cases l with
  | nil => exact absurd h (by simp [parseName])
  | cons c cs =>
    by_cases hc : isNameStart c = true
    · simp only [parseName, hc, if_true, Option.some_inj, Prod.mk.injEq] at h
      rw [← h.1]
      simp [wfName, hc, spanP_all]
    · simp [parseName, hc] at h

/-- Characters from numeric references are valid. -/
theorem refChar_valid {n : Nat} {c : Char} (h : refChar n = some c) :
    validChar c = true := by
  unfold refChar at h
  by_cases hn : n < 0xd800 ∨ (0xe000 ≤ n ∧ n < 0x110000)
  · rw [dif_pos hn] at h
    dsimp only at h
    split at h
    · injection h with h2
      subst h2
      assumption
    · exact absurd h (by simp)
  · rw [dif_neg hn] at h
    exact absurd h (by simp)

set_option maxHeartbeats 1000000 in
/-- Characters from any reference are valid. -/
theorem parseReference_valid {l : List Char} {c : Char} {r : List Char}
    (h : parseReference l = some (c, r)) : validChar c = true := by
  unfold parseReference at h
  split at h
  · simp only [Option.some_inj, Prod.mk.injEq] at h
    rw [← h.1]; decide
  · simp only [Option.some_inj, Prod.mk.injEq] at h
    rw [← h.1]; decide
  · simp only [Option.some_inj, Prod.mk.injEq] at h
    rw [← h.1]; decide
  · simp only [Option.some_inj, Prod.mk.injEq] at h
    rw [← h.1]; decide
  · simp only [Option.some_inj, Prod.mk.injEq] at h
    rw [← h.1]; decide
  · dsimp only at h
    split at h
    · exact absurd h (by simp)
    · rcases hrc : refChar (hexFold _) with _ | c2 <;> rw [hrc] at h
      · simp at h
      · simp only [Option.map_some', Option.some_inj, Prod.mk.injEq] at h
        rw [← h.1]
        exact refChar_valid hrc
    · exact absurd h (by simp)
  · dsimp only at h
    split at h
    · exact absurd h (by simp)
    · rcases hrc : refChar (decFold _) with _ | c2 <;> rw [hrc] at h
      · simp at h
      · simp only [Option.map_some', Option.some_inj, Prod.mk.injEq] at h
        rw [← h.1]
        exact refChar_valid hrc
    · exact absurd h (by simp)
  · exact absurd h (by simp)

/-- Unfolding: text parsing at end of input. -/
theorem parseText_nil (f : Nat) : parseText f [] = some ([], []) := by
  cases f <;> rfl

/-- Unfolding: text parsing stops at `<`. -/
theorem parseText_lt (f : Nat) (r : List Char) :
    parseText f ('<' :: r) = some ([], '<' :: r) := by
  cases f <;> simp [parseText]

/-- Unfolding: text parsing expands a reference. -/
theorem parseText_amp (n : Nat) (r : List Char) :
    parseText (n + 1) ('&' :: r) =
      match parseReference r with
      | some (ch, r2) => (parseText n r2).map (fun p => (ch :: p.1, p.2))
      | none => none := by
  simp [parseText]

/-- Unfolding: text parsing consumes an ordinary character. -/
theorem parseText_char (n : Nat) {c : Char} (r : List Char)
    (hlt : c ≠ '<') (hamp : c ≠ '&') :
    parseText (n + 1) (c :: r) =
      if validChar c then (parseText n r).map (fun p => (c :: p.1, p.2))
      else none := by
  simp [parseText, hlt, hamp]

/-- Unfolding: attribute-value parsing at the closing quote. -/
theorem parseAttrValue_close (q : Char) (n : Nat) (r : List Char) :
    parseAttrValue q (n + 1) (q :: r) = some ([], r) := by
  simp [parseAttrValue]

/-- Unfolding: attribute-value parsing expands a reference. -/
theorem parseAttrValue_amp (q : Char) (n : Nat) (r : List Char) (hq : '&' ≠ q) :
    parseAttrValue q (n + 1) ('&' :: r) =
      match parseReference r with
      | some (ch, r2) => (parseAttrValue q n r2).map (fun p => (ch :: p.1, p.2))
      | none => none := by
  simp [parseAttrValue, hq]

/-- Unfolding: attribute-value parsing consumes an ordinary character,
normalizing literal tab/newline to a space. -/
theorem parseAttrValue_char (q : Char) (n : Nat) {c : Char} (r : List Char)
    (hq : c ≠ q) (hlt : c ≠ '<') (hamp : c ≠ '&') :
    parseAttrValue q (n + 1) (c :: r) =
      if validChar c then
        (parseAttrValue q n r).map
          (fun p => ((if c = '\t' || c = '\n' then ' ' else c) :: p.1, p.2))
      else none := by
  simp [parseAttrValue, hq, hlt, hamp]

/-- Characters in a parsed text run are valid. -/
theorem parseText_wf (f : Nat) : ∀ (l : List Char) {t r : List Char},
    parseText f l = some (t, r) → t.all validChar = true := by
  induction f with
  | zero =>
    intro l t r h
    cases l with
    | nil =>
      rw [parseText_nil] at h
      simp only [Option.some_inj, Prod.mk.injEq] at h
      simp [← h.1]
    | cons c l2 =>
      by_cases hc : c = '<'
      · subst hc
        rw [parseText_lt] at h
        simp only [Option.some_inj, Prod.mk.injEq] at h
        simp [← h.1]
      · simp [parseText, hc] at h
  | succ n ih =>
    intro l t r h
    cases l with
    | nil =>
      rw [parseText_nil] at h
      simp only [Option.some_inj, Prod.mk.injEq] at h
      simp [← h.1]
    | cons c l2 =>
      by_cases hlt : c = '<'
      · subst hlt
        rw [parseText_lt] at h
        simp only [Option.some_inj, Prod.mk.injEq] at h
        simp [← h.1]
      · by_cases hamp : c = '&'
        · subst hamp
          rw [parseText_amp] at h
          cases hpr : parseReference l2 with
          | none => rw [hpr] at h; simp at h
          | some p =>
            obtain ⟨ch, r2⟩ := p
            rw [hpr] at h
            dsimp only at h
            cases hpt : parseText n r2 with
            | none => rw [hpt] at h; simp at h
            | some q =>
              rw [hpt] at h
              simp only [Option.map_some', Option.some_inj, Prod.mk.injEq] at h
              rw [← h.1]
              simp only [List.all_cons, Bool.and_eq_true]
              exact ⟨parseReference_valid hpr, ih r2 (by rw [hpt])⟩
        · rw [parseText_char n l2 hlt hamp] at h
          by_cases hv : validChar c
          · rw [if_pos hv] at h
            cases hpt : parseText n l2 with
            | none => rw [hpt] at h; simp at h
            | some q =>
              rw [hpt] at h
              simp only [Option.map_some', Option.some_inj, Prod.mk.injEq] at h
              rw [← h.1]
              simp only [List.all_cons, Bool.and_eq_true]
              exact ⟨hv, ih l2 (by rw [hpt])⟩
          · rw [if_neg hv] at h
            exact absurd h (by simp)

/-- Characters in a parsed attribute value are valid. -/
theorem parseAttrValue_wf (q : Char) (f : Nat) : ∀ (l : List Char) {v r : List Char},
    parseAttrValue q f l = some (v, r) → v.all validChar = true := by
  induction f with
  | zero => intro l v r h; cases l <;> simp [parseAttrValue] at h
  | succ n ih =>
    intro l v r h
    cases l with
    | nil => simp [parseAttrValue] at h
    | cons c l2 =>
      by_cases hq : c = q
      · subst hq
        rw [parseAttrValue_close] at h
        simp only [Option.some_inj, Prod.mk.injEq] at h
        simp [← h.1]
      · by_cases hlt : c = '<'
        · subst hlt
          simp [parseAttrValue, hq] at h
        · by_cases hamp : c = '&'
          · subst hamp
            rw [parseAttrValue_amp q n l2 (fun h2 => hq h2)] at h
            cases hpr : parseReference l2 with
            | none => rw [hpr] at h; simp at h
            | some p =>
              obtain ⟨ch, r2⟩ := p
              rw [hpr] at h
              dsimp only at h
              cases hpt : parseAttrValue q n r2 with
              | none => rw [hpt] at h; simp at h
              | some pq =>
                rw [hpt] at h
                simp only [Option.map_some', Option.some_inj, Prod.mk.injEq] at h
                rw [← h.1]
                simp only [List.all_cons, Bool.and_eq_true]
                exact ⟨parseReference_valid hpr, ih r2 (by rw [hpt])⟩
          · rw [parseAttrValue_char q n l2 hq hlt hamp] at h
            by_cases hv : validChar c
            · rw [if_pos hv] at h
              cases hpt : parseAttrValue q n l2 with
              | none => rw [hpt] at h; simp at h
              | some pq =>
                rw [hpt] at h
                simp only [Option.map_some', Option.some_inj, Prod.mk.injEq] at h
                rw [← h.1]
                simp only [List.all_cons, Bool.and_eq_true]
                refine ⟨?_, ih l2 (by rw [hpt])⟩
                by_cases hws : c = '\t' ∨ c = '\n'
                · rcases hws with hws | hws <;> simp [hws] <;> decide
                · have hcond : (c = '\t' || c = '\n') = false := by
                    simp only [Bool.or_eq_false_iff, decide_eq_false_iff_not]
                    exact ⟨fun h2 => hws (Or.inl h2), fun h2 => hws (Or.inr h2)⟩
                  rw [hcond, if_neg (by simp)]
                  exact hv
            · rw [if_neg hv] at h
              exact absurd h (by simp)

/-- Appending a fresh name keeps attribute names distinct. -/
theorem attrNamesDistinct_push : ∀ (acc : Attrs) (nm v : List Char),
    attrNamesDistinct acc = true → acc.any (fun a => a.1 = nm) = false →
    attrNamesDistinct (acc ++ [(nm, v)]) = true
  | [], nm, v, _, _ => by simp [attrNamesDistinct]
  | (a1, a2) :: r, nm, v, hdis, hnew => by
    simp only [attrNamesDistinct, Bool.and_eq_true] at hdis
    simp only [List.any_cons, Bool.or_eq_false_iff] at hnew
    simp only [List.cons_append, attrNamesDistinct, Bool.and_eq_true]
    refine ⟨?_, attrNamesDistinct_push r nm v hdis.2 hnew.2⟩
    simp only [Bool.not_eq_true']
    rw [List.append_eq, List.any_append]
    simp only [Bool.or_eq_false_iff]
    constructor
    · simpa using hdis.1
    · simp only [List.any_cons, List.any_nil, Bool.or_false, decide_eq_false_iff_not]
      simp only [decide_eq_false_iff_not] at hnew
      exact fun h2 => hnew.1 h2.symm

/-- Appending a fresh attribute preserves well-formedness. -/
theorem wfAttrs_push {acc : Attrs} {nm v : List Char}
    (hacc : wfAttrs acc = true) (hnm : wfName nm = true)
    (hv : v.all validChar = true)
    (hnew : acc.any (fun a => a.1 = nm) = false) :
    wfAttrs (acc ++ [(nm, v)]) = true := by
  unfold wfAttrs at hacc ⊢
  simp only [Bool.and_eq_true] at hacc
  simp only [Bool.and_eq_true]
  constructor
  · simp only [List.all_append, Bool.and_eq_true]
    exact ⟨hacc.1, by simp [hnm, hv]⟩
  · exact attrNamesDistinct_push acc nm v hacc.2 hnew

/-- Well-formedness distributes over list concatenation. -/
theorem wfList_append : ∀ l1 l2 : List XmlNode,
    wfList (l1 ++ l2) = (wfList l1 && wfList l2)
  | [], l2 => by simp [wfList]
  | c :: r, l2 => by
    simp [wfList, wfList_append r l2, Bool.and_assoc]

mutual

/-- Attribute lists parsed on top of a well-formed accumulator are
well-formed. -/
theorem parseAttrs_wf : ∀ (f : Nat) (l : List Char) (acc : Attrs)
    {attrs : Attrs} {r : List Char},
    wfAttrs acc = true → parseAttrs f l acc = some (attrs, r) →
    wfAttrs attrs = true
  | 0, l, acc, attrs, r => by
    intro hacc h
    simp [parseAttrs] at h
  | f + 1, l, acc, attrs, r => by
    intro hacc h
    unfold parseAttrs at h
    cases hr1 : skipWs l with
    | nil =>
      rw [hr1] at h
      dsimp only at h
      simp only [Option.some_inj, Prod.mk.injEq] at h
      rw [← h.1]
      exact hacc
    | cons c r2 =>
      rw [hr1] at h
      dsimp only at h
      by_cases hns : isNameStart c = true
      · rw [if_pos hns] at h
        cases hpn : parseName (c :: r2) with
        | none => rw [hpn] at h; simp at h
        | some p =>
          obtain ⟨nm, r3⟩ := p
          rw [hpn] at h
          dsimp only at h
          split at h
          · split at h
            · split at h
              · cases hpv : parseAttrValue _ _ _ with
                | none => rw [hpv] at h; simp at h
                | some pv =>
                  obtain ⟨v, r5⟩ := pv
                  rw [hpv] at h
                  dsimp only at h
                  split at h
                  · simp at h
                  · rename_i hdup
                    refine parseAttrs_wf f _ _ ?_ h
                    refine wfAttrs_push hacc (parseName_wf hpn)
                      (parseAttrValue_wf _ _ _ hpv) ?_
                    simp only [Bool.not_eq_true] at hdup
                    exact hdup
              · simp at h
            · simp at h
          · simp at h
      · rw [if_neg hns] at h
        simp only [Option.some_inj, Prod.mk.injEq] at h
        rw [← h.1]
        exact hacc

/-- Parsed elements are well-formed. -/
theorem parseElemAfterLt_wf : ∀ (f : Nat) (l : List Char)
    {t : XmlNode} {r : List Char},
    parseElemAfterLt f l = some (t, r) → wfNode t = true
  | 0, l, t, r => by
    intro h
    simp [parseElemAfterLt] at h
  | f + 1, l, t, r => by
    intro h
    unfold parseElemAfterLt at h
    cases hpn : parseName l with
    | none => rw [hpn] at h; simp at h
    | some p =>
      obtain ⟨nm, r1⟩ := p
      rw [hpn] at h
      dsimp only at h
      cases hpa : parseAttrs f r1 [] with
      | none => rw [hpa] at h; simp at h
      | some pa =>
        obtain ⟨attrs, r2⟩ := pa
        rw [hpa] at h
        dsimp only at h
        have hattrs : wfAttrs attrs = true :=
          parseAttrs_wf f r1 [] (by rfl) hpa
        split at h
        · simp only [Option.some_inj, Prod.mk.injEq] at h
          rw [← h.1]
          simp [wfNode, parseName_wf hpn, hattrs, wfList]
        · cases hpc : parseNodes f _ with
          | none => rw [hpc] at h; simp at h
          | some pc =>
            obtain ⟨cs, r4⟩ := pc
            rw [hpc] at h
            dsimp only at h
            cases hpn2 : parseName r4 with
            | none => rw [hpn2] at h; simp at h
            | some p2 =>
              obtain ⟨nm2, r5⟩ := p2
              rw [hpn2] at h
              dsimp only at h
              split at h
              · split at h
                · simp only [Option.some_inj, Prod.mk.injEq] at h
                  rw [← h.1]
                  simp only [wfNode, Bool.and_eq_true]
                  exact ⟨⟨parseName_wf hpn, hattrs⟩, parseNodes_wf f _ hpc⟩
                · simp at h
              · simp at h
        · simp at h

/-- Parsed child lists are well-formed. -/
theorem parseNodes_wf : ∀ (f : Nat) (l : List Char)
    {cs : List XmlNode} {r : List Char},
    parseNodes f l = some (cs, r) → wfList cs = true
  | 0, l, cs, r => by
    intro h
    simp [parseNodes] at h
  | f + 1, l, cs, r => by
    intro h
    unfold parseNodes at h
    cases hpt : parseText (l.length + 1) l with
    | none => rw [hpt] at h; simp at h
    | some pt =>
      obtain ⟨txt, r1⟩ := pt
      rw [hpt] at h
      dsimp only at h
      have htxt : wfList (if txt = [] then [] else [.text txt]) = true := by
        by_cases he : txt = []
        · simp [he, wfList]
        · simp only [if_neg he, wfList, wfNode, Bool.and_eq_true]
          exact ⟨parseText_wf _ _ hpt, trivial⟩
      split at h
      · simp only [Option.some_inj, Prod.mk.injEq] at h
        rw [← h.1]
        exact htxt
      · simp at h
      · simp at h
      · cases hpe : parseElemAfterLt f _ with
        | none => rw [hpe] at h; simp at h
        | some pe =>
          obtain ⟨child, r3⟩ := pe
          rw [hpe] at h
          dsimp only at h
          cases hps : parseNodes f r3 with
          | none => rw [hps] at h; simp at h
          | some ps =>
            obtain ⟨siblings, r4⟩ := ps
            rw [hps] at h
            dsimp only at h
            simp only [Option.some_inj, Prod.mk.injEq] at h
            rw [← h.1]
            rw [wfList_append]
            simp only [Bool.and_eq_true, wfList]
            exact ⟨htxt, parseElemAfterLt_wf f _ hpe, parseNodes_wf f _ hps⟩
      · simp at h

end

/-! #### Strip facts used by the traversal -/

/-- `dropRightWs` keeps a prefix of its input. -/
theorem dropRightWs_pre (l : List Char) : (dropRightWs l).IsPrefix l := by
  unfold dropRightWs
  have hsuf : (l.reverse.dropWhile pyIsSpace).IsSuffix l.reverse :=
    ⟨l.reverse.takeWhile pyIsSpace, List.takeWhile_append_dropWhile ..⟩
  obtain ⟨w, hw⟩ := hsuf
  refine ⟨w.reverse, ?_⟩
  have h2 : (w ++ l.reverse.dropWhile pyIsSpace).reverse = l.reverse.reverse := by
    rw [hw]
  rw [List.reverse_append, List.reverse_reverse] at h2
  exact h2

/-- `pyStrip` yields a sublist, hence preserves `all` predicates. -/
theorem pyStrip_sublist (l : List Char) : (pyStrip l).Sublist l := by
  rw [pyStrip_eq]
  exact ((dropRightWs_pre _).sublist).trans (List.dropWhile_sublist _)

/-- Character predicates survive stripping. -/
theorem all_pyStrip {p : Char → Bool} {l : List Char} (h : l.all p = true) :
    (pyStrip l).all p = true := by
  rw [List.all_eq_true] at h ⊢
  exact fun c hc => h c ((pyStrip_sublist l).mem hc)

/-- Heads of `dropWhile` results falsify the predicate. -/
theorem dropWhile_head_not {p : Char → Bool} :
    ∀ {l t : List Char} {c : Char}, l.dropWhile p = c :: t → p c = false := by
  intro l
  induction l with
  | nil => intro t c h; simp at h
  | cons a r ih =>
    intro t c h
    rw [List.dropWhile_cons] at h
    by_cases ha : p a = true
    · rw [if_pos ha] at h
      exact ih h
    · rw [if_neg ha] at h
      cases h
      simpa using ha

/-- Stripping is idempotent. -/
theorem pyStrip_idem (l : List Char) : pyStrip (pyStrip l) = pyStrip l := by
  apply (pyStrip_eq_self_iff (pyStrip l)).mpr
  rcases hm : pyStrip l with _ | ⟨c, t⟩
  · exact Or.inl rfl
  · right
    constructor
    · refine ⟨c, t, rfl, ?_⟩
      rw [pyStrip_eq] at hm
      obtain ⟨w, hw⟩ := dropRightWs_pre (l.dropWhile pyIsSpace)
      rw [hm] at hw
      exact dropWhile_head_not hw.symm
    · rcases List.eq_nil_or_concat (c :: t) with hnil | ⟨t2, c2, ht2⟩
      · simp at hnil
      · rw [List.concat_eq_append] at ht2
        refine ⟨t2, c2, ht2, ?_⟩
        rw [pyStrip_eq] at hm
        unfold dropRightWs at hm
        have hrev : ((l.dropWhile pyIsSpace).reverse.dropWhile pyIsSpace) =
            c2 :: t2.reverse := by
          have := congrArg List.reverse hm
          rw [List.reverse_reverse] at this
          rw [this, ht2]
          simp
        exact dropWhile_head_not hrev

/-! #### Permutation and sortedness facts for the child sort -/

/-- `insertByName` permutes the new element into the list. -/
theorem insertByName_perm (x : XmlNode) :
    ∀ l : List XmlNode, (insertByName x l).Perm (x :: l)
  | [] => List.Perm.refl _
  | y :: ys => by
    unfold insertByName
    by_cases hlt : ltChars (nodeName y) (nodeName x) = true
    · rw [if_pos hlt]
      exact ((insertByName_perm x ys).cons y).trans (List.Perm.swap x y ys)
    · rw [if_neg hlt]

/-- `sortChildren` permutes its input. -/
theorem sortChildren_perm : ∀ l : List XmlNode, (sortChildren l).Perm l
  | [] => List.Perm.refl _
  | x :: r => by
    show (insertByName x (List.foldr insertByName [] r)).Perm (x :: r)
    exact (insertByName_perm x _).trans ((sortChildren_perm r).cons x)

/-- Name comparison: not-less is transitive. -/
theorem ltChars_le_trans {a b c : List Char}
    (h1 : ltChars b a = false) (h2 : ltChars c b = false) :
    ltChars c a = false := by
  by_cases h : ltChars c a = true
  · by_cases hab : ltChars a b = true
    · have := ltChars_trans h hab
      rw [this] at h2
      simp at h2
    · have hba : a = b := ltChars_connex (by simpa using hab) h1
      rw [← hba] at h2
      rw [h] at h2
      simp at h2
  · simpa using h

/-- Parsed documents are well-formed. -/
theorem parseDocument_wf {s : List Char} {root : XmlNode}
    (h : parseDocument s = some root) : wfNode root = true := by
  unfold parseDocument at h
  dsimp only at h
  split at h
  · simp at h
  · split at h
    · cases hpe : parseElemAfterLt (s.length + 1) _ with
      | none => rw [hpe] at h; simp at h
      | some pe =>
        obtain ⟨t, r2⟩ := pe
        rw [hpe] at h
        dsimp only at h
        split at h
        · simp only [Option.some_inj] at h
          rw [← h]
          exact parseElemAfterLt_wf _ _ hpe
        · simp at h
    · simp at h

/-! #### Sortedness of the child sort, and its survival of `normalize` -/

/-- `all` only sees membership, so it transfers along permutations. -/
theorem perm_all_eq {α : Type} {p : α → Bool} {l l2 : List α}
    (h : l.Perm l2) : l.all p = l2.all p := by
  by_cases hl : l.all p = true
  · rw [hl]
    symm
    rw [List.all_eq_true] at hl ⊢
    exact fun x hx => hl x (h.mem_iff.mpr hx)
  · rw [Bool.not_eq_true] at hl
    rw [hl]
    symm
    rw [Bool.eq_false_iff] at hl ⊢
    intro h2
    apply hl
    rw [List.all_eq_true] at h2 ⊢
    exact fun x hx => h2 x (h.mem_iff.mp hx)

/-- Strict comparison is asymmetric. -/
theorem ltChars_asymm {a b : List Char} (h : ltChars a b = true) :
    ltChars b a = false := by
  by_cases h2 : ltChars b a = true
  · have := ltChars_trans h h2
    rw [ltChars_irrefl] at this
    exact absurd this (by simp)
  · simpa using h2

/-- The name sequence of a child list. -/
def namesOf (l : List XmlNode) : List (List Char) :=
  l.map nodeName

/-- Sortedness of a name sequence. -/
def sortedNames : List (List Char) → Bool
  | a :: b :: r => !ltChars b a && sortedNames (b :: r)
  | _ => true

/-- `sortedByName` only looks at the names. -/
theorem sortedByName_eq : ∀ l : List XmlNode,
    sortedByName l = sortedNames (namesOf l)
  | [] => rfl
  | [_] => rfl
  | a :: b :: r => by
    show (!ltChars (nodeName b) (nodeName a) && sortedByName (b :: r)) =
      (!ltChars (nodeName b) (nodeName a) && sortedNames (namesOf (b :: r)))
    rw [sortedByName_eq (b :: r)]

/-- Sorted name sequences are exactly the pairwise not-greater ones. -/
theorem sortedNames_iff_pairwise : ∀ ns : List (List Char),
    sortedNames ns = true ↔ ns.Pairwise (fun a b => ltChars b a = false)
  | [] => by simp [sortedNames]
  | [a] => by simp [sortedNames]
  | a :: b :: r => by
    show (!ltChars b a && sortedNames (b :: r)) = true ↔ _
    constructor
    · intro h
      simp only [Bool.and_eq_true, Bool.not_eq_true'] at h
      obtain ⟨hab, hrest⟩ := h
      have hp := (sortedNames_iff_pairwise (b :: r)).mp hrest
      refine List.Pairwise.cons ?_ hp
      intro x hx
      rcases List.mem_cons.mp hx with hx | hx
      · exact hx ▸ hab
      · exact ltChars_le_trans hab ((List.pairwise_cons.mp hp).1 x hx)
    · intro h
      obtain ⟨ha, hp⟩ := List.pairwise_cons.mp h
      simp only [Bool.and_eq_true, Bool.not_eq_true']
      exact ⟨ha b (List.mem_cons_self b r),
        (sortedNames_iff_pairwise (b :: r)).mpr hp⟩

/-- Sortedness of names survives taking a sublist. -/
theorem sortedNames_sublist {ns ms : List (List Char)} (h : ms.Sublist ns)
    (hs : sortedNames ns = true) : sortedNames ms = true := by
  rw [sortedNames_iff_pairwise] at hs ⊢
  exact List.Pairwise.sublist h hs

/-- `insertByName` on the name sequence. -/
def insertName (x : List Char) : List (List Char) → List (List Char)
  | [] => [x]
  | y :: ys => if ltChars y x then y :: insertName x ys else x :: y :: ys

/-- `insertByName` acts on names as `insertName`. -/
theorem namesOf_insertByName (x : XmlNode) : ∀ l : List XmlNode,
    namesOf (insertByName x l) = insertName (nodeName x) (namesOf l)
  | [] => rfl
  | y :: ys => by
    unfold insertByName
    by_cases hlt : ltChars (nodeName y) (nodeName x) = true
    · rw [if_pos hlt]
      show nodeName y :: namesOf (insertByName x ys) =
        insertName (nodeName x) (nodeName y :: namesOf ys)
      unfold insertName
      rw [if_pos hlt, namesOf_insertByName x ys]
    · rw [if_neg hlt]
      show nodeName x :: nodeName y :: namesOf ys =
        insertName (nodeName x) (nodeName y :: namesOf ys)
      unfold insertName
      rw [if_neg hlt]

/-- Inserting into a sorted name sequence keeps it sorted. -/
theorem insertName_sorted (x : List Char) : ∀ l : List (List Char),
    sortedNames l = true → sortedNames (insertName x l) = true
  | [], _ => rfl
  | [y], _ => by
    unfold insertName
    by_cases hlt : ltChars y x = true
    · rw [if_pos hlt]
      show (!ltChars x y && sortedNames [x]) = true
      rw [ltChars_asymm hlt]
      rfl
    · rw [if_neg hlt]
      show (!ltChars y x && sortedNames [y]) = true
      rw [Bool.not_eq_true] at hlt
      rw [hlt]
      rfl
  | y :: z :: zs, h => by
    have hyz : ltChars z y = false ∧ sortedNames (z :: zs) = true := by
      have h2 : (!ltChars z y && sortedNames (z :: zs)) = true := h
      simpa [Bool.and_eq_true, Bool.not_eq_true'] using h2
    unfold insertName
    by_cases hlt : ltChars y x = true
    · rw [if_pos hlt]
      have hrec := insertName_sorted x (z :: zs) hyz.2
      unfold insertName at hrec ⊢
      by_cases hzx : ltChars z x = true
      · rw [if_pos hzx] at hrec ⊢
        show (!ltChars z y && sortedNames (z :: insertName x zs)) = true
        rw [hyz.1, hrec]
        rfl
      · rw [if_neg hzx]
        have h1 : ltChars x y = false := ltChars_asymm hlt
        have h2 : ltChars z x = false := by simpa using hzx
        show (!ltChars x y && (!ltChars z x && sortedNames (z :: zs))) = true
        rw [h1, h2, hyz.2]
        rfl
    · rw [if_neg hlt]
      have h1 : ltChars y x = false := by simpa using hlt
      show (!ltChars y x && sortedNames (y :: z :: zs)) = true
      rw [h1, h]
      rfl

/-- The names of the sorted child list are sorted. -/
theorem sortChildren_sorted_names : ∀ l : List XmlNode,
    sortedNames (namesOf (sortChildren l)) = true
  | [] => rfl
  | x :: r => by
    show sortedNames (namesOf (insertByName x (List.foldr insertByName [] r))) = true
    rw [namesOf_insertByName]
    exact insertName_sorted _ _ (sortChildren_sorted_names r)

/-- `sortChildren` sorts. -/
theorem sortChildren_sorted (l : List XmlNode) :
    sortedByName (sortChildren l) = true := by
  rw [sortedByName_eq]
  exact sortChildren_sorted_names l

/-- `normalizeNode` keeps the node name. -/
theorem nodeName_normalizeNode (e : XmlNode) :
    nodeName (normalizeNode e) = nodeName e := by
  cases e <;> rfl

/-- Child normalization only deletes or merges equal-named neighbours, so
the name sequence becomes a sublist. -/
theorem normalizeChildren_names_sublist : ∀ l : List XmlNode,
    (namesOf (normalizeChildren l)).Sublist (namesOf l)
  | [] => List.Sublist.refl _
  | .text d :: rest => by
    unfold normalizeChildren
    by_cases hd : d = []
    · rw [if_pos hd]
      exact (normalizeChildren_names_sublist rest).cons _
    · rw [if_neg hd]
      cases hnc : normalizeChildren rest with
      | nil =>
        show (namesOf [XmlNode.text d]).Sublist (namesOf (.text d :: rest))
        exact List.Sublist.cons₂ _ (List.nil_sublist _)
      | cons c r2 =>
        have ih := normalizeChildren_names_sublist rest
        rw [hnc] at ih
        cases c with
        | text d2 =>
          show (namesOf (XmlNode.text (d ++ d2) :: r2)).Sublist
            (namesOf (.text d :: rest))
          exact List.Sublist.cons _ ih
        | elem nm attrs cs =>
          show (namesOf (XmlNode.text d :: XmlNode.elem nm attrs cs :: r2)).Sublist
            (namesOf (.text d :: rest))
          exact List.Sublist.cons₂ _ ih
  | .elem nm attrs cs :: rest => by
    show (nodeName (normalizeNode (.elem nm attrs cs)) ::
      namesOf (normalizeChildren rest)).Sublist (nm :: namesOf rest)
    exact List.Sublist.cons₂ _ (normalizeChildren_names_sublist rest)

/-- Sortedness survives child normalization. -/
theorem sortedByName_normalizeChildren {l : List XmlNode}
    (h : sortedByName l = true) : sortedByName (normalizeChildren l) = true := by
  rw [sortedByName_eq] at h ⊢
  exact sortedNames_sublist (normalizeChildren_names_sublist l) h

/-! #### The traversal followed by `normalize()` reaches the normal form -/

/-- Non-empty lists are not `isEmpty`. -/
theorem not_isEmpty_of_ne {α : Type} {l : List α} (h : l ≠ []) :
    (!l.isEmpty) = true := by
  cases l with
  | nil => exact absurd rfl h
  | cons a r => rfl

/-- Every text child carries an already-stripped value. -/
def textsStripped (l : List XmlNode) : Bool :=
  l.all (fun n => match n with | .text d => pyStrip d == d | _ => true)

/-- Every element child is normal after `normalize()`. -/
def elemsNF (l : List XmlNode) : Bool :=
  l.all (fun n => match n with | .text _ => true | e => nfNode (normalizeNode e))

/-- Normalized child lists never have adjacent text nodes. -/
theorem normalizeChildren_noAdjTexts : ∀ l : List XmlNode,
    noAdjTexts (normalizeChildren l) = true
  | [] => rfl
  | .text d :: rest => by
    unfold normalizeChildren
    by_cases hd : d = []
    · rw [if_pos hd]
      exact normalizeChildren_noAdjTexts rest
    · rw [if_neg hd]
      have ih := normalizeChildren_noAdjTexts rest
      cases hnc : normalizeChildren rest with
      | nil => rfl
      | cons c r2 =>
        rw [hnc] at ih
        cases c with
        | text d2 =>
          show noAdjTexts (.text (d ++ d2) :: r2) = true
          cases r2 with
          | nil => rfl
          | cons c2 r3 =>
            cases c2 with
            | text d3 =>
              rw [show noAdjTexts (.text d2 :: .text d3 :: r3) = false from rfl] at ih
              exact absurd ih (by simp)
            | elem nm2 a2 cs2 => exact ih
        | elem nm attrs cs =>
          show noAdjTexts (.text d :: .elem nm attrs cs :: r2) = true
          exact ih
  | .elem nm attrs cs :: rest => by
    show noAdjTexts (normalizeNode (.elem nm attrs cs) :: normalizeChildren rest) = true
    exact normalizeChildren_noAdjTexts rest

/-- On stripped inputs whose elements normalize well, `normalizeChildren`
produces a pointwise-normal list. -/
theorem normalizeChildren_nf : ∀ l : List XmlNode,
    textsStripped l = true → elemsNF l = true →
    nfList (normalizeChildren l) = true
  | [], _, _ => rfl
  | .text d :: rest, ht, he => by
    have hparts : (pyStrip d == d) = true ∧ textsStripped rest = true := by
      simpa [textsStripped, List.all_cons, Bool.and_eq_true] using ht
    have hd_str : pyStrip d = d := by simpa using hparts.1
    have he' : elemsNF rest = true := by
      simpa [elemsNF, List.all_cons, Bool.and_eq_true] using he
    unfold normalizeChildren
    by_cases hd : d = []
    · rw [if_pos hd]
      exact normalizeChildren_nf rest hparts.2 he'
    · rw [if_neg hd]
      have ih := normalizeChildren_nf rest hparts.2 he'
      have hdn : nfNode (.text d) = true := by
        simp only [nfNode, Bool.and_eq_true, beq_iff_eq]
        exact ⟨hd_str, not_isEmpty_of_ne hd⟩
      cases hnc : normalizeChildren rest with
      | nil =>
        show nfList [XmlNode.text d] = true
        simp only [nfList, Bool.and_eq_true]
        exact ⟨hdn, trivial⟩
      | cons c r2 =>
        rw [hnc] at ih
        cases c with
        | text d2 =>
          show nfList (XmlNode.text (d ++ d2) :: r2) = true
          have ihparts : nfNode (.text d2) = true ∧ nfList r2 = true := by
            simpa [nfList, Bool.and_eq_true] using ih
          have h3 := ihparts.1
          simp only [nfNode, Bool.and_eq_true, beq_iff_eq, Bool.not_eq_true'] at h3
          have h2n : d2 ≠ [] := by
            intro hcon
            rw [hcon] at h3
            exact absurd h3.2 (by simp)
          have hmerged : nfNode (.text (d ++ d2)) = true := by
            simp only [nfNode, Bool.and_eq_true, beq_iff_eq]
            refine ⟨pyStrip_append_stripped hd_str h3.1 hd h2n, ?_⟩
            exact not_isEmpty_of_ne (fun hcon => hd (List.append_eq_nil.mp hcon).1)
          simp only [nfList, Bool.and_eq_true]
          exact ⟨hmerged, ihparts.2⟩
        | elem nm attrs cs =>
          show nfList (XmlNode.text d :: XmlNode.elem nm attrs cs :: r2) = true
          simp only [nfList, Bool.and_eq_true]
          exact ⟨hdn, by simpa [nfList, Bool.and_eq_true] using ih⟩
  | .elem nm attrs cs :: rest, ht, he => by
    have hparts : nfNode (normalizeNode (.elem nm attrs cs)) = true ∧
        elemsNF rest = true := by
      simpa [elemsNF, List.all_cons, Bool.and_eq_true] using he
    have ht' : textsStripped rest = true := by
      simpa [textsStripped, List.all_cons] using ht
    show nfList (normalizeNode (.elem nm attrs cs) :: normalizeChildren rest) = true
    simp only [nfList, Bool.and_eq_true]
    exact ⟨hparts.1, normalizeChildren_nf rest ht' hparts.2⟩

/-- Element nodes, as opposed to text nodes. -/
def isElem : XmlNode → Bool
  | .elem _ _ _ => true
  | .text _ => false

mutual

/-- After the traversal and `normalize()`, every element is in normal
form. -/
theorem visit_nf : ∀ t : XmlNode, isElem t = true →
    nfNode (normalizeNode (visitNode t)) = true
  | .text _, h => (Bool.false_ne_true h).elim
  | .elem nm attrs cs, _ => by
    have hts := visitChildren_ts cs
    show nfNode (normalizeNode (.elem nm attrs
      (if sortable_node_names.contains nm then sortChildren (visitChildren cs)
        else visitChildren cs))) = true
    by_cases hs : sortable_node_names.contains nm = true
    · rw [if_pos hs]
      show nfNode (.elem nm attrs
        (normalizeChildren (sortChildren (visitChildren cs)))) = true
      have ht2 : textsStripped (sortChildren (visitChildren cs)) = true := by
        unfold textsStripped
        rw [perm_all_eq (sortChildren_perm (visitChildren cs))]
        exact hts.1
      have he2 : elemsNF (sortChildren (visitChildren cs)) = true := by
        unfold elemsNF
        rw [perm_all_eq (sortChildren_perm (visitChildren cs))]
        exact hts.2
      simp only [nfNode, Bool.and_eq_true]
      refine ⟨⟨normalizeChildren_noAdjTexts _, ?_⟩, normalizeChildren_nf _ ht2 he2⟩
      rw [Bool.or_eq_true]
      exact Or.inr (sortedByName_normalizeChildren (sortChildren_sorted _))
    · rw [if_neg hs]
      show nfNode (.elem nm attrs (normalizeChildren (visitChildren cs))) = true
      simp only [nfNode, Bool.and_eq_true]
      refine ⟨⟨normalizeChildren_noAdjTexts _, ?_⟩,
        normalizeChildren_nf _ hts.1 hts.2⟩
      rw [Bool.or_eq_true]
      left
      rw [Bool.not_eq_true']
      simpa using hs

/-- The traversal leaves every text child stripped and every element child
normalizable to normal form. -/
theorem visitChildren_ts : ∀ cs : List XmlNode,
    textsStripped (visitChildren cs) = true ∧ elemsNF (visitChildren cs) = true
  | [] => ⟨rfl, rfl⟩
  | .text d :: rest => by
    have ih := visitChildren_ts rest
    constructor
    · show textsStripped (.text (pyStrip d) :: visitChildren rest) = true
      unfold textsStripped
      rw [List.all_cons]
      simp only [Bool.and_eq_true]
      constructor
      · show (pyStrip (pyStrip d) == pyStrip d) = true
        rw [pyStrip_idem]
        exact beq_self_eq_true _
      · exact ih.1
    · show elemsNF (.text (pyStrip d) :: visitChildren rest) = true
      unfold elemsNF
      rw [List.all_cons]
      show (true && (visitChildren rest).all _) = true
      rw [Bool.true_and]
      exact ih.2
  | .elem nm attrs cs :: rest => by
    have ih := visitChildren_ts rest
    have hv : visitNode (.elem nm attrs cs) = .elem nm attrs
        (if sortable_node_names.contains nm then sortChildren (visitChildren cs)
          else visitChildren cs) := rfl
    constructor
    · show textsStripped (visitNode (.elem nm attrs cs) :: visitChildren rest) = true
      rw [hv]
      unfold textsStripped
      rw [List.all_cons]
      show (true && (visitChildren rest).all _) = true
      rw [Bool.true_and]
      exact ih.1
    · show elemsNF (visitNode (.elem nm attrs cs) :: visitChildren rest) = true
      rw [hv]
      unfold elemsNF
      rw [List.all_cons]
      simp only [Bool.and_eq_true]
      refine ⟨?_, ih.2⟩
      show nfNode (normalizeNode (.elem nm attrs
        (if sortable_node_names.contains nm then sortChildren (visitChildren cs)
          else visitChildren cs))) = true
      rw [← hv]
      exact visit_nf (.elem nm attrs cs) rfl

end

/-! #### Character-level facts about the serializer -/

/-- Spaces-only indent strings. -/
def allSpaces (l : List Char) : Bool := l.all (fun c => c = ' ')

/-- `escChar` of an unescaped character. -/
theorem escChar_plain {c : Char} (h1 : c ≠ '&') (h2 : c ≠ '<') (h3 : c ≠ '"')
    (h4 : c ≠ '>') : escChar c = [c] := by
  unfold escChar
  rw [if_neg h1, if_neg h2, if_neg h3, if_neg h4]

/-- `writeData` distributes over append. -/
theorem writeData_append : ∀ a b : List Char,
    writeData (a ++ b) = writeData a ++ writeData b
  | [], _ => rfl
  | c :: r, b => by
    show escChar c ++ writeData (r ++ b) = (escChar c ++ writeData r) ++ writeData b
    rw [writeData_append r b, List.append_assoc]

/-- Whitespace passes through `writeData` unchanged. -/
theorem writeData_ws {l : List Char} (h : ∀ c ∈ l, isXmlWs c = true) :
    writeData l = l := by
  induction l with
  | nil => rfl
  | cons c r ih =>
    show escChar c ++ writeData r = c :: r
    have hc := h c (List.mem_cons_self c r)
    have hesc : escChar c = [c] := by
      apply escChar_plain <;>
        (intro hcon; rw [hcon] at hc; exact absurd hc (by decide))
    rw [hesc, ih (fun x hx => h x (List.mem_cons_of_mem c hx))]
    rfl

/-- A lone newline is not escaped. -/
theorem writeData_nl : writeData ['\n'] = ['\n'] := rfl

/-- `skipWs` does not move past a non-whitespace head. -/
theorem skipWs_not {c : Char} (r : List Char) (h : isXmlWs c = false) :
    skipWs (c :: r) = c :: r := by
  simp [skipWs, List.dropWhile_cons, h]

/-- `skipWs` swallows a whitespace prefix. -/
theorem skipWs_app {w : List Char} (l : List Char)
    (h : ∀ c ∈ w, isXmlWs c = true) : skipWs (w ++ l) = skipWs l := by
  induction w with
  | nil => rfl
  | cons c r ih =>
    show skipWs (c :: (r ++ l)) = skipWs l
    have hc := h c (List.mem_cons_self c r)
    simp only [skipWs, List.dropWhile_cons, hc, if_true]
    exact ih (fun x hx => h x (List.mem_cons_of_mem c hx))

/-- `spanP` splits a satisfying prefix at the first failing character. -/
theorem spanP_append {p : Char → Bool} : ∀ {xs : List Char} (c : Char)
    (r : List Char), xs.all p = true → p c = false →
    spanP p (xs ++ c :: r) = (xs, c :: r)
  | [], c, r, _, hc => by
    show spanP p (c :: r) = ([], c :: r)
    unfold spanP
    rw [hc]
    rfl
  | x :: xs, c, r, hall, hc => by
    have hparts : p x = true ∧ xs.all p = true := by
      simpa [List.all_cons, Bool.and_eq_true] using hall
    show spanP p (x :: (xs ++ c :: r)) = (x :: xs, c :: r)
    unfold spanP
    rw [hparts.1, spanP_append c r hparts.2 hc]
    simp

/-- Parsing a printed name stops exactly at the terminator. -/
theorem parseName_pp {nm : List Char} (c : Char) (r : List Char)
    (hw : wfName nm = true) (hc : isNameChar c = false) :
    parseName (nm ++ c :: r) = some (nm, c :: r) := by
  cases nm with
  | nil => exact absurd hw (by simp [wfName])
  | cons c0 rest =>
    have hparts : isNameStart c0 = true ∧ rest.all isNameChar = true := by
      simpa [wfName, Bool.and_eq_true] using hw
    show parseName (c0 :: (rest ++ c :: r)) = _
    simp only [parseName]
    rw [if_pos hparts.1, spanP_append c r hparts.2 hc]

/-! #### Fuel monotonicity for the character-data parsers -/

/-- More fuel never hurts `parseText`. -/
theorem parseText_mono : ∀ (f : Nat) {l : List Char} {x : List Char × List Char},
    parseText f l = some x → parseText (f + 1) l = some x
  | f, [], _, h => by
    cases f with
    | zero => exact h
    | succ n => exact h
  | 0, c :: r, x, h => by
    unfold parseText at h ⊢
    by_cases hc : c = '<'
    · rw [if_pos hc] at h ⊢
      exact h
    · rw [if_neg hc] at h
      exact absurd h (by simp)
  | f + 1, c :: r, x, h => by
    unfold parseText at h ⊢
    by_cases hc : c = '<'
    · rw [if_pos hc] at h ⊢
      exact h
    · rw [if_neg hc] at h ⊢
      by_cases ha : c = '&'
      · rw [if_pos ha] at h ⊢
        cases hpr : parseReference r with
        | none => rw [hpr] at h; exact absurd h (by simp)
        | some pr =>
          obtain ⟨ch, r2⟩ := pr
          rw [hpr] at h
          dsimp only at h ⊢
          cases hpt : parseText f r2 with
          | none => rw [hpt] at h; exact absurd h (by simp)
          | some p =>
            rw [hpt] at h
            rw [parseText_mono f hpt]
            exact h
      · rw [if_neg ha] at h ⊢
        by_cases hv : validChar c = true
        · rw [if_pos hv] at h ⊢
          cases hpt : parseText f r with
          | none => rw [hpt] at h; exact absurd h (by simp)
          | some p =>
            rw [hpt] at h
            rw [parseText_mono f hpt]
            exact h
        · rw [if_neg hv] at h
          exact absurd h (by simp)

/-- Fuel monotonicity for `parseText`, `≤` form. -/
theorem parseText_mono_le {f g : Nat} {l : List Char}
    {x : List Char × List Char} (hfg : f ≤ g)
    (h : parseText f l = some x) : parseText g l = some x := by
  induction hfg with
  | refl => exact h
  | step _ ih => exact parseText_mono _ ih

/-- More fuel never hurts `parseAttrValue`. -/
theorem parseAttrValue_mono : ∀ (f : Nat) {q : Char} {l : List Char}
    {x : List Char × List Char},
    parseAttrValue q f l = some x → parseAttrValue q (f + 1) l = some x
  | f, _, [], _, h => by
    cases f with
    | zero => exact absurd h (by simp [parseAttrValue])
    | succ n => exact absurd h (by simp [parseAttrValue])
  | 0, q, c :: r, x, h => by
    unfold parseAttrValue at h
    exact absurd h (by simp)
  | f + 1, q, c :: r, x, h => by
    unfold parseAttrValue at h ⊢
    by_cases hc : c = q
    · rw [if_pos hc] at h ⊢
      exact h
    · rw [if_neg hc] at h ⊢
      by_cases hl : c = '<'
      · rw [if_pos hl] at h
        exact absurd h (by simp)
      · rw [if_neg hl] at h ⊢
        by_cases ha : c = '&'
        · rw [if_pos ha] at h ⊢
          cases hpr : parseReference r with
          | none => rw [hpr] at h; exact absurd h (by simp)
          | some pr =>
            obtain ⟨ch, r2⟩ := pr
            rw [hpr] at h
            dsimp only at h ⊢
            cases hpt : parseAttrValue q f r2 with
            | none => rw [hpt] at h; exact absurd h (by simp)
            | some p =>
              rw [hpt] at h
              rw [parseAttrValue_mono f hpt]
              exact h
        · rw [if_neg ha] at h ⊢
          by_cases hv : validChar c = true
          · rw [if_pos hv] at h ⊢
            dsimp only at h ⊢
            cases hpt : parseAttrValue q f r with
            | none => rw [hpt] at h; exact absurd h (by simp)
            | some p =>
              rw [hpt] at h
              rw [parseAttrValue_mono f hpt]
              exact h
          · rw [if_neg hv] at h
            exact absurd h (by simp)

/-- Fuel monotonicity for `parseAttrValue`, `≤` form. -/
theorem parseAttrValue_mono_le {f g : Nat} {q : Char} {l : List Char}
    {x : List Char × List Char} (hfg : f ≤ g)
    (h : parseAttrValue q f l = some x) : parseAttrValue q g l = some x := by
  induction hfg with
  | refl => exact h
  | step _ ih => exact parseAttrValue_mono _ ih

/-! #### Escaped data parses back to itself -/

/-- `parseText` undoes `writeData` and continues. -/
theorem parseText_writeData : ∀ (d : List Char) {f : Nat} {rest : List Char}
    {p : List Char × List Char}, d.all validChar = true →
    parseText f rest = some p →
    parseText (f + (writeData d).length) (writeData d ++ rest) =
      some (d ++ p.1, p.2)
  | [], f, rest, p, _, h => by
    show parseText (f + (List.length [])) ([] ++ rest) = some ([] ++ p.1, p.2)
    simpa using h
  | c :: d2, f, rest, p, hv, h => by
    have hparts : validChar c = true ∧ d2.all validChar = true := by
      simpa [List.all_cons, Bool.and_eq_true] using hv
    have ih := parseText_writeData d2 hparts.2 h
    show parseText (f + (escChar c ++ writeData d2).length)
      ((escChar c ++ writeData d2) ++ rest) = some ((c :: d2) ++ p.1, p.2)
    by_cases hamp : c = '&'
    · subst hamp
      rw [show escChar '&' = ['&', 'a', 'm', 'p', ';'] from rfl]
      rw [show (List.length (['&', 'a', 'm', 'p', ';'] ++ writeData d2)) =
        (f + (writeData d2).length + 4) + 1 - f from by
          simp [List.length_append]; omega]
      rw [show f + ((f + (writeData d2).length + 4) + 1 - f) =
        (f + (writeData d2).length + 4) + 1 from by omega]
      show parseText ((f + (writeData d2).length + 4) + 1)
        ('&' :: 'a' :: 'm' :: 'p' :: ';' :: (writeData d2 ++ rest)) = _
      unfold parseText
      rw [if_neg (by decide : ¬('&' = '<')), if_pos rfl]
      rw [show parseReference ('a' :: 'm' :: 'p' :: ';' :: (writeData d2 ++ rest)) =
        some ('&', writeData d2 ++ rest) from rfl]
      dsimp only
      rw [parseText_mono_le (by omega) ih]
      rfl
    · by_cases hlt : c = '<'
      · subst hlt
        rw [show escChar '<' = ['&', 'l', 't', ';'] from rfl]
        rw [show (List.length (['&', 'l', 't', ';'] ++ writeData d2)) =
          (f + (writeData d2).length + 3) + 1 - f from by
            simp [List.length_append]; omega]
        rw [show f + ((f + (writeData d2).length + 3) + 1 - f) =
          (f + (writeData d2).length + 3) + 1 from by omega]
        show parseText ((f + (writeData d2).length + 3) + 1)
          ('&' :: 'l' :: 't' :: ';' :: (writeData d2 ++ rest)) = _
        unfold parseText
        rw [if_neg (by decide : ¬('&' = '<')), if_pos rfl]
        rw [show parseReference ('l' :: 't' :: ';' :: (writeData d2 ++ rest)) =
          some ('<', writeData d2 ++ rest) from rfl]
        dsimp only
        rw [parseText_mono_le (by omega) ih]
        rfl
      · by_cases hqu : c = '"'
        · subst hqu
          rw [show escChar '"' = ['&', 'q', 'u', 'o', 't', ';'] from rfl]
          rw [show (List.length (['&', 'q', 'u', 'o', 't', ';'] ++ writeData d2)) =
            (f + (writeData d2).length + 5) + 1 - f from by
              simp [List.length_append]; omega]
          rw [show f + ((f + (writeData d2).length + 5) + 1 - f) =
            (f + (writeData d2).length + 5) + 1 from by omega]
          show parseText ((f + (writeData d2).length + 5) + 1)
            ('&' :: 'q' :: 'u' :: 'o' :: 't' :: ';' :: (writeData d2 ++ rest)) = _
          unfold parseText
          rw [if_neg (by decide : ¬('&' = '<')), if_pos rfl]
          rw [show parseReference ('q' :: 'u' :: 'o' :: 't' :: ';' ::
            (writeData d2 ++ rest)) = some ('"', writeData d2 ++ rest) from rfl]
          dsimp only
          rw [parseText_mono_le (by omega) ih]
          rfl
        · by_cases hgt : c = '>'
          · subst hgt
            rw [show escChar '>' = ['&', 'g', 't', ';'] from rfl]
            rw [show (List.length (['&', 'g', 't', ';'] ++ writeData d2)) =
              (f + (writeData d2).length + 3) + 1 - f from by
                simp [List.length_append]; omega]
            rw [show f + ((f + (writeData d2).length + 3) + 1 - f) =
              (f + (writeData d2).length + 3) + 1 from by omega]
            show parseText ((f + (writeData d2).length + 3) + 1)
              ('&' :: 'g' :: 't' :: ';' :: (writeData d2 ++ rest)) = _
            unfold parseText
            rw [if_neg (by decide : ¬('&' = '<')), if_pos rfl]
            rw [show parseReference ('g' :: 't' :: ';' :: (writeData d2 ++ rest)) =
              some ('>', writeData d2 ++ rest) from rfl]
            dsimp only
            rw [parseText_mono_le (by omega) ih]
            rfl
          · rw [escChar_plain hamp hlt hqu hgt]
            rw [show (List.length ([c] ++ writeData d2)) =
              ((writeData d2).length) + 1 from by simp]
            rw [show f + ((writeData d2).length + 1) =
              (f + (writeData d2).length) + 1 from by omega]
            show parseText ((f + (writeData d2).length) + 1)
              (c :: (writeData d2 ++ rest)) = _
            unfold parseText
            rw [if_neg hlt, if_neg hamp, if_pos hparts.1]
            rw [ih]
            rfl

/-- `parseText` stops at a tag start, with any fuel. -/
theorem parseText_stop_lt : ∀ (f : Nat) (rest : List Char),
    parseText f ('<' :: rest) = some ([], '<' :: rest)
  | 0, rest => by
    unfold parseText
    rw [if_pos rfl]
  | f + 1, rest => by
    unfold parseText
    rw [if_pos rfl]

/-- A printed text run parses back exactly, with the fuel `parseNodes`
supplies. -/
theorem parseText_pp (d tail : List Char) (hv : d.all validChar = true) :
    parseText ((writeData d ++ '<' :: tail).length + 1) (writeData d ++ '<' :: tail) =
      some (d, '<' :: tail) := by
  have base := parseText_stop_lt (tail.length + 2) tail
  have h := parseText_writeData d hv base
  rw [show (writeData d ++ '<' :: tail).length + 1 =
    tail.length + 2 + (writeData d).length from by simp [List.length_append]; omega]
  simpa using h

/-- `parseAttrValue` undoes `writeData` on poison-free values and
continues. -/
theorem parseAttrValue_writeData : ∀ (v : List Char) {f : Nat}
    {rest : List Char} {p : List Char × List Char}, v.all validChar = true →
    v.all (fun c => !(c = '\t' || c = '\n' || c = '\r')) = true →
    parseAttrValue '"' f rest = some p →
    parseAttrValue '"' (f + (writeData v).length) (writeData v ++ rest) =
      some (v ++ p.1, p.2)
  | [], f, rest, p, _, _, h => by
    show parseAttrValue '"' (f + (List.length [])) ([] ++ rest) =
      some ([] ++ p.1, p.2)
    simpa using h
  | c :: v2, f, rest, p, hv, hpf, h => by
    have hparts : validChar c = true ∧ v2.all validChar = true := by
      simpa [List.all_cons, Bool.and_eq_true] using hv
    have hpfparts : (!(c = '\t' || c = '\n' || c = '\r')) = true ∧
        v2.all (fun c => !(c = '\t' || c = '\n' || c = '\r')) = true := by
      simpa [List.all_cons, Bool.and_eq_true] using hpf
    have ih := parseAttrValue_writeData v2 hparts.2 hpfparts.2 h
    show parseAttrValue '"' (f + (escChar c ++ writeData v2).length)
      ((escChar c ++ writeData v2) ++ rest) = some ((c :: v2) ++ p.1, p.2)
    by_cases hamp : c = '&'
    · subst hamp
      rw [show escChar '&' = ['&', 'a', 'm', 'p', ';'] from rfl]
      rw [show (List.length (['&', 'a', 'm', 'p', ';'] ++ writeData v2)) =
        (f + (writeData v2).length + 4) + 1 - f from by
          simp [List.length_append]; omega]
      rw [show f + ((f + (writeData v2).length + 4) + 1 - f) =
        (f + (writeData v2).length + 4) + 1 from by omega]
      show parseAttrValue '"' ((f + (writeData v2).length + 4) + 1)
        ('&' :: 'a' :: 'm' :: 'p' :: ';' :: (writeData v2 ++ rest)) = _
      unfold parseAttrValue
      rw [if_neg (by decide : ¬('&' = '"')), if_neg (by decide : ¬('&' = '<')),
        if_pos rfl]
      rw [show parseReference ('a' :: 'm' :: 'p' :: ';' :: (writeData v2 ++ rest)) =
        some ('&', writeData v2 ++ rest) from rfl]
      dsimp only
      rw [parseAttrValue_mono_le (by omega) ih]
      rfl
    · by_cases hlt : c = '<'
      · subst hlt
        rw [show escChar '<' = ['&', 'l', 't', ';'] from rfl]
        rw [show (List.length (['&', 'l', 't', ';'] ++ writeData v2)) =
          (f + (writeData v2).length + 3) + 1 - f from by
            simp [List.length_append]; omega]
        rw [show f + ((f + (writeData v2).length + 3) + 1 - f) =
          (f + (writeData v2).length + 3) + 1 from by omega]
        show parseAttrValue '"' ((f + (writeData v2).length + 3) + 1)
          ('&' :: 'l' :: 't' :: ';' :: (writeData v2 ++ rest)) = _
        unfold parseAttrValue
        rw [if_neg (by decide : ¬('&' = '"')), if_neg (by decide : ¬('&' = '<')),
          if_pos rfl]
        rw [show parseReference ('l' :: 't' :: ';' :: (writeData v2 ++ rest)) =
          some ('<', writeData v2 ++ rest) from rfl]
        dsimp only
        rw [parseAttrValue_mono_le (by omega) ih]
        rfl
      · by_cases hqu : c = '"'
        · subst hqu
          rw [show escChar '"' = ['&', 'q', 'u', 'o', 't', ';'] from rfl]
          rw [show (List.length (['&', 'q', 'u', 'o', 't', ';'] ++ writeData v2)) =
            (f + (writeData v2).length + 5) + 1 - f from by
              simp [List.length_append]; omega]
          rw [show f + ((f + (writeData v2).length + 5) + 1 - f) =
            (f + (writeData v2).length + 5) + 1 from by omega]
          show parseAttrValue '"' ((f + (writeData v2).length + 5) + 1)
            ('&' :: 'q' :: 'u' :: 'o' :: 't' :: ';' :: (writeData v2 ++ rest)) = _
          unfold parseAttrValue
          rw [if_neg (by decide : ¬('&' = '"')), if_neg (by decide : ¬('&' = '<')),
            if_pos rfl]
          rw [show parseReference ('q' :: 'u' :: 'o' :: 't' :: ';' ::
            (writeData v2 ++ rest)) = some ('"', writeData v2 ++ rest) from rfl]
          dsimp only
          rw [parseAttrValue_mono_le (by omega) ih]
          rfl
        · by_cases hgt : c = '>'
          · subst hgt
            rw [show escChar '>' = ['&', 'g', 't', ';'] from rfl]
            rw [show (List.length (['&', 'g', 't', ';'] ++ writeData v2)) =
              (f + (writeData v2).length + 3) + 1 - f from by
                simp [List.length_append]; omega]
            rw [show f + ((f + (writeData v2).length + 3) + 1 - f) =
              (f + (writeData v2).length + 3) + 1 from by omega]
            show parseAttrValue '"' ((f + (writeData v2).length + 3) + 1)
              ('&' :: 'g' :: 't' :: ';' :: (writeData v2 ++ rest)) = _
            unfold parseAttrValue
            rw [if_neg (by decide : ¬('&' = '"')), if_neg (by decide : ¬('&' = '<')),
              if_pos rfl]
            rw [show parseReference ('g' :: 't' :: ';' :: (writeData v2 ++ rest)) =
              some ('>', writeData v2 ++ rest) from rfl]
            dsimp only
            rw [parseAttrValue_mono_le (by omega) ih]
            rfl
          · rw [escChar_plain hamp hlt hqu hgt]
            rw [show (List.length ([c] ++ writeData v2)) =
              ((writeData v2).length) + 1 from by simp]
            rw [show f + ((writeData v2).length + 1) =
              (f + (writeData v2).length) + 1 from by omega]
            show parseAttrValue '"' ((f + (writeData v2).length) + 1)
              (c :: (writeData v2 ++ rest)) = _
            unfold parseAttrValue
            rw [if_neg hqu, if_neg hlt, if_neg hamp, if_pos hparts.1]
            dsimp only
            have hc2 : (c = '\t' || c = '\n') = false := by
              have h1 := hpfparts.1
              simp only [Bool.not_eq_true', Bool.or_eq_false_iff,
                decide_eq_false_iff_not] at h1 ⊢
              exact h1.1
            have hc2i : (if c = '\t' || c = '\n' then ' ' else c) = c := by
              rw [hc2]
              rfl
            simp only [hc2i]
            rw [ih]
            rfl

/-- A printed attribute value parses back exactly, with the fuel
`parseAttrs` supplies. -/
theorem parseAttrValue_pp (v rest : List Char) (hv : v.all validChar = true)
    (hpf : v.all (fun c => !(c = '\t' || c = '\n' || c = '\r')) = true) :
    parseAttrValue '"' ((writeData v ++ '"' :: rest).length + 1)
      (writeData v ++ '"' :: rest) = some (v, rest) := by
  have base : parseAttrValue '"' (rest.length + 2) ('"' :: rest) =
      some ([], rest) := by
    unfold parseAttrValue
    rw [if_pos rfl]
  have h := parseAttrValue_writeData v hv hpf base
  rw [show (writeData v ++ '"' :: rest).length + 1 =
    rest.length + 2 + (writeData v).length from by simp [List.length_append]; omega]
  simpa using h

/-! #### Printed attribute lists parse back -/

/-- Names already accumulated never collide with a later name of a
duplicate-free list. -/
theorem attrNamesDistinct_cross : ∀ (acc : Attrs) {nm v : List Char} {as : Attrs},
    attrNamesDistinct (acc ++ (nm, v) :: as) = true →
    acc.any (fun a => a.1 = nm) = false
  | [], _, _, _, _ => rfl
  | (n0, v0) :: acc2, nm, v, as, h => by
    have hparts : (!((acc2 ++ (nm, v) :: as).any (fun a => a.1 = n0))) = true ∧
        attrNamesDistinct (acc2 ++ (nm, v) :: as) = true := by
      simpa [attrNamesDistinct, Bool.and_eq_true] using h
    show ((n0, v0) :: acc2).any (fun a => a.1 = nm) = false
    rw [List.any_cons]
    simp only [Bool.or_eq_false_iff]
    constructor
    · have h1 := hparts.1
      simp only [Bool.not_eq_true', List.any_append, List.any_cons,
        Bool.or_eq_false_iff, decide_eq_false_iff_not] at h1
      simp only [decide_eq_false_iff_not]
      exact fun hcon => h1.2.1 hcon.symm
    · exact attrNamesDistinct_cross acc2 hparts.2

/-- Name-start characters are not XML whitespace. -/
theorem isNameStart_not_ws {c : Char} (h : isNameStart c = true) :
    isXmlWs c = false := by
  cases hw : isXmlWs c
  · rfl
  · exfalso
    have hc : c = ' ' ∨ c = '\t' ∨ c = '\n' ∨ c = '\r' := by
      revert hw
      unfold isXmlWs
      simp only [Bool.or_eq_true, decide_eq_true_eq]
      tauto
    rcases hc with rfl | rfl | rfl | rfl <;> exact absurd h (by decide)

/-- A printed attribute list parses back on top of any accumulator, as long
as the whole final list is duplicate-free. -/
theorem parseAttrs_pp : ∀ (attrs acc : Attrs) {f : Nat} (c : Char) (r : List Char),
    wfAttrs (acc ++ attrs) = true → pfAttrs attrs = true →
    attrs.length + 1 ≤ f → isXmlWs c = false → isNameStart c = false →
    parseAttrs f (ppAttrs attrs ++ c :: r) acc = some (acc ++ attrs, c :: r)
  | [], acc, f, c, r, _, _, hf, hws, hns => by
    obtain ⟨n, rfl⟩ : ∃ n, f = n + 1 := ⟨f - 1, by omega⟩
    show parseAttrs (n + 1) (c :: r) acc = some (acc ++ [], c :: r)
    unfold parseAttrs
    dsimp only
    rw [skipWs_not r hws]
    dsimp only
    rw [if_neg (by simp [hns])]
    rw [List.append_nil]
  | (nm, v) :: as, acc, f, c, r, hwf, hpf, hf, hws, hns => by
    obtain ⟨n, rfl⟩ : ∃ n, f = n + 1 := ⟨f - 1, by omega⟩
    have hwfparts : (acc ++ (nm, v) :: as).all
        (fun a => wfName a.1 && a.2.all validChar) = true ∧
        attrNamesDistinct (acc ++ (nm, v) :: as) = true := by
      simpa [wfAttrs, Bool.and_eq_true] using hwf
    have hnmv : wfName nm = true ∧ v.all validChar = true := by
      have := List.all_eq_true.mp hwfparts.1 (nm, v)
        (List.mem_append.mpr (Or.inr (List.mem_cons_self _ _)))
      simpa [Bool.and_eq_true] using this
    have hpfparts : v.all (fun ch => !(ch = '\t' || ch = '\n' || ch = '\r')) = true ∧
        pfAttrs as = true := by
      simpa [pfAttrs, List.all_cons, Bool.and_eq_true] using hpf
    obtain ⟨c0, nmr, hnm⟩ : ∃ c0 nmr, nm = c0 :: nmr := by
      cases nm with
      | nil => exact absurd hnmv.1 (by simp [wfName])
      | cons a b => exact ⟨a, b, rfl⟩
    have hstart : isNameStart c0 = true := by
      have h2 := hnmv.1
      rw [hnm] at h2
      have h3 : isNameStart c0 = true ∧ nmr.all isNameChar = true := by
        simpa [wfName, Bool.and_eq_true] using h2
      exact h3.1
    show parseAttrs (n + 1)
      ((' ' :: (nm ++ '=' :: '"' :: (writeData v ++ '"' :: ppAttrs as))) ++ c :: r)
      acc = some (acc ++ (nm, v) :: as, c :: r)
    unfold parseAttrs
    dsimp only
    rw [show (' ' :: (nm ++ '=' :: '"' :: (writeData v ++ '"' :: ppAttrs as))) ++ c :: r
      = [' '] ++ (nm ++ '=' :: '"' :: (writeData v ++ '"' :: (ppAttrs as ++ c :: r)))
      from by simp]
    rw [skipWs_app _ (by intro x hx; simp at hx; rw [hx]; rfl)]
    rw [hnm, List.cons_append]
    rw [skipWs_not _ (isNameStart_not_ws hstart)]
    dsimp only
    rw [if_pos hstart]
    rw [← List.cons_append, ← hnm]
    rw [parseName_pp _ _ hnmv.1 (by decide)]
    show (match parseAttrValue '"'
        ((writeData v ++ '"' :: (ppAttrs as ++ c :: r)).length + 1)
        (writeData v ++ '"' :: (ppAttrs as ++ c :: r)) with
      | none => none
      | some (v2, r5) =>
        if acc.any (fun a => a.1 = nm) then none
        else parseAttrs n r5 (acc ++ [(nm, v2)])) =
      some (acc ++ (nm, v) :: as, c :: r)
    rw [parseAttrValue_pp v (ppAttrs as ++ c :: r) hnmv.2 hpfparts.1]
    dsimp only
    rw [if_neg (by
      rw [attrNamesDistinct_cross acc hwfparts.2]
      simp)]
    have ih := parseAttrs_pp as (acc ++ [(nm, v)]) (f := n) c r
      (by rw [← List.append_cons]; exact hwf) hpfparts.2 (by
        simp only [List.length_cons] at hf
        omega) hws hns
    rw [ih]
    rw [← List.append_cons]

/-! #### The decorated tree a pretty-printed document parses back to -/

mutual

/-- The reparse of a printed element: the indentation and newlines the
pretty-printer adds come back as text decoration around the children. -/
def decNode (ind : List Char) : XmlNode → XmlNode
  | .text d => .text d
  | .elem nm attrs cs =>
    .elem nm attrs
      (match cs with
        | [] => []
        | [.text d] => [.text d]
        | _ => decList (ind ++ sp2) ind ['\n'] cs)

/-- Reparse of a printed child list; `pend` is the character data of the
current text run, in parsed form (it always ends in the newline written
after the previous line). -/
def decList (ind2 ind : List Char) (pend : List Char) : List XmlNode → List XmlNode
  | [] => [.text (pend ++ ind)]
  | .text d :: r => decList ind2 ind ((pend ++ ind2 ++ d) ++ ['\n']) r
  | e :: r => .text (pend ++ ind2) :: decNode ind2 e :: decList ind2 ind ['\n'] r

end

mutual

/-- Sufficient fuel to parse the printed form of an element. -/
def needE : XmlNode → Nat
  | .text _ => 1
  | .elem _ attrs cs => attrs.length + 2 + needL cs

/-- Sufficient fuel to parse the printed form of a child list. -/
def needL : List XmlNode → Nat
  | [] => 1
  | .text _ :: r => needL r
  | e :: r => 1 + needE e + needL r

end

/-- Space-only strings are made of valid whitespace. -/
theorem allSpaces_valid {l : List Char} (h : allSpaces l = true) :
    l.all validChar = true := by
  rw [List.all_eq_true]
  intro c hc
  have := List.all_eq_true.mp h c hc
  simp only [decide_eq_true_eq] at this
  rw [this]
  rfl

/-- Space-only strings are XML whitespace. -/
theorem allSpaces_ws {l : List Char} (h : allSpaces l = true) :
    ∀ c ∈ l, isXmlWs c = true := by
  intro c hc
  have := List.all_eq_true.mp h c hc
  simp only [decide_eq_true_eq] at this
  rw [this]
  rfl

/-- `parseNodes` on a text run that ends at a closing tag. -/
theorem parseNodes_close (f : Nat) (txt tail : List Char)
    (hv : txt.all validChar = true) (hne : txt ≠ []) :
    parseNodes (f + 1) (writeData txt ++ '<' :: '/' :: tail) =
      some ([.text txt], tail) := by
  unfold parseNodes
  rw [parseText_pp txt ('/' :: tail) hv]
  show some ((if txt = [] then [] else [XmlNode.text txt]), tail) =
    some ([XmlNode.text txt], tail)
  rw [if_neg hne]

/-- `parseNodes` on a text run followed by a child element and further
content. -/
theorem parseNodes_step (f : Nat) (txt : List Char) {c0 : Char}
    {X tail1 tail2 : List Char} {child : XmlNode} {sibs : List XmlNode}
    (hv : txt.all validChar = true) (hne : txt ≠ [])
    (hc0 : isNameStart c0 = true)
    (he : parseElemAfterLt f (c0 :: X) = some (child, tail1))
    (hs : parseNodes f tail1 = some (sibs, tail2)) :
    parseNodes (f + 1) (writeData txt ++ '<' :: c0 :: X) =
      some (.text txt :: child :: sibs, tail2) := by
  unfold parseNodes
  rw [parseText_pp txt (c0 :: X) hv]
  dsimp only
  split
  · rename_i heq
    simp only [List.cons.injEq] at heq
    rw [heq.2.1] at hc0
    exact absurd hc0 (by decide)
  · rename_i heq
    simp only [List.cons.injEq] at heq
    rw [heq.2.1] at hc0
    exact absurd hc0 (by decide)
  · rename_i heq
    simp only [List.cons.injEq] at heq
    rw [heq.2.1] at hc0
    exact absurd hc0 (by decide)
  · rename_i heq
    simp only [List.cons.injEq] at heq
    rw [← heq.2] at *
    rw [he]
    dsimp only
    rw [hs]
    dsimp only
    rw [if_neg hne]
    rfl
  · rename_i hg1 hg2 hg3 hg4
    exact (hg4 (c0 :: X) rfl).elim

/-- Components of element well-formedness. -/
theorem wfNode_elem {nm : List Char} {attrs : Attrs} {cs : List XmlNode}
    (h : wfNode (.elem nm attrs cs) = true) :
    wfName nm = true ∧ wfAttrs attrs = true ∧ wfList cs = true := by
  simpa [wfNode, Bool.and_eq_true, and_assoc] using h

/-- Components of element poison-freedom. -/
theorem poisonFree_elem {nm : List Char} {attrs : Attrs} {cs : List XmlNode}
    (h : poisonFree (.elem nm attrs cs) = true) :
    pfAttrs attrs = true ∧ poisonFreeList cs = true := by
  simpa [poisonFree, Bool.and_eq_true] using h

/-- Components of element normal form. -/
theorem nfNode_elem {nm : List Char} {attrs : Attrs} {cs : List XmlNode}
    (h : nfNode (.elem nm attrs cs) = true) :
    noAdjTexts cs = true ∧
    (!(sortable_node_names.contains nm) || sortedByName cs) = true ∧
    nfList cs = true := by
  simpa [nfNode, Bool.and_eq_true, and_assoc] using h

/-- Components of text normal form. -/
theorem nfNode_text {d : List Char} (h : nfNode (.text d) = true) :
    pyStrip d = d ∧ d ≠ [] := by
  have h2 : (pyStrip d == d) = true ∧ (!d.isEmpty) = true := by
    simpa [nfNode, Bool.and_eq_true] using h
  refine ⟨by simpa using h2.1, ?_⟩
  intro hcon
  rw [hcon] at h2
  exact absurd h2.2 (by simp)

/-- Splitting a well-formed child list. -/
theorem wfList_cons {c : XmlNode} {r : List XmlNode}
    (h : wfList (c :: r) = true) : wfNode c = true ∧ wfList r = true := by
  simpa [wfList, Bool.and_eq_true] using h

/-- Splitting a poison-free child list. -/
theorem poisonFreeList_cons {c : XmlNode} {r : List XmlNode}
    (h : poisonFreeList (c :: r) = true) :
    poisonFree c = true ∧ poisonFreeList r = true := by
  simpa [poisonFreeList, Bool.and_eq_true] using h

/-- Splitting a normal-form child list. -/
theorem nfList_cons {c : XmlNode} {r : List XmlNode}
    (h : nfList (c :: r) = true) : nfNode c = true ∧ nfList r = true := by
  simpa [nfList, Bool.and_eq_true] using h

/-- A printed element always starts with its name. -/
theorem ppElemCore_shape (ind nm : List Char) (attrs : Attrs)
    (cs : List XmlNode) : ∃ Y, ppElemCore ind (.elem nm attrs cs) = nm ++ Y := by
  cases cs with
  | nil =>
    refine ⟨ppAttrs attrs ++ ['/', '>'], ?_⟩
    unfold ppElemCore
    dsimp only
    rw [List.append_assoc]
  | cons c1 cr =>
    cases c1 with
    | text d =>
      cases cr with
      | nil =>
        refine ⟨ppAttrs attrs ++ ('>' :: (writeData d ++
          ('<' :: '/' :: nm ++ ['>']))), ?_⟩
        unfold ppElemCore
        dsimp only
        rw [List.append_assoc]
      | cons c2 cr2 =>
        refine ⟨ppAttrs attrs ++ ('>' :: '\n' ::
          (ppList (ind ++ sp2) (.text d :: c2 :: cr2) ++
            (ind ++ '<' :: '/' :: nm ++ ['>']))), ?_⟩
        unfold ppElemCore
        dsimp only
        rw [List.append_assoc]
    | elem a b c =>
      refine ⟨ppAttrs attrs ++ ('>' :: '\n' ::
        (ppList (ind ++ sp2) (.elem a b c :: cr) ++
          (ind ++ '<' :: '/' :: nm ++ ['>']))), ?_⟩
      unfold ppElemCore
      dsimp only
      rw [List.append_assoc]

/-- `parseName` on a name followed by a printed attribute list. -/
theorem parseName_ppA (nm : List Char) (attrs : Attrs) (c : Char)
    (r : List Char) (hw : wfName nm = true) (hc : isNameChar c = false) :
    parseName (nm ++ (ppAttrs attrs ++ c :: r)) =
      some (nm, ppAttrs attrs ++ c :: r) := by
  cases attrs with
  | nil => exact parseName_pp c r hw hc
  | cons a as =>
    obtain ⟨an, av⟩ := a
    have h2 := parseName_pp ' '
      ((an ++ '=' :: '"' :: (writeData av ++ '"' :: ppAttrs as)) ++ c :: r) hw
      (by decide)
    rw [show ppAttrs ((an, av) :: as) ++ c :: r =
      ' ' :: ((an ++ '=' :: '"' :: (writeData av ++ '"' :: ppAttrs as)) ++ c :: r)
      from by simp [ppAttrs]]
    exact h2

mutual

/-- A printed child list parses back to its decorated form, given any text
run already pending and any sufficient fuel. -/
theorem ppList_parse : ∀ (cs : List XmlNode) (ind2 ind pend : List Char)
    {f : Nat} (rest : List Char),
    wfList cs = true → poisonFreeList cs = true → nfList cs = true →
    allSpaces ind2 = true → allSpaces ind = true →
    pend.all validChar = true → pend ≠ [] → needL cs ≤ f →
    parseNodes f (writeData pend ++ (ppList ind2 cs ++ (ind ++ '<' :: '/' :: rest)))
      = some (decList ind2 ind pend cs, rest)
  | [], ind2, ind, pend, f, rest, _, _, _, _, hi, hpv, hpne, hf => by
    obtain ⟨n, rfl⟩ : ∃ n, f = n + 1 := ⟨f - 1, by
      unfold needL at hf
      omega⟩
    rw [show writeData pend ++ (ppList ind2 [] ++ (ind ++ '<' :: '/' :: rest)) =
      writeData (pend ++ ind) ++ '<' :: '/' :: rest from by
        rw [writeData_append, writeData_ws (allSpaces_ws hi)]
        simp [ppList]]
    rw [parseNodes_close n (pend ++ ind) rest (by
        rw [List.all_append]
        simp only [Bool.and_eq_true]
        exact ⟨hpv, allSpaces_valid hi⟩)
      (by simp [hpne])]
    simp only [decList]
  | .text d :: r, ind2, ind, pend, f, rest, hw, hpf, hnf, hi2, hi, hpv, hpne, hf => by
    obtain ⟨hwd, hwr⟩ := wfList_cons hw
    obtain ⟨hpfd, hpfr⟩ := poisonFreeList_cons hpf
    obtain ⟨hnfd, hnfr⟩ := nfList_cons hnf
    have hrec := ppList_parse r ind2 ind ((pend ++ ind2 ++ d) ++ ['\n'])
      (f := f) rest hwr hpfr hnfr hi2 hi
      (by
        simp only [List.all_append, Bool.and_eq_true]
        exact ⟨⟨⟨hpv, allSpaces_valid hi2⟩, hwd⟩, by decide⟩)
      (by simp)
      (by
        unfold needL at hf
        exact hf)
    rw [show writeData pend ++ (ppList ind2 (.text d :: r) ++
        (ind ++ '<' :: '/' :: rest)) =
      writeData ((pend ++ ind2 ++ d) ++ ['\n']) ++
        (ppList ind2 r ++ (ind ++ '<' :: '/' :: rest)) from by
        show writeData pend ++ ((writeData (ind2 ++ d ++ ['\n']) ++ ppList ind2 r)
          ++ (ind ++ '<' :: '/' :: rest)) = _
        simp [writeData_append, writeData_ws (allSpaces_ws hi2), writeData_nl]]
    rw [hrec]
    simp only [decList]
  | .elem enm ea ecs :: r, ind2, ind, pend, f, rest, hw, hpf, hnf, hi2, hi,
      hpv, hpne, hf => by
    obtain ⟨hwe, hwr⟩ := wfList_cons hw
    obtain ⟨hpfe, hpfr⟩ := poisonFreeList_cons hpf
    obtain ⟨hnfe, hnfr⟩ := nfList_cons hnf
    obtain ⟨n, rfl⟩ : ∃ n, f = n + 1 := ⟨f - 1, by
      unfold needL at hf
      omega⟩
    have hfe : needE (.elem enm ea ecs) ≤ n := by
      unfold needL at hf
      omega
    have hfr : needL r ≤ n := by
      unfold needL at hf
      omega
    obtain ⟨c0, nmr, hnm⟩ : ∃ c0 nmr, enm = c0 :: nmr := by
      cases henm : enm with
      | nil =>
        exfalso
        have := (wfNode_elem hwe).1
        rw [henm] at this
        exact absurd this (by simp [wfName])
      | cons a b => exact ⟨a, b, rfl⟩
    have hstart : isNameStart c0 = true := by
      have h2 := (wfNode_elem hwe).1
      rw [hnm] at h2
      have h3 : isNameStart c0 = true ∧ nmr.all isNameChar = true := by
        simpa [wfName, Bool.and_eq_true] using h2
      exact h3.1
    have he := ppElemCore_parse (.elem enm ea ecs) ind2
      (f := n) ('\n' :: (ppList ind2 r ++ (ind ++ '<' :: '/' :: rest)))
      hwe hpfe hnfe rfl hi2 hfe
    have hs := ppList_parse r ind2 ind ['\n'] (f := n) rest hwr hpfr hnfr
      hi2 hi (by decide) (by simp) hfr
    rw [show writeData ['\n'] = ['\n'] from rfl] at hs
    simp only [List.cons_append, List.nil_append] at hs
    obtain ⟨Y, hY⟩ := ppElemCore_shape ind2 enm ea ecs
    rw [hY, hnm] at he
    simp only [List.cons_append, List.append_assoc] at he
    rw [show writeData pend ++ (ppList ind2 (.elem enm ea ecs :: r) ++
        (ind ++ '<' :: '/' :: rest)) =
      writeData (pend ++ ind2) ++ '<' :: c0 ::
        (nmr ++ (Y ++ '\n' :: (ppList ind2 r ++ (ind ++ '<' :: '/' :: rest))))
      from by
        show writeData pend ++ (((ind2 ++ '<' ::
          (ppElemCore ind2 (.elem enm ea ecs) ++ ['\n'])) ++ ppList ind2 r)
          ++ (ind ++ '<' :: '/' :: rest)) = _
        rw [writeData_append, writeData_ws (allSpaces_ws hi2), hY, hnm]
        simp]
    rw [parseNodes_step n (pend ++ ind2)
      (by
        rw [List.all_append]
        simp only [Bool.and_eq_true]
        exact ⟨hpv, allSpaces_valid hi2⟩)
      (by simp [hpne]) hstart he hs]
    rw [hnm]
    simp only [decList]

/-- A printed element parses back to its decorated form, with any
sufficient fuel. -/
theorem ppElemCore_parse : ∀ (t : XmlNode) (ind : List Char) {f : Nat}
    (rest : List Char), wfNode t = true → poisonFree t = true →
    nfNode t = true → isElem t = true → allSpaces ind = true → needE t ≤ f →
    parseElemAfterLt f (ppElemCore ind t ++ rest) = some (decNode ind t, rest)
  | .text _, _, _, _, _, _, _, hel, _, _ => (Bool.false_ne_true hel).elim
  | .elem nm attrs cs, ind, f, rest, hw, hpf, hnf, _, hind, hfuel => by
    obtain ⟨hwn, hwa, hwcs⟩ := wfNode_elem hw
    obtain ⟨hpfa, hpfcs⟩ := poisonFree_elem hpf
    obtain ⟨n, rfl⟩ : ∃ n, f = n + 1 := ⟨f - 1, by
      unfold needE at hfuel
      omega⟩
    have hfa : attrs.length + 1 ≤ n := by
      unfold needE at hfuel
      omega
    have hfl : needL cs ≤ n := by
      unfold needE at hfuel
      omega
    cases cs with
    | nil =>
      unfold ppElemCore decNode
      dsimp only
      unfold parseElemAfterLt
      rw [show (nm ++ ppAttrs attrs ++ ['/', '>']) ++ rest =
        nm ++ (ppAttrs attrs ++ '/' :: ('>' :: rest)) from by simp]
      rw [parseName_ppA nm attrs '/' ('>' :: rest) hwn (by decide)]
      dsimp only
      rw [parseAttrs_pp attrs [] '/' ('>' :: rest) hwa hpfa hfa
        (by decide) (by decide)]
      rfl
    | cons c1 cr =>
      cases c1 with
      | text d =>
        cases cr with
        | nil =>
          obtain ⟨hds, hdne⟩ := nfNode_text (nfList_cons (nfNode_elem hnf).2.2).1
          have hdv : d.all validChar = true := (wfList_cons hwcs).1
          unfold ppElemCore decNode
          dsimp only
          unfold parseElemAfterLt
          rw [show (nm ++ ppAttrs attrs ++ ('>' :: (writeData d ++
              ('<' :: '/' :: nm ++ ['>'])))) ++ rest =
            nm ++ (ppAttrs attrs ++ '>' :: (writeData d ++
              '<' :: '/' :: (nm ++ '>' :: rest))) from by simp]
          rw [parseName_ppA nm attrs '>' _ hwn (by decide)]
          dsimp only
          rw [parseAttrs_pp attrs [] '>' _ hwa hpfa hfa (by decide) (by decide)]
          dsimp only
          split
          · rename_i heq
            simp only [List.cons.injEq] at heq
            exact absurd heq.1 (by decide)
          · rename_i heq
            simp only [List.cons.injEq] at heq
            obtain ⟨nn, rfl⟩ : ∃ nn, n = nn + 1 := ⟨n - 1, by
              unfold needL at hfl
              unfold needL at hfl
              omega⟩
            rw [← heq.2]
            rw [parseNodes_close nn d (nm ++ '>' :: rest) hdv hdne]
            dsimp only
            rw [parseName_pp '>' rest hwn (by decide)]
            dsimp only
            rw [if_pos rfl]
            rfl
          · rename_i hg1 hg2
            exact (hg2 (writeData d ++ '<' :: '/' :: (nm ++ '>' :: rest)) rfl).elim
        | cons c2 cr2 =>
          have hmulti := ppList_parse (.text d :: c2 :: cr2) (ind ++ sp2) ind
            ['\n'] (f := n) (nm ++ '>' :: rest) hwcs hpfcs
            (nfNode_elem hnf).2.2
            (by
              simp only [allSpaces, List.all_append, Bool.and_eq_true]
              exact ⟨hind, by decide⟩)
            hind (by decide) (by simp) hfl
          unfold ppElemCore decNode
          dsimp only
          unfold parseElemAfterLt
          rw [show (nm ++ ppAttrs attrs ++ ('>' :: '\n' ::
              (ppList (ind ++ sp2) (.text d :: c2 :: cr2) ++
                (ind ++ '<' :: '/' :: nm ++ ['>'])))) ++ rest =
            nm ++ (ppAttrs attrs ++ '>' :: ('\n' ::
              (ppList (ind ++ sp2) (.text d :: c2 :: cr2) ++
                (ind ++ '<' :: '/' :: (nm ++ '>' :: rest))))) from by simp]
          rw [parseName_ppA nm attrs '>' _ hwn (by decide)]
          dsimp only
          rw [parseAttrs_pp attrs [] '>' _ hwa hpfa hfa (by decide) (by decide)]
          dsimp only
          split
          · rename_i heq
            simp only [List.cons.injEq] at heq
            exact absurd heq.1 (by decide)
          · rename_i heq
            simp only [List.cons.injEq] at heq
            rw [← heq.2]
            rw [show ('\n' :: (ppList (ind ++ sp2) (.text d :: c2 :: cr2) ++
                (ind ++ '<' :: '/' :: (nm ++ '>' :: rest)))) =
              writeData ['\n'] ++ (ppList (ind ++ sp2) (.text d :: c2 :: cr2) ++
                (ind ++ '<' :: '/' :: (nm ++ '>' :: rest))) from rfl]
            rw [hmulti]
            dsimp only
            rw [parseName_pp '>' rest hwn (by decide)]
            dsimp only
            rw [if_pos rfl]
            rfl
          · rename_i hg1 hg2
            exact (hg2 ('\n' :: (ppList (ind ++ sp2) (.text d :: c2 :: cr2) ++
              (ind ++ '<' :: '/' :: (nm ++ '>' :: rest)))) rfl).elim
      | elem e2n e2a e2c =>
        have hmulti := ppList_parse (.elem e2n e2a e2c :: cr) (ind ++ sp2) ind
          ['\n'] (f := n) (nm ++ '>' :: rest) hwcs hpfcs
          (nfNode_elem hnf).2.2
          (by
            simp only [allSpaces, List.all_append, Bool.and_eq_true]
            exact ⟨hind, by decide⟩)
          hind (by decide) (by simp) hfl
        unfold ppElemCore decNode
        dsimp only
        unfold parseElemAfterLt
        rw [show (nm ++ ppAttrs attrs ++ ('>' :: '\n' ::
            (ppList (ind ++ sp2) (.elem e2n e2a e2c :: cr) ++
              (ind ++ '<' :: '/' :: nm ++ ['>'])))) ++ rest =
          nm ++ (ppAttrs attrs ++ '>' :: ('\n' ::
            (ppList (ind ++ sp2) (.elem e2n e2a e2c :: cr) ++
              (ind ++ '<' :: '/' :: (nm ++ '>' :: rest))))) from by simp]
        rw [parseName_ppA nm attrs '>' _ hwn (by decide)]
        dsimp only
        rw [parseAttrs_pp attrs [] '>' _ hwa hpfa hfa (by decide) (by decide)]
        dsimp only
        split
        · rename_i heq
          simp only [List.cons.injEq] at heq
          exact absurd heq.1 (by decide)
        · rename_i heq
          simp only [List.cons.injEq] at heq
          rw [← heq.2]
          rw [show ('\n' :: (ppList (ind ++ sp2) (.elem e2n e2a e2c :: cr) ++
              (ind ++ '<' :: '/' :: (nm ++ '>' :: rest)))) =
            writeData ['\n'] ++ (ppList (ind ++ sp2) (.elem e2n e2a e2c :: cr) ++
              (ind ++ '<' :: '/' :: (nm ++ '>' :: rest))) from rfl]
          rw [hmulti]
          dsimp only
          rw [parseName_pp '>' rest hwn (by decide)]
          dsimp only
          rw [if_pos rfl]
          rfl
        · rename_i hg1 hg2
          exact (hg2 ('\n' :: (ppList (ind ++ sp2) (.elem e2n e2a e2c :: cr) ++
            (ind ++ '<' :: '/' :: (nm ++ '>' :: rest)))) rfl).elim

end

/-! #### The printed output contains no carriage return -/

/-- No carriage return anywhere. -/
def noCR (l : List Char) : Bool := l.all (fun c => !(c = '\r'))

/-- `noCR` over append. -/
theorem noCR_append (a b : List Char) : noCR (a ++ b) = (noCR a && noCR b) :=
  List.all_append

/-- `noCR` over cons. -/
theorem noCR_cons (c : Char) (l : List Char) :
    noCR (c :: l) = ((!(c = '\r')) && noCR l) :=
  List.all_cons

/-- The empty string has no carriage return. -/
theorem noCR_nil : noCR [] = true := rfl

/-- Expat end-of-line normalization does nothing without carriage
returns. -/
theorem normalizeEols_id : ∀ {l : List Char}, noCR l = true → normalizeEols l = l
  | [], _ => rfl
  | c :: r, h => by
    have hparts : (!(c = '\r')) = true ∧ noCR r = true := by
      simpa [noCR, List.all_cons, Bool.and_eq_true] using h
    have hc : ¬(c = '\r') := by simpa using hparts.1
    unfold normalizeEols
    split
    · rename_i heq
      simp at heq
    · rename_i rest heq
      simp only [List.cons.injEq] at heq
      exact absurd heq.1 hc
    · rename_i a rest hg heq
      simp only [List.cons.injEq] at heq
      exact absurd heq.1 hc
    · rename_i a c2 rest hg1 hg2 heq
      simp only [List.cons.injEq] at heq
      rw [← heq.1, ← heq.2]
      rw [normalizeEols_id hparts.2]

/-- Escaping never introduces a carriage return. -/
theorem writeData_noCR {d : List Char} (h : noCR d = true) :
    noCR (writeData d) = true := by
  induction d with
  | nil => rfl
  | cons c r ih =>
    have hparts : (!(c = '\r')) = true ∧ noCR r = true := by
      simpa [noCR, List.all_cons, Bool.and_eq_true] using h
    show noCR (escChar c ++ writeData r) = true
    rw [noCR_append]
    simp only [Bool.and_eq_true]
    refine ⟨?_, ih hparts.2⟩
    unfold escChar
    by_cases h1 : c = '&'
    · rw [if_pos h1]; decide
    · rw [if_neg h1]
      by_cases h2 : c = '<'
      · rw [if_pos h2]; decide
      · rw [if_neg h2]
        by_cases h3 : c = '"'
        · rw [if_pos h3]; decide
        · rw [if_neg h3]
          by_cases h4 : c = '>'
          · rw [if_pos h4]; decide
          · rw [if_neg h4]
            simpa [noCR] using hparts.1

/-- Well-formed names have no carriage return. -/
theorem wfName_noCR {nm : List Char} (h : wfName nm = true) :
    noCR nm = true := by
  cases nm with
  | nil => rfl
  | cons c r =>
    have hparts : isNameStart c = true ∧ r.all isNameChar = true := by
      simpa [wfName, Bool.and_eq_true] using h
    simp only [noCR, List.all_cons, Bool.and_eq_true]
    constructor
    · simp only [Bool.not_eq_true', decide_eq_false_iff_not]
      intro hcon
      rw [hcon] at hparts
      exact absurd hparts.1 (by decide)
    · rw [List.all_eq_true]
      intro x hx
      have hxn := List.all_eq_true.mp hparts.2 x hx
      simp only [Bool.not_eq_true', decide_eq_false_iff_not]
      intro hcon
      rw [hcon] at hxn
      exact absurd hxn (by decide)

/-- Spaces have no carriage return. -/
theorem allSpaces_noCR {l : List Char} (h : allSpaces l = true) :
    noCR l = true := by
  rw [noCR, List.all_eq_true]
  intro c hc
  have := List.all_eq_true.mp h c hc
  simp only [decide_eq_true_eq] at this
  rw [this]
  rfl

/-- Printed attribute lists have no carriage return. -/
theorem ppAttrs_noCR : ∀ {attrs : Attrs}, wfAttrs attrs = true →
    pfAttrs attrs = true → noCR (ppAttrs attrs) = true
  | [], _, _ => rfl
  | (nm, v) :: as, hwf, hpf => by
    have hwfparts : (wfName nm && v.all validChar) = true ∧ wfAttrs as = true := by
      have h1 : ((nm, v) :: as).all (fun a => wfName a.1 && a.2.all validChar)
          = true ∧ attrNamesDistinct ((nm, v) :: as) = true := by
        simpa [wfAttrs, Bool.and_eq_true] using hwf
      have h2 := h1.1
      rw [List.all_cons, Bool.and_eq_true] at h2
      refine ⟨h2.1, ?_⟩
      have h3 : attrNamesDistinct as = true := by
        have := h1.2
        simp only [attrNamesDistinct, Bool.and_eq_true] at this
        exact this.2
      simp only [wfAttrs, Bool.and_eq_true]
      exact ⟨h2.2, h3⟩
    have hpfparts : v.all (fun ch => !(ch = '\t' || ch = '\n' || ch = '\r')) = true ∧
        pfAttrs as = true := by
      simpa [pfAttrs, List.all_cons, Bool.and_eq_true] using hpf
    have hvCR : noCR v = true := by
      rw [noCR, List.all_eq_true]
      intro c hc
      have := List.all_eq_true.mp hpfparts.1 c hc
      simp only [Bool.not_eq_true', Bool.or_eq_false_iff,
        decide_eq_false_iff_not] at this ⊢
      exact this.2
    have hnm : wfName nm = true := by
      have := hwfparts.1
      rw [Bool.and_eq_true] at this
      exact this.1
    show noCR (' ' :: (nm ++ '=' :: '"' :: (writeData v ++ '"' :: ppAttrs as))) = true
    simp only [noCR, List.all_cons, List.all_append, Bool.and_eq_true]
    refine ⟨by decide, ?_, by decide, by decide, ?_, by decide, ?_⟩
    · exact wfName_noCR hnm
    · exact writeData_noCR hvCR
    · exact ppAttrs_noCR hwfparts.2 hpfparts.2

mutual

/-- Printed element cores have no carriage return. -/
theorem ppElemCore_noCR : ∀ (t : XmlNode) (ind : List Char),
    wfNode t = true → poisonFree t = true → allSpaces ind = true →
    noCR (ppElemCore ind t) = true
  | .text _, _, _, _, _ => rfl
  | .elem nm attrs cs, ind, hw, hpf, hind => by
    obtain ⟨hwn, hwa, hwcs⟩ := wfNode_elem hw
    obtain ⟨hpfa, hpfcs⟩ := poisonFree_elem hpf
    unfold ppElemCore
    cases cs with
    | nil =>
      dsimp only
      simp [noCR_append, noCR_cons, noCR_nil, wfName_noCR hwn, ppAttrs_noCR hwa hpfa]
    | cons c1 cr =>
      cases c1 with
      | text d =>
        cases cr with
        | nil =>
          dsimp only
          have hdCR : noCR d = true := by
            have := (poisonFreeList_cons hpfcs).1
            rw [noCR, List.all_eq_true]
            intro c hc
            exact List.all_eq_true.mp this c hc
          simp [noCR_append, noCR_cons, noCR_nil, wfName_noCR hwn, ppAttrs_noCR hwa hpfa,
            writeData_noCR hdCR]
        | cons c2 cr2 =>
          dsimp only
          have hl := ppList_noCR (.text d :: c2 :: cr2) (ind ++ sp2) hwcs hpfcs
            (by
              simp only [allSpaces, List.all_append, Bool.and_eq_true]
              exact ⟨hind, by decide⟩)
          simp [noCR_append, noCR_cons, noCR_nil, wfName_noCR hwn, ppAttrs_noCR hwa hpfa,
            hl, allSpaces_noCR hind]
      | elem a b c =>
        dsimp only
        have hl := ppList_noCR (.elem a b c :: cr) (ind ++ sp2) hwcs hpfcs
          (by
            simp only [allSpaces, List.all_append, Bool.and_eq_true]
            exact ⟨hind, by decide⟩)
        simp [noCR_append, noCR_cons, noCR_nil, wfName_noCR hwn, ppAttrs_noCR hwa hpfa,
          hl, allSpaces_noCR hind]

/-- Printed child lists have no carriage return. -/
theorem ppList_noCR : ∀ (cs : List XmlNode) (ind : List Char),
    wfList cs = true → poisonFreeList cs = true → allSpaces ind = true →
    noCR (ppList ind cs) = true
  | [], _, _, _, _ => rfl
  | .text d :: r, ind, hw, hpf, hind => by
    have hdCR : noCR d = true := by
      have := (poisonFreeList_cons hpf).1
      rw [noCR, List.all_eq_true]
      intro c hc
      exact List.all_eq_true.mp this c hc
    have hr := ppList_noCR r ind (wfList_cons hw).2 (poisonFreeList_cons hpf).2 hind
    unfold ppList
    have hseg : noCR (writeData (ind ++ (d ++ ['\n']))) = true := by
      apply writeData_noCR
      simp [noCR_append, noCR_cons, noCR_nil, allSpaces_noCR hind, hdCR]
    simp [noCR_append, noCR_nil, hseg, hr]
  | .elem a b c :: r, ind, hw, hpf, hind => by
    have hr := ppList_noCR r ind (wfList_cons hw).2 (poisonFreeList_cons hpf).2 hind
    have he := ppElemCore_noCR (.elem a b c) ind (wfList_cons hw).1
      (poisonFreeList_cons hpf).1 hind
    unfold ppList
    simp [noCR_append, noCR_cons, noCR_nil, allSpaces_noCR hind, he, hr]

end

/-! #### The fuel `parseDocument` supplies is sufficient -/

/-- Every printed attribute takes at least four characters. -/
theorem ppAttrs_len : ∀ attrs : Attrs, attrs.length ≤ (ppAttrs attrs).length
  | [] => Nat.le_refl _
  | (nm, v) :: as => by
    have ih := ppAttrs_len as
    show ((nm, v) :: as).length ≤
      (' ' :: (nm ++ '=' :: '"' :: (writeData v ++ '"' :: ppAttrs as))).length
    simp only [List.length_cons, List.length_append]
    omega

mutual

/-- The printed length bounds the fuel needed to reparse an element. -/
theorem needE_le : ∀ (t : XmlNode) (ind : List Char),
    needE t ≤ (ppElemCore ind t).length + 1
  | .text _, _ => by
    unfold needE
    omega
  | .elem nm attrs cs, ind => by
    have ha := ppAttrs_len attrs
    unfold needE ppElemCore
    cases cs with
    | nil =>
      dsimp only
      unfold needL
      simp only [List.length_append, List.length_cons, List.length_nil]
      omega
    | cons c1 cr =>
      cases c1 with
      | text d =>
        cases cr with
        | nil =>
          dsimp only
          unfold needL
          unfold needL
          simp only [List.length_append, List.length_cons, List.length_nil]
          omega
        | cons c2 cr2 =>
          dsimp only
          have hl := needL_le (.text d :: c2 :: cr2) (ind ++ sp2)
          simp only [List.length_append, List.length_cons, List.length_nil]
          omega
      | elem a b c =>
        dsimp only
        have hl := needL_le (.elem a b c :: cr) (ind ++ sp2)
        simp only [List.length_append, List.length_cons, List.length_nil]
        omega

/-- The printed length bounds the fuel needed to reparse a child list. -/
theorem needL_le : ∀ (cs : List XmlNode) (ind : List Char),
    needL cs ≤ (ppList ind cs).length + 1
  | [], _ => by
    unfold needL ppList
    omega
  | .text d :: r, ind => by
    have ih := needL_le r ind
    unfold needL ppList
    simp only [List.length_append]
    omega
  | .elem a b c :: r, ind => by
    have ih := needL_le r ind
    have ie := needE_le (.elem a b c) ind
    unfold needL ppList
    simp only [List.length_append, List.length_cons, List.length_nil]
    omega

end

/-! #### `parseDocument` on pretty-printed output -/

/-- `parseElemAfterLt` only ever returns element nodes. -/
theorem parseElemAfterLt_isElem : ∀ (f : Nat) (l : List Char) {t : XmlNode}
    {r : List Char}, parseElemAfterLt f l = some (t, r) → isElem t = true
  | 0, l, t, r => by
    intro h
    simp [parseElemAfterLt] at h
  | f + 1, l, t, r => by
    intro h
    unfold parseElemAfterLt at h
    cases hpn : parseName l with
    | none => rw [hpn] at h; simp at h
    | some p =>
      obtain ⟨nm, r1⟩ := p
      rw [hpn] at h
      dsimp only at h
      cases hpa : parseAttrs f r1 [] with
      | none => rw [hpa] at h; simp at h
      | some pa =>
        obtain ⟨attrs, r2⟩ := pa
        rw [hpa] at h
        dsimp only at h
        split at h
        · simp only [Option.some_inj, Prod.mk.injEq] at h
          rw [← h.1]
          rfl
        · cases hpc : parseNodes f _ with
          | none => rw [hpc] at h; simp at h
          | some pc =>
            obtain ⟨cs, r4⟩ := pc
            rw [hpc] at h
            dsimp only at h
            cases hpn2 : parseName r4 with
            | none => rw [hpn2] at h; simp at h
            | some p2 =>
              obtain ⟨nm2, r5⟩ := p2
              rw [hpn2] at h
              dsimp only at h
              split at h
              · split at h
                · simp only [Option.some_inj, Prod.mk.injEq] at h
                  rw [← h.1]
                  rfl
                · simp at h
              · simp at h
        · simp at h

/-- Parsed documents have an element root. -/
theorem parseDocument_isElem {s : List Char} {root : XmlNode}
    (h : parseDocument s = some root) : isElem root = true := by
  unfold parseDocument at h
  dsimp only at h
  split at h
  · simp at h
  · split at h
    · cases hpe : parseElemAfterLt (s.length + 1) _ with
      | none => rw [hpe] at h; simp at h
      | some pe =>
        obtain ⟨t, r2⟩ := pe
        rw [hpe] at h
        dsimp only at h
        split at h
        · simp only [Option.some_inj] at h
          rw [← h]
          exact parseElemAfterLt_isElem _ _ hpe
        · simp at h
    · simp at h

/-- `parseDocument` turns pretty-printed output into the decorated tree. -/
theorem parseDocument_pp (t : XmlNode) (hw : wfNode t = true)
    (hpf : poisonFree t = true) (hnf : nfNode t = true)
    (hel : isElem t = true) :
    parseDocument (toprettyxml t) = some (decNode [] t) := by
  have hCR : noCR (toprettyxml t) = true := by
    unfold toprettyxml
    simp [noCR_append, noCR_cons, noCR_nil, ppElemCore_noCR t [] hw hpf rfl,
      show noCR xmlDecl = true from by decide]
  have hlen : needE t ≤ (toprettyxml t).length + 1 := by
    have h1 := needE_le t []
    have h2 : (ppElemCore [] t).length ≤ (toprettyxml t).length := by
      unfold toprettyxml
      simp only [List.length_append, List.length_cons]
      omega
    omega
  unfold parseDocument
  dsimp only
  rw [normalizeEols_id hCR]
  show (match parseElemAfterLt ((toprettyxml t).length + 1)
      (ppElemCore [] t ++ ['\n']) with
    | none => none
    | some (root, r2) => if skipWs r2 = [] then some root else none) =
    some (decNode [] t)
  rw [ppElemCore_parse t [] ['\n'] hw hpf hnf hel rfl hlen]
  dsimp only
  rw [if_pos (show skipWs ['\n'] = [] from rfl)]

/-! #### The traversal absorbs the decoration -/

mutual

/-- What the blank-removing traversal makes of a decorated element: the
decoration strips away, leaving only empty text markers. -/
def vdNode : XmlNode → XmlNode
  | .text d => .text d
  | .elem nm attrs cs =>
    let vcs := match cs with
      | [] => []
      | [.text d] => [.text d]
      | _ => vdList [] cs
    .elem nm attrs
      (if sortable_node_names.contains nm then sortChildren vcs else vcs)

/-- Traversal of a decorated child list; `curd` is the character data of
the current run after stripping. -/
def vdList (curd : List Char) : List XmlNode → List XmlNode
  | [] => [.text curd]
  | .text d :: r => vdList d r
  | e :: r => .text curd :: vdNode e :: vdList [] r

end

/-- Space-only strings are Python whitespace. -/
theorem allSpaces_py {l : List Char} (h : allSpaces l = true) :
    ∀ c ∈ l, pyIsSpace c = true := by
  intro c hc
  have := List.all_eq_true.mp h c hc
  simp only [decide_eq_true_eq] at this
  rw [this]
  rfl

/-- The tail of a list without adjacent texts has none either. -/
theorem noAdjTexts_tail {x : XmlNode} {r : List XmlNode}
    (h : noAdjTexts (x :: r) = true) : noAdjTexts r = true := by
  cases x with
  | elem a b c => exact h
  | text d =>
    cases r with
    | nil => rfl
    | cons y r2 =>
      cases y with
      | text d2 => exact absurd h (by simp [noAdjTexts])
      | elem a b c => exact h

/-- A child list without adjacent texts never starts with two texts. -/
theorem noAdjTexts_head {d : List Char} {r : List XmlNode}
    (h : noAdjTexts (.text d :: r) = true) :
    ∀ (d2 : List Char) (r2 : List XmlNode), r ≠ .text d2 :: r2 := by
  intro d2 r2 hcon
  rw [hcon] at h
  exact absurd h (by simp [noAdjTexts])

/-- `visitChildren` on an element head. -/
theorem visitChildren_cons_elem {x : XmlNode} (rest : List XmlNode)
    (hx : isElem x = true) :
    visitChildren (x :: rest) = visitNode x :: visitChildren rest := by
  cases x with
  | text d => exact (Bool.false_ne_true hx).elim
  | elem a b c => rfl

/-- Decorated elements are elements. -/
theorem decNode_isElem (ind : List Char) {t : XmlNode} (h : isElem t = true) :
    isElem (decNode ind t) = true := by
  cases t with
  | text d => exact (Bool.false_ne_true h).elim
  | elem a b c =>
    unfold decNode
    rfl

mutual

/-- The traversal of a decorated element gives its `vdNode`. -/
theorem visit_decNode : ∀ (t : XmlNode) (ind : List Char),
    nfNode t = true → isElem t = true → allSpaces ind = true →
    visitNode (decNode ind t) = vdNode t
  | .text _, _, _, hel, _ => (Bool.false_ne_true hel).elim
  | .elem nm attrs cs, ind, hnf, _, hind => by
    obtain ⟨hadj, _, hnfl⟩ := nfNode_elem hnf
    unfold decNode vdNode
    cases cs with
    | nil =>
      dsimp only
      rfl
    | cons c1 cr =>
      cases c1 with
      | text d =>
        cases cr with
        | nil =>
          dsimp only
          have hd := nfNode_text (nfList_cons hnfl).1
          show XmlNode.elem nm attrs
            (if sortable_node_names.contains nm then
              sortChildren [.text (pyStrip d)] else [.text (pyStrip d)]) = _
          rw [hd.1]
        | cons c2 cr2 =>
          dsimp only
          have hvl := visit_decList (.text d :: c2 :: cr2) (ind ++ sp2) ind
            ['\n'] [] ['\n'] [] hnfl hadj
            (by
              simp only [allSpaces, List.all_append, Bool.and_eq_true]
              exact ⟨hind, by decide⟩)
            hind (by intro c hc; simp at hc; rw [hc]; rfl)
            (by intro c hc; simp at hc)
            (by simp) rfl (Or.inl rfl)
          show XmlNode.elem nm attrs
            (if sortable_node_names.contains nm then
              sortChildren (visitChildren (decList (ind ++ sp2) ind ['\n']
                (.text d :: c2 :: cr2)))
            else visitChildren (decList (ind ++ sp2) ind ['\n']
              (.text d :: c2 :: cr2))) = _
          rw [hvl]
      | elem a b c =>
        dsimp only
        have hvl := visit_decList (.elem a b c :: cr) (ind ++ sp2) ind
          ['\n'] [] ['\n'] [] hnfl hadj
          (by
            simp only [allSpaces, List.all_append, Bool.and_eq_true]
            exact ⟨hind, by decide⟩)
          hind (by intro ch hc; simp at hc; rw [hc]; rfl)
          (by intro ch hc; simp at hc)
          (by simp) rfl (Or.inl rfl)
        show XmlNode.elem nm attrs
          (if sortable_node_names.contains nm then
            sortChildren (visitChildren (decList (ind ++ sp2) ind ['\n']
              (.elem a b c :: cr)))
          else visitChildren (decList (ind ++ sp2) ind ['\n']
            (.elem a b c :: cr))) = _
        rw [hvl]

/-- The traversal of a decorated child list gives its `vdList`. -/
theorem visit_decList : ∀ (cs : List XmlNode) (ind2 ind P curd w1 w2 : List Char),
    nfList cs = true → noAdjTexts cs = true →
    allSpaces ind2 = true → allSpaces ind = true →
    (∀ c ∈ w1, pyIsSpace c = true) → (∀ c ∈ w2, pyIsSpace c = true) →
    P = w1 ++ curd ++ w2 → pyStrip curd = curd →
    (curd = [] ∨ ∀ (d2 : List Char) (r2 : List XmlNode), cs ≠ .text d2 :: r2) →
    visitChildren (decList ind2 ind P cs) = vdList curd cs
  | [], ind2, ind, P, curd, w1, w2, _, _, _, hi, hw1, hw2, hP, hcs, _ => by
    subst hP
    simp only [decList, vdList]
    show XmlNode.text (pyStrip (w1 ++ curd ++ w2 ++ ind)) :: visitChildren [] =
      [.text curd]
    rw [show w1 ++ curd ++ w2 ++ ind = w1 ++ curd ++ (w2 ++ ind) from
      List.append_assoc _ _ _]
    rw [pyStrip_sandwich hw1 (by
      intro c hc
      rcases List.mem_append.mp hc with h | h
      · exact hw2 c h
      · exact allSpaces_py hi c h)]
    rw [hcs]
    rfl
  | .text d :: r, ind2, ind, P, curd, w1, w2, hnf, hadj, hi2, hi, hw1, hw2, hP,
      hcs, hadjc => by
    have hcurd0 : curd = [] := by
      rcases hadjc with h | h
      · exact h
      · exact absurd rfl (h d r)
    subst hcurd0
    have hd := nfNode_text (nfList_cons hnf).1
    have hPws : ∀ c ∈ P ++ ind2, pyIsSpace c = true := by
      intro c hc
      rcases List.mem_append.mp hc with h | h
      · rw [hP] at h
        rcases List.mem_append.mp h with h2 | h2
        · rcases List.mem_append.mp h2 with h3 | h3
          · exact hw1 c h3
          · simp at h3
        · exact hw2 c h2
      · exact allSpaces_py hi2 c h
    have ih := visit_decList r ind2 ind ((P ++ ind2 ++ d) ++ ['\n']) d
      (P ++ ind2) ['\n'] (nfList_cons hnf).2 (noAdjTexts_tail hadj) hi2 hi
      hPws (by intro c hc; simp at hc; rw [hc]; rfl)
      (by rw [List.append_assoc (P ++ ind2) d ['\n']])
      hd.1
      (Or.inr (noAdjTexts_head hadj))
    simp only [decList, vdList]
    exact ih
  | .elem a b c :: r, ind2, ind, P, curd, w1, w2, hnf, hadj, hi2, hi, hw1, hw2,
      hP, hcs, hadjc => by
    have hnfe := (nfList_cons hnf).1
    have ih := visit_decList r ind2 ind ['\n'] [] ['\n'] []
      (nfList_cons hnf).2 (noAdjTexts_tail hadj) hi2 hi
      (by intro ch hc; simp at hc; rw [hc]; rfl)
      (by intro ch hc; simp at hc)
      (by simp) rfl (Or.inl rfl)
    have ihe := visit_decNode (.elem a b c) ind2 hnfe rfl hi2
    simp only [decList, vdList]
    rw [show visitChildren (XmlNode.text (P ++ ind2) ::
        decNode ind2 (.elem a b c) :: decList ind2 ind ['\n'] r) =
      XmlNode.text (pyStrip (P ++ ind2)) ::
        visitChildren (decNode ind2 (.elem a b c) :: decList ind2 ind ['\n'] r)
      from rfl]
    rw [visitChildren_cons_elem _
      (decNode_isElem ind2 (show isElem (.elem a b c) = true from rfl))]
    rw [ihe, ih]
    rw [hP, show w1 ++ curd ++ w2 ++ ind2 = w1 ++ curd ++ (w2 ++ ind2) from
      List.append_assoc _ _ _]
    rw [pyStrip_sandwich hw1 (by
      intro ch hc
      rcases List.mem_append.mp hc with h | h
      · exact hw2 ch h
      · exact allSpaces_py hi2 ch h)]
    rw [hcs]

end

/-! #### Sorting a decorated child run floats the text markers forward -/

/-- Element-only child lists. -/
def allElems (l : List XmlNode) : Bool := l.all isElem

/-- One step of the insertion sort. -/
theorem sortChildren_cons (x : XmlNode) (l : List XmlNode) :
    sortChildren (x :: l) = insertByName x (sortChildren l) := rfl

/-- The defining equation of `insertByName` on a non-empty list. -/
theorem insertByName_cons (x y : XmlNode) (ys : List XmlNode) :
    insertByName x (y :: ys) =
      if ltChars (nodeName y) (nodeName x) then y :: insertByName x ys
      else x :: y :: ys := by
  conv_lhs => unfold insertByName

/-- Insertion stops at a not-smaller head. -/
theorem insertByName_front {x y : XmlNode} (ys : List XmlNode)
    (h : ltChars (nodeName y) (nodeName x) = false) :
    insertByName x (y :: ys) = x :: y :: ys := by
  rw [insertByName_cons, if_neg (by simp [h])]

/-- Insertion walks past strictly smaller entries. -/
theorem insertByName_skip {x : XmlNode} : ∀ (pre suf : List XmlNode),
    (∀ y ∈ pre, ltChars (nodeName y) (nodeName x) = true) →
    insertByName x (pre ++ suf) = pre ++ insertByName x suf
  | [], _, _ => rfl
  | y :: pre2, suf, h => by
    show insertByName x (y :: (pre2 ++ suf)) = y :: pre2 ++ insertByName x suf
    rw [insertByName_cons, if_pos (h y (List.mem_cons_self _ _))]
    rw [insertByName_skip pre2 suf (fun z hz => h z (List.mem_cons_of_mem _ hz))]
    rfl

/-- `vdNode` keeps the node name. -/
theorem vdNode_name : ∀ e : XmlNode, nodeName (vdNode e) = nodeName e
  | .text _ => rfl
  | .elem nm a cs => by
    unfold vdNode
    rfl

/-- `vdNode` keeps elementhood. -/
theorem vdNode_isElem {e : XmlNode} (h : isElem e = true) :
    isElem (vdNode e) = true := by
  cases e with
  | text d => exact (Bool.false_ne_true h).elim
  | elem a b c =>
    unfold vdNode
    rfl

/-- Character order from code points. -/
theorem char_lt_of_toNat {a b : Char} (h : a.toNat < b.toNat) : a < b := by
  show a.val < b.val
  rw [UInt32.lt_def, BitVec.lt_def]
  exact h

/-- `"#text"` sorts before every well-formed element name. -/
theorem ltChars_hash {nm : List Char} (h : wfName nm = true) :
    ltChars "#text".data nm = true := by
  cases nm with
  | nil => exact absurd h (by simp [wfName])
  | cons c0 r =>
    have hstart : isNameStart c0 = true := by
      have h2 : isNameStart c0 = true ∧ r.all isNameChar = true := by
        simpa [wfName, Bool.and_eq_true] using h
      exact h2.1
    have hne : ¬('#' = c0) := by
      intro hcon
      rw [← hcon] at hstart
      exact absurd hstart (by decide)
    show ltChars ('#' :: "text".data) (c0 :: r) = true
    unfold ltChars
    rw [if_neg hne]
    simp only [decide_eq_true_eq]
    apply char_lt_of_toNat
    have h35 : '#'.toNat = 35 := by decide
    rw [h35]
    revert hstart
    unfold isNameStart
    intro hstart
    simp only [Bool.or_eq_true, decide_eq_true_eq] at hstart
    rcases hstart with ((h1 | h1) | h1) | h1
    · revert h1
      unfold Char.isAlpha Char.isUpper Char.isLower
      intro h1
      simp only [Bool.or_eq_true, Bool.and_eq_true, decide_eq_true_eq] at h1
      rcases h1 with ⟨h2, _⟩ | ⟨h2, _⟩
      · have h5 : (65 : Nat) ≤ (c0.val).toNat :=
          UInt32.le_toNat_of_le (by decide) h2
        show 35 < (c0.val).toNat
        omega
      · have h5 : (97 : Nat) ≤ (c0.val).toNat :=
          UInt32.le_toNat_of_le (by decide) h2
        show 35 < (c0.val).toNat
        omega
    · rw [h1]
      decide
    · rw [h1]
      decide
    · have h2 : 0x80 ≤ (c0.val).toNat := h1
      show 35 < (c0.val).toNat
      omega

/-- Splitting a sorted two-element head. -/
theorem sortedByName_cons2 {a b : XmlNode} {r : List XmlNode}
    (h : sortedByName (a :: b :: r) = true) :
    ltChars (nodeName b) (nodeName a) = false ∧ sortedByName (b :: r) = true := by
  have h2 : (!ltChars (nodeName b) (nodeName a) && sortedByName (b :: r)) = true := h
  simpa [Bool.and_eq_true, Bool.not_eq_true'] using h2

/-- Tails of sorted lists are sorted. -/
theorem sortedByName_tail {a : XmlNode} {l : List XmlNode}
    (h : sortedByName (a :: l) = true) : sortedByName l = true := by
  cases l with
  | nil => rfl
  | cons b r => exact (sortedByName_cons2 h).2

/-- Splitting an element-only list. -/
theorem allElems_cons {x : XmlNode} {r : List XmlNode}
    (h : allElems (x :: r) = true) : isElem x = true ∧ allElems r = true := by
  simpa [allElems, List.all_cons, Bool.and_eq_true] using h

/-- After an element, a sorted well-formed child list has only elements. -/
theorem sorted_tail_elems : ∀ (x : XmlNode) (l : List XmlNode),
    isElem x = true → wfNode x = true → sortedByName (x :: l) = true →
    wfList l = true → allElems l = true
  | _, [], _, _, _, _ => rfl
  | x, y :: r, hel, hw, hsort, hwl => by
    cases x with
    | text d => exact (Bool.false_ne_true hel).elim
    | elem nm a cs =>
      have hc2 := sortedByName_cons2 hsort
      cases y with
      | text d2 =>
        exfalso
        have h1 : ltChars "#text".data nm = false := hc2.1
        rw [ltChars_hash (wfNode_elem hw).1] at h1
        exact absurd h1 (by simp)
      | elem nm2 a2 cs2 =>
        have hrec := sorted_tail_elems (.elem nm2 a2 cs2) r rfl
          (wfList_cons hwl).1 hc2.2 (wfList_cons hwl).2
        simp only [allElems, List.all_cons, Bool.and_eq_true]
        refine ⟨rfl, ?_⟩
        simpa [allElems] using hrec

/-- Sorting the traversal of a decorated run of elements floats all text
markers to the front, in order. -/
theorem sortChildren_vdList : ∀ (es : List XmlNode) (c : List Char),
    allElems es = true → sortedByName es = true → wfList es = true →
    sortChildren (vdList c es) = .text c ::
      (List.replicate es.length (.text []) ++ es.map vdNode)
  | [], c, _, _, _ => by
    simp only [vdList]
    rfl
  | e :: r, c, hall, hsort, hw => by
    obtain ⟨hele, hallr⟩ := allElems_cons hall
    cases e with
    | text d => exact (Bool.false_ne_true hele).elim
    | elem a b cs =>
      have hwe := (wfList_cons hw).1
      have ih := sortChildren_vdList r [] hallr (sortedByName_tail hsort)
        (wfList_cons hw).2
      simp only [vdList]
      rw [sortChildren_cons, sortChildren_cons, ih]
      rw [show XmlNode.text [] ::
          (List.replicate r.length (XmlNode.text []) ++ r.map vdNode) =
        (XmlNode.text [] :: List.replicate r.length (XmlNode.text [])) ++
          r.map vdNode from rfl]
      have hpre : ∀ y ∈ XmlNode.text [] ::
          List.replicate r.length (XmlNode.text []),
          ltChars (nodeName y) (nodeName (vdNode (XmlNode.elem a b cs))) = true := by
        intro y hy
        have hy2 : y = XmlNode.text [] := by
          rcases List.mem_cons.mp hy with h2 | h2
          · exact h2
          · exact List.eq_of_mem_replicate h2
        rw [hy2, vdNode_name]
        exact ltChars_hash (wfNode_elem hwe).1
      rw [insertByName_skip _ (r.map vdNode) hpre]
      have hfront : insertByName (vdNode (XmlNode.elem a b cs)) (r.map vdNode) =
          vdNode (XmlNode.elem a b cs) :: r.map vdNode := by
        cases r with
        | nil => rfl
        | cons e2 r2 =>
          show insertByName _ (vdNode e2 :: r2.map vdNode) = _
          apply insertByName_front
          rw [vdNode_name, vdNode_name]
          exact (sortedByName_cons2 hsort).1
      rw [hfront]
      rw [show (XmlNode.text [] :: List.replicate r.length (XmlNode.text [])) ++
          (vdNode (XmlNode.elem a b cs) :: r.map vdNode) =
        XmlNode.text [] :: (List.replicate r.length (XmlNode.text []) ++
          (vdNode (XmlNode.elem a b cs) :: r.map vdNode)) from rfl]
      rw [insertByName_front _ (show ltChars (nodeName (XmlNode.text []))
        (nodeName (XmlNode.text c)) = false from ltChars_irrefl _)]
      simp [List.replicate_succ]

/-! #### `normalize()` erases the remaining markers -/

/-- Empty text children vanish under `normalize()`. -/
theorem normalizeChildren_nil_text (l : List XmlNode) :
    normalizeChildren (.text [] :: l) = normalizeChildren l := rfl

/-- A block of empty text markers vanishes under `normalize()`. -/
theorem normalizeChildren_replicate : ∀ (k : Nat) (l : List XmlNode),
    normalizeChildren (List.replicate k (.text []) ++ l) = normalizeChildren l
  | 0, _ => rfl
  | k + 1, l => by
    show normalizeChildren (.text [] :: (List.replicate k (.text []) ++ l)) = _
    rw [normalizeChildren_nil_text, normalizeChildren_replicate k l]

/-- `normalizeChildren` on an element head. -/
theorem normalizeChildren_cons_elem {x : XmlNode} (rest : List XmlNode)
    (hx : isElem x = true) :
    normalizeChildren (x :: rest) = normalizeNode x :: normalizeChildren rest := by
  cases x with
  | text d => exact (Bool.false_ne_true hx).elim
  | elem a b c => rfl

/-- A lone non-empty text child survives `normalize()`. -/
theorem normalizeChildren_single_text {d : List Char} (hd : d ≠ []) :
    normalizeChildren [.text d] = [.text d] := by
  unfold normalizeChildren
  rw [if_neg hd]
  rfl

/-- A non-empty text head keeps its identity when what follows does not
normalize to a leading text node. -/
theorem normalizeChildren_text_cons {d : List Char} {rest out : List XmlNode}
    (hd : d ≠ []) (h : normalizeChildren rest = out)
    (hout : ∀ (d2 : List Char) (r2 : List XmlNode), out ≠ .text d2 :: r2) :
    normalizeChildren (.text d :: rest) = .text d :: out := by
  conv_lhs => unfold normalizeChildren
  rw [if_neg hd, h]
  cases out with
  | nil => rfl
  | cons o or =>
    cases o with
    | text d2 => exact absurd rfl (hout d2 or)
    | elem a b c => rfl

mutual

/-- Undecorating: `normalize()` of the traversed decorated tree gives the
original element back. -/
theorem vd_T : ∀ t : XmlNode, wfNode t = true → nfNode t = true →
    isElem t = true → normalizeNode (vdNode t) = t
  | .text _, _, _, hel => (Bool.false_ne_true hel).elim
  | .elem nm attrs cs, hw, hnf, _ => by
    obtain ⟨hwn, hwa, hwl⟩ := wfNode_elem hw
    obtain ⟨hadj, hsortable, hnfl⟩ := nfNode_elem hnf
    unfold vdNode
    dsimp only
    by_cases hs : sortable_node_names.contains nm = true
    · rw [if_pos hs]
      have hsorted : sortedByName cs = true := by
        rw [hs] at hsortable
        simpa using hsortable
      cases cs with
      | nil => rfl
      | cons c1 cr =>
        cases c1 with
        | text d =>
          cases cr with
          | nil =>
            have hd := nfNode_text (nfList_cons hnfl).1
            show normalizeNode (.elem nm attrs (sortChildren [.text d])) = _
            rw [show sortChildren [XmlNode.text d] = [XmlNode.text d] from rfl]
            rw [show normalizeNode (XmlNode.elem nm attrs [XmlNode.text d]) =
              .elem nm attrs (normalizeChildren [XmlNode.text d]) from rfl]
            rw [normalizeChildren_single_text hd.2]
          | cons c2 cr2 =>
            have hd := nfNode_text (nfList_cons hnfl).1
            cases c2 with
            | text d2 =>
              exact absurd hadj (by simp [noAdjTexts])
            | elem a2 b2 cs2 =>
              have helems : allElems (XmlNode.elem a2 b2 cs2 :: cr2) = true := by
                have h2 := sorted_tail_elems (.elem a2 b2 cs2) cr2 rfl
                  (wfList_cons (wfList_cons hwl).2).1
                  (sortedByName_tail hsorted)
                  (wfList_cons (wfList_cons hwl).2).2
                simp only [allElems, List.all_cons, Bool.and_eq_true]
                exact ⟨rfl, by simpa [allElems] using h2⟩
              have hsv := sortChildren_vdList (.elem a2 b2 cs2 :: cr2) d helems
                (sortedByName_tail hsorted) (wfList_cons hwl).2
              have hmap := vd_Tmap (.elem a2 b2 cs2 :: cr2) helems
                (wfList_cons hwl).2 (nfList_cons hnfl).2
              show normalizeNode (.elem nm attrs (sortChildren
                (vdList [] (.text d :: .elem a2 b2 cs2 :: cr2)))) = _
              rw [show vdList [] (XmlNode.text d :: XmlNode.elem a2 b2 cs2 :: cr2)
                = vdList d (XmlNode.elem a2 b2 cs2 :: cr2) from rfl]
              rw [hsv]
              rw [show normalizeNode (XmlNode.elem nm attrs (XmlNode.text d ::
                (List.replicate (XmlNode.elem a2 b2 cs2 :: cr2).length
                  (XmlNode.text []) ++
                  (XmlNode.elem a2 b2 cs2 :: cr2).map vdNode))) =
                .elem nm attrs (normalizeChildren (XmlNode.text d ::
                (List.replicate (XmlNode.elem a2 b2 cs2 :: cr2).length
                  (XmlNode.text []) ++
                  (XmlNode.elem a2 b2 cs2 :: cr2).map vdNode))) from rfl]
              rw [normalizeChildren_text_cons hd.2
                (by rw [normalizeChildren_replicate, hmap])
                (by intro d2 r2 hcon; simp at hcon)]
        | elem a2 b2 cs2 =>
          have helems : allElems (XmlNode.elem a2 b2 cs2 :: cr) = true := by
            have h2 := sorted_tail_elems (.elem a2 b2 cs2) cr rfl
              (wfList_cons hwl).1 hsorted (wfList_cons hwl).2
            simp only [allElems, List.all_cons, Bool.and_eq_true]
            exact ⟨rfl, by simpa [allElems] using h2⟩
          have hsv := sortChildren_vdList (.elem a2 b2 cs2 :: cr) [] helems
            hsorted hwl
          have hmap := vd_Tmap (.elem a2 b2 cs2 :: cr) helems hwl hnfl
          show normalizeNode (.elem nm attrs (sortChildren
            (vdList [] (.elem a2 b2 cs2 :: cr)))) = _
          rw [hsv]
          rw [show normalizeNode (XmlNode.elem nm attrs (XmlNode.text [] ::
            (List.replicate (XmlNode.elem a2 b2 cs2 :: cr).length
              (XmlNode.text []) ++ (XmlNode.elem a2 b2 cs2 :: cr).map vdNode))) =
            .elem nm attrs (normalizeChildren (XmlNode.text [] ::
            (List.replicate (XmlNode.elem a2 b2 cs2 :: cr).length
              (XmlNode.text []) ++ (XmlNode.elem a2 b2 cs2 :: cr).map vdNode)))
            from rfl]
          rw [normalizeChildren_nil_text, normalizeChildren_replicate, hmap]
    · rw [if_neg hs]
      cases cs with
      | nil => rfl
      | cons c1 cr =>
        cases c1 with
        | text d =>
          cases cr with
          | nil =>
            have hd := nfNode_text (nfList_cons hnfl).1
            show normalizeNode (.elem nm attrs [.text d]) = _
            rw [show normalizeNode (XmlNode.elem nm attrs [XmlNode.text d]) =
              .elem nm attrs (normalizeChildren [XmlNode.text d]) from rfl]
            rw [normalizeChildren_single_text hd.2]
          | cons c2 cr2 =>
            have hTL := vd_TL (.text d :: c2 :: cr2) [] hwl hnfl hadj (Or.inl rfl)
            show normalizeNode (.elem nm attrs
              (vdList [] (.text d :: c2 :: cr2))) = _
            rw [show normalizeNode (XmlNode.elem nm attrs
              (vdList [] (XmlNode.text d :: c2 :: cr2))) =
              .elem nm attrs (normalizeChildren
                (vdList [] (XmlNode.text d :: c2 :: cr2))) from rfl]
            rw [hTL]
            rfl
        | elem a2 b2 cs2 =>
          have hTL := vd_TL (.elem a2 b2 cs2 :: cr) [] hwl hnfl hadj (Or.inl rfl)
          show normalizeNode (.elem nm attrs
            (vdList [] (.elem a2 b2 cs2 :: cr))) = _
          rw [show normalizeNode (XmlNode.elem nm attrs
            (vdList [] (XmlNode.elem a2 b2 cs2 :: cr))) =
            .elem nm attrs (normalizeChildren
              (vdList [] (XmlNode.elem a2 b2 cs2 :: cr))) from rfl]
          rw [hTL]
          rfl

/-- Undecorating a child run. -/
theorem vd_TL : ∀ (cs : List XmlNode) (curd : List Char),
    wfList cs = true → nfList cs = true → noAdjTexts cs = true →
    (curd = [] ∨ ∀ (d2 : List Char) (r2 : List XmlNode), cs ≠ .text d2 :: r2) →
    normalizeChildren (vdList curd cs) =
      (if curd = [] then [] else [.text curd]) ++ cs
  | [], curd, _, _, _, _ => by
    by_cases hcu : curd = []
    · subst hcu
      rfl
    · rw [if_neg hcu]
      show normalizeChildren [.text curd] = _
      rw [normalizeChildren_single_text hcu]
      rfl
  | .text d :: r, curd, hw, hnf, hadj, hadjc => by
    have hcurd0 : curd = [] := by
      rcases hadjc with h | h
      · exact h
      · exact absurd rfl (h d r)
    subst hcurd0
    have hd := nfNode_text (nfList_cons hnf).1
    have ih := vd_TL r d (wfList_cons hw).2 (nfList_cons hnf).2
      (noAdjTexts_tail hadj) (Or.inr (noAdjTexts_head hadj))
    show normalizeChildren (vdList d r) = _
    rw [ih, if_neg hd.2]
    rfl
  | .elem a b c :: r, curd, hw, hnf, hadj, _ => by
    have hrest : normalizeChildren (vdNode (.elem a b c) :: vdList [] r) =
        .elem a b c :: r := by
      rw [normalizeChildren_cons_elem _
        (vdNode_isElem (show isElem (.elem a b c) = true from rfl))]
      rw [vd_T (.elem a b c) (wfList_cons hw).1 (nfList_cons hnf).1 rfl]
      rw [vd_TL r [] (wfList_cons hw).2 (nfList_cons hnf).2
        (noAdjTexts_tail hadj) (Or.inl rfl)]
      rfl
    show normalizeChildren (.text curd :: vdNode (.elem a b c) :: vdList [] r) = _
    by_cases hcu : curd = []
    · subst hcu
      rw [normalizeChildren_nil_text, hrest]
      rfl
    · rw [normalizeChildren_text_cons hcu hrest
        (by intro d2 r2 hcon; simp at hcon)]
      rw [if_neg hcu]
      rfl

/-- Undecorating a mapped element list. -/
theorem vd_Tmap : ∀ es : List XmlNode, allElems es = true →
    wfList es = true → nfList es = true →
    normalizeChildren (es.map vdNode) = es
  | [], _, _, _ => rfl
  | e :: r, hall, hw, hnf => by
    obtain ⟨hele, hallr⟩ := allElems_cons hall
    show normalizeChildren (vdNode e :: r.map vdNode) = e :: r
    rw [normalizeChildren_cons_elem _ (vdNode_isElem hele)]
    rw [vd_T e (wfList_cons hw).1 (nfList_cons hnf).1 hele]
    rw [vd_Tmap r hallr (wfList_cons hw).2 (nfList_cons hnf).2]

end

/-! #### The canonicalizing pass preserves well-formedness and
poison-freedom -/

/-- `wfList` as a pointwise `all`. -/
theorem wfList_eq_all : ∀ l : List XmlNode, wfList l = l.all wfNode
  | [] => rfl
  | c :: r => by
    show (wfNode c && wfList r) = _
    rw [wfList_eq_all r, List.all_cons]

/-- `poisonFreeList` as a pointwise `all`. -/
theorem poisonFreeList_eq_all : ∀ l : List XmlNode,
    poisonFreeList l = l.all poisonFree
  | [] => rfl
  | c :: r => by
    show (poisonFree c && poisonFreeList r) = _
    rw [poisonFreeList_eq_all r, List.all_cons]

/-- Merging equation of `normalizeChildren`. -/
theorem normalizeChildren_text_merge {d d2 : List Char} {r r2 : List XmlNode}
    (hd : d ≠ []) (h : normalizeChildren r = .text d2 :: r2) :
    normalizeChildren (.text d :: r) = .text (d ++ d2) :: r2 := by
  conv_lhs => unfold normalizeChildren
  rw [if_neg hd, h]

mutual

/-- The traversal keeps the tree well-formed. -/
theorem wf_visit : ∀ t : XmlNode, wfNode t = true → wfNode (visitNode t) = true
  | .text _, h => h
  | .elem nm a cs, h => by
    obtain ⟨hwn, hwa, hwl⟩ := wfNode_elem h
    have hv := wf_visitList cs hwl
    show wfNode (.elem nm a (if sortable_node_names.contains nm then
      sortChildren (visitChildren cs) else visitChildren cs)) = true
    by_cases hs : sortable_node_names.contains nm = true
    · rw [if_pos hs]
      simp only [wfNode, Bool.and_eq_true]
      refine ⟨⟨hwn, hwa⟩, ?_⟩
      rw [wfList_eq_all, perm_all_eq (sortChildren_perm _), ← wfList_eq_all]
      exact hv
    · rw [if_neg hs]
      simp only [wfNode, Bool.and_eq_true]
      exact ⟨⟨hwn, hwa⟩, hv⟩

/-- The traversal keeps child lists well-formed. -/
theorem wf_visitList : ∀ cs : List XmlNode, wfList cs = true →
    wfList (visitChildren cs) = true
  | [], _ => rfl
  | .text d :: r, h => by
    show wfList (.text (pyStrip d) :: visitChildren r) = true
    simp only [wfList, Bool.and_eq_true]
    exact ⟨all_pyStrip (wfList_cons h).1, wf_visitList r (wfList_cons h).2⟩
  | .elem a b c :: r, h => by
    show wfList (visitNode (.elem a b c) :: visitChildren r) = true
    simp only [wfList, Bool.and_eq_true]
    exact ⟨wf_visit _ (wfList_cons h).1, wf_visitList r (wfList_cons h).2⟩

end

mutual

/-- The traversal keeps the tree poison-free. -/
theorem pf_visit : ∀ t : XmlNode, poisonFree t = true →
    poisonFree (visitNode t) = true
  | .text _, h => h
  | .elem nm a cs, h => by
    obtain ⟨hpa, hpl⟩ := poisonFree_elem h
    have hv := pf_visitList cs hpl
    show poisonFree (.elem nm a (if sortable_node_names.contains nm then
      sortChildren (visitChildren cs) else visitChildren cs)) = true
    by_cases hs : sortable_node_names.contains nm = true
    · rw [if_pos hs]
      simp only [poisonFree, Bool.and_eq_true]
      refine ⟨hpa, ?_⟩
      rw [poisonFreeList_eq_all, perm_all_eq (sortChildren_perm _),
        ← poisonFreeList_eq_all]
      exact hv
    · rw [if_neg hs]
      simp only [poisonFree, Bool.and_eq_true]
      exact ⟨hpa, hv⟩

/-- The traversal keeps child lists poison-free. -/
theorem pf_visitList : ∀ cs : List XmlNode, poisonFreeList cs = true →
    poisonFreeList (visitChildren cs) = true
  | [], _ => rfl
  | .text d :: r, h => by
    show poisonFreeList (.text (pyStrip d) :: visitChildren r) = true
    simp only [poisonFreeList, Bool.and_eq_true]
    exact ⟨all_pyStrip (poisonFreeList_cons h).1,
      pf_visitList r (poisonFreeList_cons h).2⟩
  | .elem a b c :: r, h => by
    show poisonFreeList (visitNode (.elem a b c) :: visitChildren r) = true
    simp only [poisonFreeList, Bool.and_eq_true]
    exact ⟨pf_visit _ (poisonFreeList_cons h).1,
      pf_visitList r (poisonFreeList_cons h).2⟩

end

mutual

/-- `normalize()` keeps the tree well-formed. -/
theorem wf_normalize : ∀ t : XmlNode, wfNode t = true →
    wfNode (normalizeNode t) = true
  | .text _, h => h
  | .elem nm a cs, h => by
    obtain ⟨hwn, hwa, hwl⟩ := wfNode_elem h
    show wfNode (.elem nm a (normalizeChildren cs)) = true
    simp only [wfNode, Bool.and_eq_true]
    exact ⟨⟨hwn, hwa⟩, wf_normalizeList cs hwl⟩

/-- `normalize()` keeps child lists well-formed. -/
theorem wf_normalizeList : ∀ cs : List XmlNode, wfList cs = true →
    wfList (normalizeChildren cs) = true
  | [], _ => rfl
  | .text d :: r, h => by
    have ih := wf_normalizeList r (wfList_cons h).2
    have hd : d.all validChar = true := (wfList_cons h).1
    by_cases hd0 : d = []
    · rw [show normalizeChildren (.text d :: r) = normalizeChildren r from by
        rw [hd0]
        rfl]
      exact ih
    · cases hnc : normalizeChildren r with
      | nil =>
        rw [normalizeChildren_text_cons hd0 hnc
          (by intro d2 r2 hcon; simp at hcon)]
        simp only [wfList, Bool.and_eq_true]
        exact ⟨hd, trivial⟩
      | cons c2 r2 =>
        cases c2 with
        | text d2 =>
          rw [normalizeChildren_text_merge hd0 hnc]
          rw [hnc] at ih
          obtain ⟨h1, h2⟩ := wfList_cons ih
          simp only [wfList, Bool.and_eq_true]
          refine ⟨?_, h2⟩
          show (d ++ d2).all validChar = true
          rw [List.all_append]
          simp only [Bool.and_eq_true]
          exact ⟨hd, h1⟩
        | elem a2 b2 cs2 =>
          rw [normalizeChildren_text_cons hd0 hnc
            (by intro d3 r3 hcon; simp at hcon)]
          rw [hnc] at ih
          simp only [wfList, Bool.and_eq_true]
          exact ⟨hd, wfList_cons ih⟩
  | .elem a b c :: r, h => by
    show wfList (normalizeNode (.elem a b c) :: normalizeChildren r) = true
    simp only [wfList, Bool.and_eq_true]
    exact ⟨wf_normalize _ (wfList_cons h).1, wf_normalizeList r (wfList_cons h).2⟩

end

mutual

/-- `normalize()` keeps the tree poison-free. -/
theorem pf_normalize : ∀ t : XmlNode, poisonFree t = true →
    poisonFree (normalizeNode t) = true
  | .text _, h => h
  | .elem nm a cs, h => by
    obtain ⟨hpa, hpl⟩ := poisonFree_elem h
    show poisonFree (.elem nm a (normalizeChildren cs)) = true
    simp only [poisonFree, Bool.and_eq_true]
    exact ⟨hpa, pf_normalizeList cs hpl⟩

/-- `normalize()` keeps child lists poison-free. -/
theorem pf_normalizeList : ∀ cs : List XmlNode, poisonFreeList cs = true →
    poisonFreeList (normalizeChildren cs) = true
  | [], _ => rfl
  | .text d :: r, h => by
    have ih := pf_normalizeList r (poisonFreeList_cons h).2
    have hd : d.all (fun c => !(c = '\r')) = true := (poisonFreeList_cons h).1
    by_cases hd0 : d = []
    · rw [show normalizeChildren (.text d :: r) = normalizeChildren r from by
        rw [hd0]
        rfl]
      exact ih
    · cases hnc : normalizeChildren r with
      | nil =>
        rw [normalizeChildren_text_cons hd0 hnc
          (by intro d2 r2 hcon; simp at hcon)]
        simp only [poisonFreeList, Bool.and_eq_true]
        exact ⟨hd, trivial⟩
      | cons c2 r2 =>
        cases c2 with
        | text d2 =>
          rw [normalizeChildren_text_merge hd0 hnc]
          rw [hnc] at ih
          obtain ⟨h1, h2⟩ := poisonFreeList_cons ih
          simp only [poisonFreeList, Bool.and_eq_true]
          refine ⟨?_, h2⟩
          show (d ++ d2).all (fun c => !(c = '\r')) = true
          rw [List.all_append]
          simp only [Bool.and_eq_true]
          exact ⟨hd, h1⟩
        | elem a2 b2 cs2 =>
          rw [normalizeChildren_text_cons hd0 hnc
            (by intro d3 r3 hcon; simp at hcon)]
          rw [hnc] at ih
          simp only [poisonFreeList, Bool.and_eq_true]
          exact ⟨hd, poisonFreeList_cons ih⟩
  | .elem a b c :: r, h => by
    show poisonFreeList (normalizeNode (.elem a b c) :: normalizeChildren r) = true
    simp only [poisonFreeList, Bool.and_eq_true]
    exact ⟨pf_normalize _ (poisonFreeList_cons h).1,
      pf_normalizeList r (poisonFreeList_cons h).2⟩

end

/-- C2 (amended): canonicalization is idempotent on every parseable input
whose parse tree is poison-free — no tab, newline or carriage return in
attribute values and no carriage return in character data.  For such an
input, re-canonicalizing the canonical output returns it unchanged.  (The
counterexample shows the restriction is necessary: an attribute-value
newline entered through a character reference survives canonicalization as
a raw newline, which the second parse normalizes to a space.) -/
theorem C2_amended_idempotent (s c : String)
    (hn : xml_normalize s = some c)
    (hpf : ∀ root : XmlNode, parseDocument s.data = some root →
      poisonFree root = true) :
    xml_normalize c = some c := by
  unfold xml_normalize at hn
  cases hroot : parseDocument s.data with
  | none =>
    rw [hroot] at hn
    simp at hn
  | some root =>
    rw [hroot] at hn
    dsimp only at hn
    simp only [Option.some_inj] at hn
    have hw := parseDocument_wf hroot
    have hel := parseDocument_isElem hroot
    have hpfr := hpf root hroot
    have hwT : wfNode (normalizeNode (visitNode root)) = true :=
      wf_normalize _ (wf_visit root hw)
    have hpfT : poisonFree (normalizeNode (visitNode root)) = true :=
      pf_normalize _ (pf_visit root hpfr)
    have hnfT : nfNode (normalizeNode (visitNode root)) = true :=
      visit_nf root hel
    have helT : isElem (normalizeNode (visitNode root)) = true := by
      cases root with
      | text d => exact (Bool.false_ne_true hel).elim
      | elem a b cs => rfl
    have hdoc := parseDocument_pp (normalizeNode (visitNode root))
      hwT hpfT hnfT helT
    unfold xml_normalize
    rw [show c.data = toprettyxml (normalizeNode (visitNode root)) from by
      rw [← hn]]
    rw [hdoc]
    dsimp only
    rw [visit_decNode _ [] hnfT helT rfl]
    rw [vd_T _ hwT hnfT helT]
    rw [hn]

/-- Witness: a concrete canonicalization that the amended idempotence
theorem fixes. -/
theorem C2_amended_idempotent_witness :
    xml_normalize "<?xml version=\"1.0\" ?>\n<project/>\n" =
      some "<?xml version=\"1.0\" ?>\n<project/>\n" := by
  apply C2_amended_idempotent "<project/>"
  · rfl
  · intro root h
    rw [show parseDocument ("<project/>" : String).data =
      some (XmlNode.elem "project".data [] []) from rfl] at h
    simp only [Option.some_inj] at h
    rw [← h]
    rfl

end JJM
